import Mathlib

/-!
Weighted fair queuing scheduler (`wfq.c`).

A shallow embedding of `main` of `wfq.c`: the ingestion loop (find-or-create of
the flow entry, weight update, finish-tag computation, ledger append) and the
dispatch loop (selection scan, fast-forward, send).

Conventions of the embedding.
* `long long` and `int` values are integers and `double` values are exact
  rationals (`ℚ`), so `(double)L / (double)weight` is the rational quotient.
  A statement about the dispatch order that is to hold for whatever numbers the
  `double` arithmetic stored is stated over an arbitrary ledger, or over a
  ledger that is the ingested one apart from its finish tags (`SameButTags`).
* The clock of the dispatch loop comes in two readings. `wfqIter` adds
  `start + p->length` over the unbounded integers. `wfqIter64` adds as the
  64-bit `long long` of the program does and wraps around on overflow
  (`wrap64`); `NoOverflow` says that no addition of a run overflows, and then
  the two runs are the same.
* The C arrays `flows`, `pkts` and `sent` are lists; `flows_cnt` and `pkts_cnt`
  are their lengths.
* `int best = -1` is `Option Nat` with `none` for `-1`.
* One round of `fgets` + `sscanf_s` is a value of `Line`: the text of the line
  and what `sscanf_s` delivered (its return value and the seven targets).
* What `printf` writes is collected in `out`; every entry also records the
  ledger index of the packet, `lineOf` gives the printed pair.
* The `while` loop of the dispatch phase takes fuel; `wfqLoop` returns `none`
  when the fuel runs out before the loop condition fails.
* The scan starts `next_arrival` at `LLONG_MAX`. An arrival time read into a
  `long long` is at most `LLONG_MAX`; where a statement depends on that, it
  carries the hypothesis `InRange`.
* Allocation failure (`malloc`, `realloc`) is not modelled.
-/

namespace WFQ

/-! ## Definitions -/

/-- The constant `MAX_KEY_LEN`. -/
def MAX_KEY_LEN : Nat := 256

/-- The constant `LLONG_MAX` of `limits.h` for a 64-bit `long long`. -/
def LLONG_MAX : Int := 9223372036854775807

/-- The struct `flow_info`. -/
structure flow_info where
  key : String
  last_finish : ℚ
  weight : Int
  priority : Nat
  deriving DecidableEq, Repr

/-- The struct `Packet`. -/
structure Packet where
  arrival : Int
  length : Int
  finish_tag : ℚ
  priority : Nat
  record : String
  deriving DecidableEq, Repr

instance : Inhabited flow_info := ⟨⟨"", 0, 1, 0⟩⟩

instance : Inhabited Packet := ⟨⟨0, 0, 0, 0, ""⟩⟩

/-- One input line after `fgets`, newline stripping and `sscanf_s`: `text` is
the line, `matched` the return value of `sscanf_s`, the other fields are the
targets of the conversion (`w` keeps its initial `0` when it is not matched). -/
structure Line where
  text : String
  matched : Int
  t : Int
  src_ip : String
  src_prt : String
  dst_ip : String
  dst_prt : String
  L : Int
  w : Int
  deriving DecidableEq, Repr

/-- The state of the ingestion loop: the arrays `flows` and `pkts` and the
counter `next_prio`. -/
structure Ingest where
  flows : List flow_info
  pkts : List Packet
  next_prio : Nat
  deriving DecidableEq, Repr

/-- The state of the dispatch loop: the ledger, the `sent` flags, `sent_cnt`,
`cur_time`, and the lines printed so far, each as (ledger index, start). -/
structure Sim where
  pkts : List Packet
  sent : List Bool
  sent_cnt : Nat
  cur_time : Int
  out : List (Nat × Int)
  deriving DecidableEq, Repr

/-- The flow key written by `snprintf(keybuf, sizeof(keybuf), "%s:%s-%s:%s", ...)`:
at most `MAX_KEY_LEN - 1` characters are kept. -/
def keybuf (ln : Line) : String :=
  String.mk ((ln.src_ip.data ++ ':' :: ln.src_prt.data ++ '-' :: ln.dst_ip.data
    ++ ':' :: ln.dst_prt.data).take (MAX_KEY_LEN - 1))

/-- The lookup loop over `flows`: the first index whose key equals `kb`
(`strcmp == 0`), or `flows.length` when there is none (`idx < 0`). -/
def findFlow (flows : List flow_info) (kb : String) : Nat :=
  flows.findIdx (fun f => f.key == kb)

/-- The body of the reading loop for one line. -/
def ingestLine (st : Ingest) (ln : Line) : Ingest :=
  if ln.matched < 6 then st
  else
    let has_w : Bool := ln.matched == 7
    let kb := keybuf ln
    let idx := findFlow st.flows kb
    -- find or create flow entry
    let flows1 :=
      if idx < st.flows.length then st.flows
      else st.flows ++ [{ key := kb, last_finish := 0, weight := 1, priority := st.next_prio }]
    let next_prio1 := if idx < st.flows.length then st.next_prio else st.next_prio + 1
    -- weight update
    let flows2 :=
      if has_w then flows1.set idx { flows1.getD idx default with weight := ln.w } else flows1
    -- finish tag
    let fl := flows2.getD idx default
    let S : ℚ := if fl.last_finish > (ln.t : ℚ) then fl.last_finish else (ln.t : ℚ)
    let F : ℚ := S + (ln.L : ℚ) / (fl.weight : ℚ)
    let flows3 := flows2.set idx { fl with last_finish := F }
    { flows := flows3
      pkts := st.pkts ++ [{ arrival := ln.t, length := ln.L, finish_tag := F,
                            priority := (flows3.getD idx default).priority,
                            record := ln.text }]
      next_prio := next_prio1 }

/-- The state before the first line is read. -/
def ingestInit : Ingest := { flows := [], pkts := [], next_prio := 0 }

/-- The reading loop over all lines of the input. -/
def ingest (tr : List Line) : Ingest := tr.foldl ingestLine ingestInit

/-- The flag `sent[i]`. -/
def isSent (sent : List Bool) (i : Nat) : Bool := sent.getD i false

/-- The body of the selection scan for index `i`; the accumulator is
`(best, next_arrival)`. -/
def scanBody (pkts : List Packet) (sent : List Bool) (cur_time : Int)
    (acc : Option Nat × Int) (i : Nat) : Option Nat × Int :=
  if isSent sent i then acc
  else if (pkts.getD i default).arrival ≤ cur_time then
    match acc.1 with
    | none => (some i, acc.2)
    | some best =>
      if (pkts.getD i default).finish_tag < (pkts.getD best default).finish_tag
          ∨ ((pkts.getD i default).finish_tag = (pkts.getD best default).finish_tag
              ∧ (pkts.getD i default).priority < (pkts.getD best default).priority)
      then (some i, acc.2) else acc
  else
    if (pkts.getD i default).arrival < acc.2 then (acc.1, (pkts.getD i default).arrival)
    else acc

/-- The selection scan `for (i = 0; i < pkts_cnt; i++)`, started with
`best = -1` and `next_arrival = LLONG_MAX`. -/
def scan (pkts : List Packet) (sent : List Bool) (cur_time : Int) : Option Nat × Int :=
  (List.range pkts.length).foldl (scanBody pkts sent cur_time) (none, LLONG_MAX)

/-- One iteration of the dispatch loop (its condition `sent_cnt < pkts_cnt`
is checked by the caller). -/
def wfqIter (st : Sim) : Sim :=
  match scan st.pkts st.sent st.cur_time with
  | (none, next_arrival) => { st with cur_time := next_arrival }
  | (some best, _) =>
    let p := st.pkts.getD best default
    let start := if st.cur_time > p.arrival then st.cur_time else p.arrival
    { st with
      out := st.out ++ [(best, start)]
      cur_time := start + p.length
      sent := st.sent.set best true
      sent_cnt := st.sent_cnt + 1 }

/-- The dispatch loop `while (sent_cnt < pkts_cnt)` with fuel: `none` when the
fuel is used up while the condition still holds. -/
def wfqLoop : Nat → Sim → Option Sim
  | 0, st => if st.sent_cnt < st.pkts.length then none else some st
  | fuel + 1, st =>
    if st.sent_cnt < st.pkts.length then wfqLoop fuel (wfqIter st) else some st

/-- The state after at most `n` iterations of the dispatch loop (fewer when
the loop condition fails earlier). -/
def wfqSteps : Nat → Sim → Sim
  | 0, st => st
  | n + 1, st => if st.sent_cnt < st.pkts.length then wfqSteps n (wfqIter st) else st

/-- The state at the start of the dispatch phase: `sent = calloc(pkts_cnt)`,
`sent_cnt = 0`, `cur_time = 0`. -/
def simInit (pkts : List Packet) : Sim :=
  { pkts := pkts, sent := List.replicate pkts.length false, sent_cnt := 0,
    cur_time := 0, out := [] }

/-- The text printed for an output entry: the start time and the record of the
packet (`printf("%lld: %s\n", start, p->record)`). -/
def lineOf (pkts : List Packet) (e : Nat × Int) : Int × String :=
  (e.2, (pkts.getD e.1 default).record)

/-- The whole program with dispatch fuel `fuel`: the entries printed. -/
def wfqMain (fuel : Nat) (tr : List Line) : Option (List (Nat × Int)) :=
  (wfqLoop fuel (simInit (ingest tr).pkts)).map Sim.out

/-- An accepted record: `sscanf_s` matched at least six fields. -/
def accepted (tr : List Line) : List Line := tr.filter (fun ln => decide (6 ≤ ln.matched))

/-- A record of six fields (no weight). -/
def rec6 (t : Int) (flow : String) (L : Int) : Line :=
  { text := "", matched := 6, t := t, src_ip := flow, src_prt := "1", dst_ip := "d",
    dst_prt := "2", L := L, w := 0 }

/-- A record of seven fields (with weight). -/
def rec7 (t : Int) (flow : String) (L : Int) (w : Int) : Line :=
  { text := "", matched := 7, t := t, src_ip := flow, src_prt := "1", dst_ip := "d",
    dst_prt := "2", L := L, w := w }

/-- Packet `i` of the ledger (`pkts[i]`). -/
def pk (pkts : List Packet) (i : Nat) : Packet := pkts.getD i default

/-- The dispatch order: `i` comes before `j` when its
(finish tag, owner priority, ledger index) is lexicographically smaller. -/
def before (pkts : List Packet) (i j : Nat) : Prop :=
  (pk pkts i).finish_tag < (pk pkts j).finish_tag
  ∨ ((pk pkts i).finish_tag = (pk pkts j).finish_tag
      ∧ ((pk pkts i).priority < (pk pkts j).priority
          ∨ ((pk pkts i).priority = (pk pkts j).priority ∧ i < j)))

instance (pkts : List Packet) (i j : Nat) : Decidable (before pkts i j) := by
  unfold before; infer_instance

/-- Packet `i` is in the ledger, unsent, and has arrived by the current time. -/
def eligible (st : Sim) (i : Nat) : Prop :=
  i < st.pkts.length ∧ isSent st.sent i = false ∧ (pk st.pkts i).arrival ≤ st.cur_time

/-- Packet `i` is in the ledger and unsent. -/
def pending (st : Sim) (i : Nat) : Prop :=
  i < st.pkts.length ∧ isSent st.sent i = false

instance (st : Sim) (i : Nat) : Decidable (eligible st i) := by
  unfold eligible; infer_instance

instance (st : Sim) (i : Nat) : Decidable (pending st i) := by
  unfold pending; infer_instance

/-- The scan over the indices below `n`. -/
def scanUpTo (pkts : List Packet) (sent : List Bool) (cur_time : Int) (n : Nat) :
    Option Nat × Int :=
  (List.range n).foldl (scanBody pkts sent cur_time) (none, LLONG_MAX)

/-- What the scan has established after the indices below `n`. -/
structure ScanInv (pkts : List Packet) (sent : List Bool) (cur : Int) (n : Nat)
    (r : Option Nat × Int) : Prop where
  none_elig : r.1 = none → ∀ i, i < n → isSent sent i = false → ¬ (pk pkts i).arrival ≤ cur
  best_lt : ∀ b, r.1 = some b → b < n
  best_unsent : ∀ b, r.1 = some b → isSent sent b = false
  best_arrived : ∀ b, r.1 = some b → (pk pkts b).arrival ≤ cur
  best_min : ∀ b, r.1 = some b → ∀ i, i < n → isSent sent i = false →
    (pk pkts i).arrival ≤ cur → i ≠ b → before pkts b i
  next_le : ∀ i, i < n → isSent sent i = false → cur < (pk pkts i).arrival →
    r.2 ≤ (pk pkts i).arrival
  next_attained : r.2 = LLONG_MAX ∨
    ∃ i, i < n ∧ isSent sent i = false ∧ cur < (pk pkts i).arrival ∧ (pk pkts i).arrival = r.2
  next_le_max : r.2 ≤ LLONG_MAX

/-- The bookkeeping that holds of every state the dispatch loop reaches. -/
structure SimBase (st : Sim) : Prop where
  sent_len : st.sent.length = st.pkts.length
  idx_lt : ∀ e ∈ st.out, e.1 < st.pkts.length
  nodup : (st.out.map Prod.fst).Nodup
  sent_iff : ∀ i, isSent st.sent i = true ↔ i ∈ st.out.map Prod.fst
  cnt : st.sent_cnt = st.out.length
  start_ge : ∀ e ∈ st.out, (pk st.pkts e.1).arrival ≤ e.2

/-- What holds of every state the dispatch loop reaches when all arrival
times are values of `long long`. -/
structure SimInv (st : Sim) extends SimBase st : Prop where
  in_range : ∀ i, i < st.pkts.length → (pk st.pkts i).arrival ≤ LLONG_MAX
  chain : st.out.Chain' (fun a b => a.2 + (pk st.pkts a.1).length ≤ b.2)
  clock : ∀ e ∈ st.out.getLast?, e.2 + (pk st.pkts e.1).length ≤ st.cur_time

/-- The arrival times of the accepted records are values of `long long`. -/
def InRange (tr : List Line) : Prop := ∀ x ∈ tr, 6 ≤ x.matched → x.t ≤ LLONG_MAX

instance (tr : List Line) : Decidable (InRange tr) := by
  unfold InRange; infer_instance

/-- The state in which the dispatch loop over the ledger `pkts` ends. -/
def finalState (pkts : List Packet) : Sim := wfqSteps (2 * pkts.length) (simInit pkts)

instance : Inhabited Line := ⟨⟨"", 0, 0, "", "", "", "", 0, 0⟩⟩

/-- Flow entry `i` of the registry (`flows[i]`). -/
def fl (flows : List flow_info) (i : Nat) : flow_info := flows.getD i default

/-- Line `i` of a list of lines. -/
def lineAt (xs : List Line) (i : Nat) : Line := xs.getD i default

/-- The flow entry the line works on: the one found, or the fresh one. -/
def flowBefore (st : Ingest) (x : Line) : flow_info :=
  if findFlow st.flows (keybuf x) < st.flows.length then
    fl st.flows (findFlow st.flows (keybuf x))
  else { key := keybuf x, last_finish := 0, weight := 1, priority := st.next_prio }

/-- The weight in force for the line. -/
def weightNow (st : Ingest) (x : Line) : Int :=
  if x.matched = 7 then x.w else (flowBefore st x).weight

/-- The finish tag computed for the line. -/
def tagNow (st : Ingest) (x : Line) : ℚ :=
  max (flowBefore st x).last_finish (x.t : ℚ) + (x.L : ℚ) / (weightNow st x : ℚ)

/-- The flow entry after the line. -/
def flowAfter (st : Ingest) (x : Line) : flow_info :=
  { key := (flowBefore st x).key, last_finish := tagNow st x, weight := weightNow st x,
    priority := (flowBefore st x).priority }

/-- The greatest index below `n` at which `p` holds. -/
def lastIdx (p : Nat → Bool) : Nat → Option Nat
  | 0 => none
  | n + 1 => if p n then some n else lastIdx p n

/-- The most recent record before position `n` with flow key `k`. -/
def prevOfKey (xs : List Line) (k : String) (n : Nat) : Option Nat :=
  lastIdx (fun j => keybuf (lineAt xs j) == k) n

/-- The finish tag of the most recent record before position `n` with flow
key `k`, and `0` when there is none. -/
def lastFinishOf (xs : List Line) (pkts : List Packet) (k : String) (n : Nat) : ℚ :=
  match prevOfKey xs k n with
  | some j => (pk pkts j).finish_tag
  | none => 0

/-- The weight given by the most recent record before position `n` with flow
key `k` that specifies a weight, and `1` when there is none. -/
def weightOf (xs : List Line) (k : String) (n : Nat) : Int :=
  match lastIdx (fun j => keybuf (lineAt xs j) == k && decide ((lineAt xs j).matched = 7)) n with
  | some j => (lineAt xs j).w
  | none => 1

/-- The position of the first record with flow key `k` (the length of the list
when there is none). -/
def firstOcc (xs : List Line) (k : String) : Nat :=
  xs.findIdx (fun y => keybuf y == k)

/-- What holds of the ingestion state after the accepted records `xs`. -/
structure IngInv (xs : List Line) (st : Ingest) : Prop where
  pk_len : st.pkts.length = xs.length
  prio_next : st.next_prio = st.flows.length
  prio_idx : ∀ f, f < st.flows.length → (fl st.flows f).priority = f
  keys_inj : ∀ f g, f < st.flows.length → g < st.flows.length →
    (fl st.flows f).key = (fl st.flows g).key → f = g
  key_seen : ∀ f, f < st.flows.length → firstOcc xs (fl st.flows f).key < xs.length
  seen_key : ∀ j, j < xs.length →
    ∃ f, f < st.flows.length ∧ (fl st.flows f).key = keybuf (lineAt xs j)
  order : ∀ f g, f < g → g < st.flows.length →
    firstOcc xs (fl st.flows f).key < firstOcc xs (fl st.flows g).key
  last : ∀ f, f < st.flows.length →
    (fl st.flows f).last_finish = lastFinishOf xs st.pkts (fl st.flows f).key xs.length
  wt : ∀ f, f < st.flows.length →
    (fl st.flows f).weight = weightOf xs (fl st.flows f).key xs.length
  ftag : ∀ i, i < xs.length →
    (pk st.pkts i).finish_tag =
      max (lastFinishOf xs st.pkts (keybuf (lineAt xs i)) i) ((lineAt xs i).t : ℚ)
        + ((lineAt xs i).L : ℚ) / (weightOf xs (keybuf (lineAt xs i)) (i + 1) : ℚ)
  pprio : ∀ i, i < xs.length →
    (pk st.pkts i).priority < st.flows.length
      ∧ (fl st.flows (pk st.pkts i).priority).key = keybuf (lineAt xs i)
  fields : ∀ i, i < xs.length →
    (pk st.pkts i).arrival = (lineAt xs i).t ∧ (pk st.pkts i).length = (lineAt xs i).L
      ∧ (pk st.pkts i).record = (lineAt xs i).text

/-- How one accepted record `x`, read after the records `xs`, changes the
ingestion state. -/
structure StepShape (xs : List Line) (st st' : Ingest) (x : Line) : Prop where
  idx_lt : findFlow st.flows (keybuf x) < st'.flows.length
  len_le : st.flows.length ≤ st'.flows.length
  pkts_eq : st'.pkts = st.pkts ++
    [Packet.mk x.t x.L (tagNow st x) (findFlow st.flows (keybuf x)) x.text]
  next : st'.next_prio = st'.flows.length
  at_idx : fl st'.flows (findFlow st.flows (keybuf x)) =
    flow_info.mk (keybuf x) (tagNow st x) (weightNow st x) (findFlow st.flows (keybuf x))
  off_idx : ∀ f, f < st'.flows.length → f ≠ findFlow st.flows (keybuf x) →
    f < st.flows.length ∧ fl st'.flows f = fl st.flows f ∧ (fl st.flows f).key ≠ keybuf x
  keys_old : ∀ f, f < st.flows.length → (fl st'.flows f).key = (fl st.flows f).key
  before_last : (flowBefore st x).last_finish = lastFinishOf xs st.pkts (keybuf x) xs.length
  before_wt : (flowBefore st x).weight = weightOf xs (keybuf x) xs.length
  cases : (findFlow st.flows (keybuf x) < st.flows.length
            ∧ st'.flows.length = st.flows.length
            ∧ firstOcc xs (keybuf x) < xs.length)
          ∨ (findFlow st.flows (keybuf x) = st.flows.length
            ∧ st'.flows.length = st.flows.length + 1
            ∧ ¬ firstOcc xs (keybuf x) < xs.length)

/-- The state of the dispatch loop of the program run on `tr` after at most
`n` iterations. -/
def stateAt (tr : List Line) (n : Nat) : Sim := wfqSteps n (simInit (ingest tr).pkts)

/-- The ledger indices of the lines printed, in the order printed. -/
def emitted (out : List (Nat × Int)) : List Nat := out.map Prod.fst

/-- Packet `i` is printed, and earlier than packet `j`, which is printed too. -/
def emittedBefore (out : List (Nat × Int)) (i j : Nat) : Prop :=
  i ∈ emitted out ∧ j ∈ emitted out ∧ (emitted out).indexOf i < (emitted out).indexOf j

instance (out : List (Nat × Int)) (i j : Nat) : Decidable (emittedBefore out i j) := by
  unfold emittedBefore; infer_instance

/-- What is kept from a step at which `i` and `j` are both eligible and `i`
comes before `j` in the dispatch order: `j` is not printed before `i`. -/
structure OrderInv (pkts : List Packet) (c0 : Int) (i j : Nat) (st : Sim) : Prop where
  inv : SimInv st
  pkts_eq : st.pkts = pkts
  clock_ge : c0 ≤ st.cur_time
  ordered : j ∈ emitted st.out → emittedBefore st.out i j

/-- The lines printed with start time at most `T`. -/
def startedBy (T : Int) (out : List (Nat × Int)) : List (Nat × Int) :=
  out.filter (fun e => decide (e.2 ≤ T))

/-- The run over the ledger `A` and the run over the ledger `A ++ B` are in
the same state, apart from the packets of `B`, all unsent, and the clock is at
most `T`. -/
structure Lock (A B : List Packet) (T : Int) (s s' : Sim) : Prop where
  sent_eq : s'.sent = s.sent ++ List.replicate B.length false
  cur_eq : s'.cur_time = s.cur_time
  out_eq : s'.out = s.out
  cnt_eq : s'.sent_cnt = s.sent_cnt
  early : s.cur_time ≤ T

/-- The relation between the run over `A` and the run over `A ++ B` when the
packets of `B` arrive after `T`: they have printed the same lines with start
at most `T`, and either they are in lockstep or neither will print such a line
any more. -/
structure Rel (A B : List Packet) (T : Int) (s s' : Sim) : Prop where
  inv_l : SimInv s
  inv_r : SimInv s'
  pkts_l : s.pkts = A
  pkts_r : s'.pkts = A ++ B
  filt : startedBy T s'.out = startedBy T s.out
  phase : Lock A B T s s'
    ∨ ((T < s.cur_time ∨ ¬ s.sent_cnt < s.pkts.length) ∧ T < s'.cur_time)

/-- The distinct flow keys that occur among the records before the first
record with the flow key of record `i`. -/
def keysBefore (xs : List Line) (i : Nat) : List String :=
  ((xs.take (firstOcc xs (keybuf (lineAt xs i)))).map keybuf).dedup

/-- The state of the dispatch loop over the ledger `pkts` after at most `n`
iterations. -/
def runAt (pkts : List Packet) (n : Nat) : Sim := wfqSteps n (simInit pkts)

/-- A ledger with a gap: one packet at `t = 0` and one at `t = 100`, both of
length 10. -/
def gapLedger : List Packet := [Packet.mk 0 10 10 0 "p", Packet.mk 100 10 110 0 "q"]

/-- What is kept through the dispatch loop for packets `i` and `j` when `i`
arrives no later than `j` and comes before it in the dispatch order: `j` is
not printed before `i`. -/
structure FifoInv (pkts : List Packet) (i j : Nat) (st : Sim) : Prop where
  base : SimBase st
  pkts_eq : st.pkts = pkts
  ordered : j ∈ emitted st.out → emittedBefore st.out i j

/-- The constant `LLONG_MIN` of `limits.h` for a 64-bit `long long`. -/
def LLONG_MIN : Int := -9223372036854775808

/-- The value a 64-bit two's complement `long long` holds for the integer `x`:
`x` itself when it is between `LLONG_MIN` and `LLONG_MAX`, and `x` reduced
modulo `2^64` into that range otherwise. -/
def wrap64 (x : Int) : Int :=
  (x + 9223372036854775808) % 18446744073709551616 - 9223372036854775808

/-- One iteration of the dispatch loop with the clock as a 64-bit `long long`:
`cur_time = start + p->length` wraps around when the sum is not a value of
`long long`. Everything else is as in `wfqIter`. -/
def wfqIter64 (st : Sim) : Sim :=
  match scan st.pkts st.sent st.cur_time with
  | (none, next_arrival) => { st with cur_time := next_arrival }
  | (some best, _) =>
    let p := st.pkts.getD best default
    let start := if st.cur_time > p.arrival then st.cur_time else p.arrival
    { st with
      out := st.out ++ [(best, start)]
      cur_time := wrap64 (start + p.length)
      sent := st.sent.set best true
      sent_cnt := st.sent_cnt + 1 }

/-- The dispatch loop with the 64-bit clock, with fuel. -/
def wfqLoop64 : Nat → Sim → Option Sim
  | 0, st => if st.sent_cnt < st.pkts.length then none else some st
  | fuel + 1, st =>
    if st.sent_cnt < st.pkts.length then wfqLoop64 fuel (wfqIter64 st) else some st

/-- The state after at most `n` iterations of the dispatch loop with the
64-bit clock. -/
def wfqSteps64 : Nat → Sim → Sim
  | 0, st => st
  | n + 1, st => if st.sent_cnt < st.pkts.length then wfqSteps64 n (wfqIter64 st) else st

/-- The state of the dispatch loop with the 64-bit clock over the ledger
`pkts` after at most `n` iterations. -/
def runAt64 (pkts : List Packet) (n : Nat) : Sim := wfqSteps64 n (simInit pkts)

/-- The whole program with the 64-bit clock and dispatch fuel `fuel`: the
entries printed. -/
def wfqMain64 (fuel : Nat) (tr : List Line) : Option (List (Nat × Int)) :=
  (wfqLoop64 fuel (simInit (ingest tr).pkts)).map Sim.out

/-- The addition `start + p->length` of an iteration from `st` does not
overflow: the sum is a value of `long long` (nothing is added when the
iteration is a fast-forward). -/
def clockFits (st : Sim) : Prop :=
  match (scan st.pkts st.sent st.cur_time).1 with
  | none => True
  | some best =>
    LLONG_MIN ≤ (if st.cur_time > (pk st.pkts best).arrival then st.cur_time
        else (pk st.pkts best).arrival) + (pk st.pkts best).length
      ∧ (if st.cur_time > (pk st.pkts best).arrival then st.cur_time
        else (pk st.pkts best).arrival) + (pk st.pkts best).length ≤ LLONG_MAX

instance (st : Sim) : Decidable (clockFits st) := by
  unfold clockFits; split <;> infer_instance

/-- No addition to the clock overflows in the first `fuel` iterations of the
dispatch loop over the ledger `pkts`. -/
def NoOverflow (pkts : List Packet) (fuel : Nat) : Prop :=
  ∀ n, n < fuel → clockFits (runAt64 pkts n)

instance (pkts : List Packet) (fuel : Nat) : Decidable (NoOverflow pkts fuel) := by
  unfold NoOverflow; infer_instance

/-- The ledger `pkts` is the ledger `qs` apart from the finish tags: the same
arrivals, lengths, owner priorities and records, with whatever numbers the
arithmetic stored as finish tags. -/
def SameButTags (pkts qs : List Packet) : Prop :=
  pkts.map (fun p => (p.arrival, p.length, p.priority, p.record))
    = qs.map (fun p => (p.arrival, p.length, p.priority, p.record))

instance (pkts qs : List Packet) : Decidable (SameButTags pkts qs) := by
  unfold SameButTags; infer_instance

/-- A trace whose second packet, of length `LLONG_MAX`, makes the 64-bit clock
overflow: flows `y`, `z` (weight `INT_MAX`), `p` and `q`; the packets of `p` and
`q` both have finish tag `10000000005`. -/
def tieWrapTrace : List Line :=
  [rec6 0 "y" 5, rec7 0 "z" 9223372036854775807 2147483647, rec6 5 "p" 10000000000,
    rec6 0 "q" 10000000005]

/-- A trace of one flow of weight `INT_MAX` whose first packet has length
`LLONG_MAX - 10`; dispatched alone, its clock ends at `LLONG_MAX`. -/
def longTrace : List Line :=
  [rec7 0 "a" 9223372036854775797 2147483647, rec6 0 "a" 5, rec6 0 "a" 5]

/-- One record of another flow that arrives at `t = 6`. -/
def lateRecord : List Line := [rec6 6 "b" 10]

theorem scanUpTo_succ (pkts : List Packet) (sent : List Bool) (cur : Int) (n : Nat) :
    scanUpTo pkts sent cur (n + 1) = scanBody pkts sent cur (scanUpTo pkts sent cur n) n := by
  simp [scanUpTo, List.range_succ, List.foldl_append]

theorem scan_eq_scanUpTo (pkts : List Packet) (sent : List Bool) (cur : Int) :
    scan pkts sent cur = scanUpTo pkts sent cur pkts.length := rfl

theorem before_irrefl (pkts : List Packet) (i : Nat) : ¬ before pkts i i := by
  unfold before
  rintro (h | ⟨_, h | ⟨_, h⟩⟩)
  · exact lt_irrefl _ h
  · exact lt_irrefl _ h
  · exact lt_irrefl _ h

theorem before_trans {pkts : List Packet} {i j k : Nat}
    (h1 : before pkts i j) (h2 : before pkts j k) : before pkts i k := by
  unfold before at *
  rcases h1 with h1 | ⟨e1, h1⟩
  · rcases h2 with h2 | ⟨e2, _⟩
    · exact Or.inl (lt_trans h1 h2)
    · exact Or.inl (e2 ▸ h1)
  · rcases h2 with h2 | ⟨e2, h2⟩
    · exact Or.inl (e1 ▸ h2)
    · refine Or.inr ⟨e1.trans e2, ?_⟩
      rcases h1 with h1 | ⟨p1, h1⟩
      · rcases h2 with h2 | ⟨p2, _⟩
        · exact Or.inl (lt_trans h1 h2)
        · exact Or.inl (p2 ▸ h1)
      · rcases h2 with h2 | ⟨p2, h2⟩
        · exact Or.inl (p1 ▸ h2)
        · exact Or.inr ⟨p1.trans p2, lt_trans h1 h2⟩

theorem before_total (pkts : List Packet) {i j : Nat} (h : i ≠ j) :
    before pkts i j ∨ before pkts j i := by
  unfold before
  rcases lt_trichotomy (pk pkts i).finish_tag (pk pkts j).finish_tag with h1 | h1 | h1
  · exact Or.inl (Or.inl h1)
  · rcases lt_trichotomy (pk pkts i).priority (pk pkts j).priority with h2 | h2 | h2
    · exact Or.inl (Or.inr ⟨h1, Or.inl h2⟩)
    · rcases lt_or_gt_of_ne h with h3 | h3
      · exact Or.inl (Or.inr ⟨h1, Or.inr ⟨h2, h3⟩⟩)
      · exact Or.inr (Or.inr ⟨h1.symm, Or.inr ⟨h2.symm, h3⟩⟩)
    · exact Or.inr (Or.inr ⟨h1.symm, Or.inl h2⟩)
  · exact Or.inr (Or.inl h1)

theorem before_asymm {pkts : List Packet} {i j : Nat}
    (h1 : before pkts i j) : ¬ before pkts j i :=
  fun h2 => before_irrefl pkts i (before_trans h1 h2)

theorem scanInv_zero (pkts : List Packet) (sent : List Bool) (cur : Int) :
    ScanInv pkts sent cur 0 (none, LLONG_MAX) := by
  constructor <;> simp

theorem scanInv_step {pkts : List Packet} {sent : List Bool} {cur : Int} {n : Nat}
    {r : Option Nat × Int} (h : ScanInv pkts sent cur n r) :
    ScanInv pkts sent cur (n + 1) (scanBody pkts sent cur r n) := by
  obtain ⟨best, nxt⟩ := r
  have lt_succ : ∀ i, i < n + 1 → i < n ∨ i = n := fun i hi => by omega
  unfold scanBody
  by_cases hs : isSent sent n = true
  · -- already sent: nothing changes
    simp only [hs, if_true]
    refine ⟨?_, ?_, h.best_unsent, h.best_arrived, ?_, ?_, ?_, h.next_le_max⟩
    · intro hb i hi hu
      rcases lt_succ i hi with hi | rfl
      · exact h.none_elig hb i hi hu
      · simp [hs] at hu
    · intro b hb; exact Nat.lt_succ_of_lt (h.best_lt b hb)
    · intro b hb i hi hu
      rcases lt_succ i hi with hi | rfl
      · exact h.best_min b hb i hi hu
      · simp [hs] at hu
    · intro i hi hu
      rcases lt_succ i hi with hi | rfl
      · exact h.next_le i hi hu
      · simp [hs] at hu
    · rcases h.next_attained with h1 | ⟨i, hi, h2⟩
      · exact Or.inl h1
      · exact Or.inr ⟨i, Nat.lt_succ_of_lt hi, h2⟩
  · have hu : isSent sent n = false := by simpa using hs
    simp only [hu, Bool.false_eq_true, if_false]
    by_cases ha : (pkts.getD n default).arrival ≤ cur
    · have ha2 : (pk pkts n).arrival ≤ cur := ha
      simp only [ha, if_true]
      cases best with
      | none =>
        simp only
        refine ⟨by simp, ?_, ?_, ?_, ?_, ?_, ?_, h.next_le_max⟩
        · intro b hb; simp at hb; omega
        · intro b hb; simp at hb; subst hb; exact hu
        · intro b hb; simp at hb; subst hb; exact ha2
        · intro b hb i hi hui hai hne
          simp at hb; subst hb
          rcases lt_succ i hi with hi | rfl
          · exact absurd hai (h.none_elig rfl i hi hui)
          · exact absurd rfl hne
        · intro i hi hui hci
          rcases lt_succ i hi with hi | rfl
          · exact h.next_le i hi hui hci
          · exact absurd ha2 (not_le.mpr hci)
        · rcases h.next_attained with h1 | ⟨i, hi, h2⟩
          · exact Or.inl h1
          · exact Or.inr ⟨i, Nat.lt_succ_of_lt hi, h2⟩
      | some b0 =>
        have hb0 := h.best_lt b0 rfl
        have common1 : ∀ i, i < n + 1 → isSent sent i = false → cur < (pk pkts i).arrival →
            nxt ≤ (pk pkts i).arrival := by
          intro i hi hui hci
          rcases lt_succ i hi with hi | rfl
          · exact h.next_le i hi hui hci
          · exact absurd ha2 (not_le.mpr hci)
        have common2 : nxt = LLONG_MAX ∨ ∃ i, i < n + 1 ∧ isSent sent i = false ∧
            cur < (pk pkts i).arrival ∧ (pk pkts i).arrival = nxt := by
          rcases h.next_attained with h1 | ⟨i, hi, h2⟩
          · exact Or.inl h1
          · exact Or.inr ⟨i, Nat.lt_succ_of_lt hi, h2⟩
        simp only
        by_cases hc : (pkts.getD n default).finish_tag < (pkts.getD b0 default).finish_tag
            ∨ ((pkts.getD n default).finish_tag = (pkts.getD b0 default).finish_tag
                ∧ (pkts.getD n default).priority < (pkts.getD b0 default).priority)
        · simp only [hc, if_true]
          have hnb : before pkts n b0 := by
            unfold before pk
            rcases hc with hc | ⟨hc1, hc2⟩
            · exact Or.inl hc
            · exact Or.inr ⟨hc1, Or.inl hc2⟩
          refine ⟨by simp, ?_, ?_, ?_, ?_, common1, common2, h.next_le_max⟩
          · intro b hb; simp at hb; omega
          · intro b hb; simp at hb; subst hb; exact hu
          · intro b hb; simp at hb; subst hb; exact ha2
          · intro b hb i hi hui hai hne
            simp at hb; subst hb
            rcases lt_succ i hi with hi | rfl
            · by_cases hib : i = b0
              · subst hib; exact hnb
              · exact before_trans hnb (h.best_min b0 rfl i hi hui hai hib)
            · exact absurd rfl hne
        · simp only [hc, if_false]
          have hbn : before pkts b0 n := by
            unfold before pk
            push_neg at hc
            obtain ⟨hc1, hc2⟩ := hc
            rcases lt_or_eq_of_le hc1 with h1 | h1
            · exact Or.inl h1
            · refine Or.inr ⟨h1, ?_⟩
              rcases lt_or_eq_of_le (hc2 h1.symm) with h2 | h2
              · exact Or.inl h2
              · exact Or.inr ⟨h2, hb0⟩
          refine ⟨by simp, ?_, h.best_unsent, h.best_arrived, ?_, common1, common2,
            h.next_le_max⟩
          · intro b hb; exact Nat.lt_succ_of_lt (h.best_lt b hb)
          · intro b hb i hi hui hai hne
            rcases lt_succ i hi with hi | rfl
            · exact h.best_min b hb i hi hui hai hne
            · simp at hb; subst hb; exact hbn
    · have ha2 : cur < (pk pkts n).arrival := not_le.mp ha
      simp only [ha, if_false]
      have keep_none : ∀ x : Int, ((best, x) : Option Nat × Int).1 = none →
          ∀ i, i < n + 1 → isSent sent i = false → ¬ (pk pkts i).arrival ≤ cur := by
        intro x hb i hi hui
        rcases lt_succ i hi with hi | rfl
        · exact h.none_elig hb i hi hui
        · exact ha
      have keep_min : ∀ b, best = some b → ∀ i, i < n + 1 → isSent sent i = false →
          (pk pkts i).arrival ≤ cur → i ≠ b → before pkts b i := by
        intro b hb i hi hui hai hne
        rcases lt_succ i hi with hi | rfl
        · exact h.best_min b hb i hi hui hai hne
        · exact absurd hai ha
      by_cases hlt : (pkts.getD n default).arrival < nxt
      · simp only [hlt, if_true]
        refine ⟨keep_none _, ?_, h.best_unsent, h.best_arrived, keep_min, ?_, ?_, ?_⟩
        · intro b hb; exact Nat.lt_succ_of_lt (h.best_lt b hb)
        · intro i hi hui hci
          rcases lt_succ i hi with hi | rfl
          · exact le_trans (le_of_lt hlt) (h.next_le i hi hui hci)
          · exact le_refl _
        · exact Or.inr ⟨n, Nat.lt_succ_self n, hu, ha2, rfl⟩
        · exact le_trans (le_of_lt hlt) h.next_le_max
      · simp only [hlt, if_false]
        refine ⟨keep_none _, ?_, h.best_unsent, h.best_arrived, keep_min, ?_, ?_, h.next_le_max⟩
        · intro b hb; exact Nat.lt_succ_of_lt (h.best_lt b hb)
        · intro i hi hui hci
          rcases lt_succ i hi with hi | rfl
          · exact h.next_le i hi hui hci
          · exact not_lt.mp hlt
        · rcases h.next_attained with h1 | ⟨i, hi, h2⟩
          · exact Or.inl h1
          · exact Or.inr ⟨i, Nat.lt_succ_of_lt hi, h2⟩

theorem scanInv_upTo (pkts : List Packet) (sent : List Bool) (cur : Int) (n : Nat) :
    ScanInv pkts sent cur n (scanUpTo pkts sent cur n) := by
  induction n with
  | zero => exact scanInv_zero pkts sent cur
  | succ n ih => rw [scanUpTo_succ]; exact scanInv_step ih

theorem scanInv_scan (pkts : List Packet) (sent : List Bool) (cur : Int) :
    ScanInv pkts sent cur pkts.length (scan pkts sent cur) :=
  scanInv_upTo pkts sent cur pkts.length

theorem isSent_set (sent : List Bool) (b i : Nat) :
    isSent (sent.set b true) i = if i = b ∧ b < sent.length then true else isSent sent i := by
  unfold isSent
  rw [List.getD_eq_getElem?_getD, List.getD_eq_getElem?_getD, List.getElem?_set]
  by_cases h1 : b = i
  · subst h1
    by_cases h2 : b < sent.length
    · simp [h2]
    · simp [h2, List.getElem?_eq_none (not_lt.mp h2)]
  · have h3 : ¬ i = b := fun h => h1 h.symm
    simp [h1, h3]

theorem isSent_replicate (n i : Nat) : isSent (List.replicate n false) i = false := by
  unfold isSent
  rw [List.getD_eq_getElem?_getD, List.getElem?_replicate]
  by_cases h : i < n <;> simp [h]

theorem wfqIter_none {st : Sim} (h : (scan st.pkts st.sent st.cur_time).1 = none) :
    wfqIter st = { st with cur_time := (scan st.pkts st.sent st.cur_time).2 } := by
  unfold wfqIter
  rcases hs : scan st.pkts st.sent st.cur_time with ⟨b, nx⟩
  rw [hs] at h
  simp only at h
  subst h
  rfl

theorem wfqIter_some {st : Sim} {b : Nat} (h : (scan st.pkts st.sent st.cur_time).1 = some b) :
    wfqIter st =
      { st with
        out := st.out ++ [(b, if st.cur_time > (pk st.pkts b).arrival then st.cur_time
                              else (pk st.pkts b).arrival)]
        cur_time := (if st.cur_time > (pk st.pkts b).arrival then st.cur_time
                      else (pk st.pkts b).arrival) + (pk st.pkts b).length
        sent := st.sent.set b true
        sent_cnt := st.sent_cnt + 1 } := by
  unfold wfqIter
  rcases hs : scan st.pkts st.sent st.cur_time with ⟨b0, nx⟩
  rw [hs] at h
  simp only at h
  subst h
  rfl

theorem wfqIter_pkts (st : Sim) : (wfqIter st).pkts = st.pkts := by
  cases h : (scan st.pkts st.sent st.cur_time).1 with
  | none => rw [wfqIter_none h]
  | some b => rw [wfqIter_some h]

theorem wfqSteps_pkts (n : Nat) (st : Sim) : (wfqSteps n st).pkts = st.pkts := by
  induction n generalizing st with
  | zero => rfl
  | succ n ih =>
    unfold wfqSteps
    split
    · rw [ih, wfqIter_pkts]
    · rfl

/-- The loop with fuel returns exactly the state reached by `wfqSteps`, and
does so when that state fails the loop condition. -/
theorem wfqLoop_eq (fuel : Nat) (st : Sim) :
    wfqLoop fuel st =
      if (wfqSteps fuel st).sent_cnt < (wfqSteps fuel st).pkts.length then none
      else some (wfqSteps fuel st) := by
  induction fuel generalizing st with
  | zero => rfl
  | succ n ih =>
    unfold wfqLoop wfqSteps
    by_cases h : st.sent_cnt < st.pkts.length
    · simp only [h, if_true]; exact ih _
    · simp only [h, if_false]

theorem wfqSteps_done {st : Sim} (h : ¬ st.sent_cnt < st.pkts.length) (n : Nat) :
    wfqSteps n st = st := by
  cases n with
  | zero => rfl
  | succ n => unfold wfqSteps; simp only [h, if_false]

theorem wfqSteps_succ (n : Nat) (st : Sim) :
    wfqSteps (n + 1) st =
      if st.sent_cnt < st.pkts.length then wfqSteps n (wfqIter st) else st := rfl

theorem wfqSteps_add (n m : Nat) (st : Sim) :
    wfqSteps (n + m) st = wfqSteps m (wfqSteps n st) := by
  induction n generalizing st with
  | zero => simp [wfqSteps]
  | succ n ih =>
    rw [Nat.add_right_comm, wfqSteps_succ, wfqSteps_succ]
    by_cases h : st.sent_cnt < st.pkts.length
    · simp only [h, if_true]
      exact ih _
    · simp only [h, if_false]
      exact (wfqSteps_done h m).symm

theorem wfqSteps_succ_last (n : Nat) (st : Sim) :
    wfqSteps (n + 1) st = wfqSteps 1 (wfqSteps n st) := wfqSteps_add n 1 st

theorem wfqSteps_one (st : Sim) :
    wfqSteps 1 st = if st.sent_cnt < st.pkts.length then wfqIter st else st := rfl

/-- Induction over the states reached by the loop. -/
theorem wfqSteps_induct (P : Sim → Prop)
    (step : ∀ st, P st → st.sent_cnt < st.pkts.length → P (wfqIter st))
    (n : Nat) (st : Sim) (h0 : P st) : P (wfqSteps n st) := by
  induction n generalizing st with
  | zero => exact h0
  | succ n ih =>
    unfold wfqSteps
    by_cases h : st.sent_cnt < st.pkts.length
    · simp only [h, if_true]; exact ih _ (step st h0 h)
    · simp only [h, if_false]; exact h0

theorem simBase_init (pkts : List Packet) : SimBase (simInit pkts) := by
  constructor
  · simp [simInit]
  · simp [simInit]
  · simp [simInit]
  · intro i; simp [simInit, isSent_replicate]
  · simp [simInit]
  · simp [simInit]

theorem simInv_init (pkts : List Packet)
    (hr : ∀ i, i < pkts.length → (pk pkts i).arrival ≤ LLONG_MAX) : SimInv (simInit pkts) :=
  ⟨simBase_init pkts, hr, by simp [simInit], by simp [simInit]⟩

theorem exists_pending {st : Sim} (h : SimBase st) (hc : st.sent_cnt < st.pkts.length) :
    ∃ i, pending st i := by
  by_contra hne
  push_neg at hne
  have hsub : List.range st.pkts.length ⊆ st.out.map Prod.fst := by
    intro i hi
    have hi2 : i < st.pkts.length := List.mem_range.mp hi
    have : ¬ isSent st.sent i = false := fun hu => hne i ⟨hi2, hu⟩
    exact (h.sent_iff i).mp (by simpa using this)
  have hle := (List.subperm_of_subset (List.nodup_range _) hsub).length_le
  rw [List.length_range, List.length_map, ← h.cnt] at hle
  omega

theorem pending_cnt_lt {st : Sim} (h : SimBase st) {i : Nat} (hp : pending st i) :
    st.sent_cnt < st.pkts.length := by
  have hni : i ∉ st.out.map Prod.fst := by
    intro hm
    have := (h.sent_iff i).mpr hm
    rw [hp.2] at this
    exact Bool.false_ne_true this
  have hnd : (i :: st.out.map Prod.fst).Nodup := List.nodup_cons.mpr ⟨hni, h.nodup⟩
  have hsub : (i :: st.out.map Prod.fst) ⊆ List.range st.pkts.length := by
    intro j hj
    rcases List.mem_cons.mp hj with rfl | hj
    · exact List.mem_range.mpr hp.1
    · obtain ⟨e, he, rfl⟩ := List.mem_map.mp hj
      exact List.mem_range.mpr (h.idx_lt e he)
  have hle := (List.subperm_of_subset hnd hsub).length_le
  rw [List.length_range, List.length_cons, List.length_map, ← h.cnt] at hle
  omega

/-- A fast-forward moves the clock strictly forward, to the least arrival
among the unsent packets. -/
theorem ff_spec {st : Sim} (h : SimInv st) (hc : st.sent_cnt < st.pkts.length)
    (hn : (scan st.pkts st.sent st.cur_time).1 = none) :
    st.cur_time < (scan st.pkts st.sent st.cur_time).2
    ∧ (∃ i, pending st i ∧ (pk st.pkts i).arrival = (scan st.pkts st.sent st.cur_time).2)
    ∧ ∀ j, pending st j → (scan st.pkts st.sent st.cur_time).2 ≤ (pk st.pkts j).arrival := by
  have hs := scanInv_scan st.pkts st.sent st.cur_time
  have hall : ∀ j, pending st j → st.cur_time < (pk st.pkts j).arrival :=
    fun j hj => not_le.mp (hs.none_elig hn j hj.1 hj.2)
  have hle : ∀ j, pending st j →
      (scan st.pkts st.sent st.cur_time).2 ≤ (pk st.pkts j).arrival :=
    fun j hj => hs.next_le j hj.1 hj.2 (hall j hj)
  obtain ⟨i, hi⟩ := exists_pending h.toSimBase hc
  have hatt : ∃ i, pending st i ∧
      (pk st.pkts i).arrival = (scan st.pkts st.sent st.cur_time).2 := by
    rcases hs.next_attained with h1 | ⟨k, hk, hu, _, he⟩
    · exact ⟨i, hi, le_antisymm (h1 ▸ h.in_range i hi.1) (hle i hi)⟩
    · exact ⟨k, ⟨hk, hu⟩, he⟩
  refine ⟨?_, hatt, hle⟩
  obtain ⟨k, hk, he⟩ := hatt
  rw [← he]
  exact hall k hk

/-- The start time of a send is the clock: the packet chosen has arrived. -/
theorem start_eq_clock {st : Sim} {b : Nat}
    (hb : (scan st.pkts st.sent st.cur_time).1 = some b) :
    (if st.cur_time > (pk st.pkts b).arrival then st.cur_time
        else (pk st.pkts b).arrival) = st.cur_time := by
  have hba := (scanInv_scan st.pkts st.sent st.cur_time).best_arrived b hb
  split
  · rfl
  · rename_i hgt; exact le_antisymm hba (not_lt.mp hgt)

theorem wfqIter_send {st : Sim} {b : Nat}
    (hb : (scan st.pkts st.sent st.cur_time).1 = some b) :
    wfqIter st =
      { st with
        out := st.out ++ [(b, st.cur_time)]
        cur_time := st.cur_time + (pk st.pkts b).length
        sent := st.sent.set b true
        sent_cnt := st.sent_cnt + 1 } := by
  rw [wfqIter_some hb, start_eq_clock hb]

theorem simBase_iter {st : Sim} (h : SimBase st) : SimBase (wfqIter st) := by
  have hs := scanInv_scan st.pkts st.sent st.cur_time
  cases hb : (scan st.pkts st.sent st.cur_time).1 with
  | none =>
    rw [wfqIter_none hb]
    exact ⟨h.sent_len, h.idx_lt, h.nodup, h.sent_iff, h.cnt, h.start_ge⟩
  | some b =>
    rw [wfqIter_send hb]
    have hbl := hs.best_lt b hb
    have hbu := hs.best_unsent b hb
    have hba := hs.best_arrived b hb
    have hbn : b ∉ st.out.map Prod.fst := by
      intro hm
      have := (h.sent_iff b).mpr hm
      rw [hbu] at this
      exact Bool.false_ne_true this
    constructor
    · simp [h.sent_len]
    · intro e he
      simp only [List.mem_append, List.mem_singleton] at he
      rcases he with he | rfl
      · exact h.idx_lt e he
      · exact hbl
    · simp only [List.map_append, List.map_cons, List.map_nil]
      rw [List.nodup_append]
      refine ⟨h.nodup, List.nodup_singleton _, ?_⟩
      intro x hx1 hx2
      simp only [List.mem_singleton] at hx2
      subst hx2
      exact hbn hx1
    · intro i
      simp only [isSent_set, List.map_append, List.map_cons, List.map_nil, List.mem_append,
        List.mem_singleton]
      by_cases hib : i = b
      · subst hib
        simp [h.sent_len, hbl]
      · simp only [hib, false_and, if_false, or_false]
        exact h.sent_iff i
    · simp [h.cnt]
    · intro e he
      simp only [List.mem_append, List.mem_singleton] at he
      rcases he with he | rfl
      · exact h.start_ge e he
      · exact hba

theorem simInv_iter {st : Sim} (h : SimInv st) (hc : st.sent_cnt < st.pkts.length) :
    SimInv (wfqIter st) := by
  refine ⟨simBase_iter h.toSimBase, ?_, ?_, ?_⟩
  · rw [wfqIter_pkts]; exact h.in_range
  · cases hb : (scan st.pkts st.sent st.cur_time).1 with
    | none => rw [wfqIter_none hb]; exact h.chain
    | some b =>
      rw [wfqIter_send hb]
      simp only
      rw [List.chain'_append]
      refine ⟨h.chain, List.chain'_singleton _, ?_⟩
      intro x hx y hy
      simp only [List.head?_cons, Option.mem_def, Option.some.injEq] at hy
      subst hy
      exact h.clock x hx
  · cases hb : (scan st.pkts st.sent st.cur_time).1 with
    | none =>
      rw [wfqIter_none hb]
      intro e he
      exact le_trans (h.clock e he) (le_of_lt (ff_spec h hc hb).1)
    | some b =>
      rw [wfqIter_send hb]
      intro e he
      simp only [List.getLast?_append, List.getLast?_singleton, Option.or_some,
        Option.mem_def, Option.some.injEq] at he
      subst he
      exact le_refl _

theorem simBase_steps {st : Sim} (h : SimBase st) (n : Nat) : SimBase (wfqSteps n st) :=
  wfqSteps_induct SimBase (fun _ hs _ => simBase_iter hs) n st h

theorem simInv_steps {st : Sim} (h : SimInv st) (n : Nat) : SimInv (wfqSteps n st) :=
  wfqSteps_induct SimInv (fun _ hs hc => simInv_iter hs hc) n st h

/-- After a fast-forward the scan finds a packet to send. -/
theorem scan_after_ff {st : Sim} (h : SimInv st) (hc : st.sent_cnt < st.pkts.length)
    (hn : (scan st.pkts st.sent st.cur_time).1 = none) :
    ∃ b, (scan (wfqIter st).pkts (wfqIter st).sent (wfqIter st).cur_time).1 = some b := by
  obtain ⟨_, ⟨i, hi, he⟩, _⟩ := ff_spec h hc hn
  rw [wfqIter_none hn]
  simp only
  cases hb : (scan st.pkts st.sent (scan st.pkts st.sent st.cur_time).2).1 with
  | some b => exact ⟨b, rfl⟩
  | none =>
    exfalso
    exact (scanInv_scan st.pkts st.sent _).none_elig hb i hi.1 hi.2 (le_of_eq he)

theorem wfqIter_sent_cnt_some {st : Sim} {b : Nat}
    (h : (scan st.pkts st.sent st.cur_time).1 = some b) :
    (wfqIter st).sent_cnt = st.sent_cnt + 1 := by
  rw [wfqIter_some h]

theorem wfqIter_sent_cnt_none {st : Sim}
    (h : (scan st.pkts st.sent st.cur_time).1 = none) :
    (wfqIter st).sent_cnt = st.sent_cnt := by
  rw [wfqIter_none h]

/-- Two iterations for every packet still unsent are enough to leave the loop. -/
theorem steps_finish (k : Nat) (st : Sim) (h : SimInv st)
    (hk : st.pkts.length - st.sent_cnt ≤ k) :
    ¬ (wfqSteps (2 * k) st).sent_cnt < (wfqSteps (2 * k) st).pkts.length := by
  induction k generalizing st with
  | zero =>
    simp only [Nat.mul_zero, wfqSteps]
    omega
  | succ k ih =>
    by_cases hc : st.sent_cnt < st.pkts.length
    · have e2 : 2 * (k + 1) = (2 * k + 1) + 1 := by ring
      cases hb : (scan st.pkts st.sent st.cur_time).1 with
      | some b =>
        have hcnt := wfqIter_sent_cnt_some hb
        have hp := wfqIter_pkts st
        have hfin := ih (wfqIter st) (simInv_iter h hc) (by rw [hp, hcnt]; omega)
        rw [e2, wfqSteps_succ, if_pos hc, wfqSteps_add, wfqSteps_done hfin]
        exact hfin
      | none =>
        have hcnt := wfqIter_sent_cnt_none hb
        have hp := wfqIter_pkts st
        have h1 := simInv_iter h hc
        have hc1 : (wfqIter st).sent_cnt < (wfqIter st).pkts.length := by
          rw [hp, hcnt]; exact hc
        obtain ⟨b, hb2⟩ := scan_after_ff h hc hb
        have hcnt2 := wfqIter_sent_cnt_some hb2
        have hp2 := wfqIter_pkts (wfqIter st)
        have hfin := ih (wfqIter (wfqIter st)) (simInv_iter h1 hc1)
          (by rw [hp2, hcnt2, hp, hcnt]; omega)
        rw [e2, wfqSteps_succ, if_pos hc, wfqSteps_succ, if_pos hc1]
        exact hfin
    · rw [wfqSteps_done hc]; exact hc

theorem finalState_done (pkts : List Packet)
    (hr : ∀ i, i < pkts.length → (pk pkts i).arrival ≤ LLONG_MAX) :
    ¬ (finalState pkts).sent_cnt < (finalState pkts).pkts.length :=
  steps_finish pkts.length (simInit pkts) (simInv_init pkts hr) (by simp [simInit])

theorem wfqSteps_final (pkts : List Packet)
    (hr : ∀ i, i < pkts.length → (pk pkts i).arrival ≤ LLONG_MAX)
    (fuel : Nat) (hf : 2 * pkts.length ≤ fuel) :
    wfqSteps fuel (simInit pkts) = finalState pkts := by
  obtain ⟨m, rfl⟩ := Nat.exists_eq_add_of_le hf
  rw [wfqSteps_add]
  exact wfqSteps_done (finalState_done pkts hr) m

/-- With fuel for two iterations per packet the dispatch loop returns. -/
theorem wfqLoop_final (pkts : List Packet)
    (hr : ∀ i, i < pkts.length → (pk pkts i).arrival ≤ LLONG_MAX)
    (fuel : Nat) (hf : 2 * pkts.length ≤ fuel) :
    wfqLoop fuel (simInit pkts) = some (finalState pkts) := by
  rw [wfqLoop_eq, wfqSteps_final pkts hr fuel hf, if_neg (finalState_done pkts hr)]

theorem finalState_inv (pkts : List Packet)
    (hr : ∀ i, i < pkts.length → (pk pkts i).arrival ≤ LLONG_MAX) :
    SimInv (finalState pkts) :=
  simInv_steps (simInv_init pkts hr) _

theorem finalState_pkts (pkts : List Packet) : (finalState pkts).pkts = pkts := by
  unfold finalState; rw [wfqSteps_pkts]; rfl

/-- When the loop has ended every ledger index has been printed exactly once. -/
theorem finalState_perm (pkts : List Packet)
    (hr : ∀ i, i < pkts.length → (pk pkts i).arrival ≤ LLONG_MAX) :
    ((finalState pkts).out.map Prod.fst).Perm (List.range pkts.length) := by
  have h := finalState_inv pkts hr
  have hd := finalState_done pkts hr
  rw [finalState_pkts] at hd
  have hsub : (finalState pkts).out.map Prod.fst ⊆ List.range pkts.length := by
    intro i hi
    obtain ⟨e, he, rfl⟩ := List.mem_map.mp hi
    have := h.idx_lt e he
    rw [finalState_pkts] at this
    exact List.mem_range.mpr this
  apply (List.subperm_of_subset h.nodup hsub).perm_of_length_le
  rw [List.length_range, List.length_map, ← h.cnt]
  omega

theorem ingest_append (xs ys : List Line) :
    ingest (xs ++ ys) = ys.foldl ingestLine (ingest xs) := by
  simp [ingest, List.foldl_append]

theorem ingest_snoc (xs : List Line) (x : Line) :
    ingest (xs ++ [x]) = ingestLine (ingest xs) x := by
  simp [ingest, List.foldl_append]

theorem ingestLine_skip {st : Ingest} {x : Line} (h : x.matched < 6) :
    ingestLine st x = st := by
  unfold ingestLine; simp [h]

theorem ite_gt_eq_max (a b : ℚ) : (if a > b then a else b) = max a b := by
  by_cases h : a > b
  · rw [if_pos h, max_eq_left (le_of_lt h)]
  · rw [if_neg h, max_eq_right (not_lt.mp h)]

theorem ingestLine_found {st : Ingest} {x : Line} (ha : 6 ≤ x.matched)
    (hf : findFlow st.flows (keybuf x) < st.flows.length) :
    ingestLine st x =
      { flows := st.flows.set (findFlow st.flows (keybuf x)) (flowAfter st x)
        pkts := st.pkts ++ [{ arrival := x.t, length := x.L, finish_tag := tagNow st x,
                              priority := (flowBefore st x).priority, record := x.text }]
        next_prio := st.next_prio } := by
  have ha2 : ¬ x.matched < 6 := not_lt.mpr ha
  unfold ingestLine
  simp only [ha2, if_false, hf, if_true, ite_gt_eq_max]
  by_cases hw : x.matched = 7
  · simp [hw, flowAfter, tagNow, weightNow, flowBefore, hf, fl, List.getD_eq_getElem?_getD,
      List.getElem?_set]
  · simp [hw, flowAfter, tagNow, weightNow, flowBefore, hf, fl, List.getD_eq_getElem?_getD,
      List.getElem?_set]

theorem ingestLine_new {st : Ingest} {x : Line} (ha : 6 ≤ x.matched)
    (hf : ¬ findFlow st.flows (keybuf x) < st.flows.length) :
    ingestLine st x =
      { flows := st.flows ++ [flowAfter st x]
        pkts := st.pkts ++ [{ arrival := x.t, length := x.L, finish_tag := tagNow st x,
                              priority := (flowBefore st x).priority, record := x.text }]
        next_prio := st.next_prio + 1 } := by
  have ha2 : ¬ x.matched < 6 := not_lt.mpr ha
  have he : findFlow st.flows (keybuf x) = st.flows.length :=
    le_antisymm (List.findIdx_le_length _) (not_lt.mp hf)
  unfold ingestLine
  simp only [ha2, if_false, hf, ite_gt_eq_max]
  by_cases hw : x.matched = 7
  · simp [hw, flowAfter, tagNow, weightNow, flowBefore, he, fl, List.getD_eq_getElem?_getD,
      List.getElem?_set]
  · simp [hw, flowAfter, tagNow, weightNow, flowBefore, he, fl, List.getD_eq_getElem?_getD,
      List.getElem?_set]

theorem lastIdx_congr {p q : Nat → Bool} {n : Nat} (h : ∀ j, j < n → p j = q j) :
    lastIdx p n = lastIdx q n := by
  induction n with
  | zero => rfl
  | succ n ih =>
    unfold lastIdx
    rw [h n (Nat.lt_succ_self n), ih (fun j hj => h j (Nat.lt_succ_of_lt hj))]

theorem lastIdx_some {p : Nat → Bool} {n j : Nat} (h : lastIdx p n = some j) :
    j < n ∧ p j = true ∧ ∀ i, j < i → i < n → p i = false := by
  induction n with
  | zero => simp [lastIdx] at h
  | succ n ih =>
    unfold lastIdx at h
    by_cases hp : p n = true
    · rw [if_pos hp] at h
      cases h
      exact ⟨Nat.lt_succ_self _, hp, fun i h1 h2 => by omega⟩
    · rw [if_neg hp] at h
      obtain ⟨h1, h2, h3⟩ := ih h
      refine ⟨Nat.lt_succ_of_lt h1, h2, ?_⟩
      intro i hji hin
      rcases Nat.lt_succ_iff_lt_or_eq.mp hin with hin | rfl
      · exact h3 i hji hin
      · simpa using hp

theorem lastIdx_none {p : Nat → Bool} {n : Nat} (h : lastIdx p n = none) :
    ∀ i, i < n → p i = false := by
  induction n with
  | zero => intro i hi; omega
  | succ n ih =>
    unfold lastIdx at h
    by_cases hp : p n = true
    · rw [if_pos hp] at h; cases h
    · rw [if_neg hp] at h
      intro i hin
      rcases Nat.lt_succ_iff_lt_or_eq.mp hin with hin | rfl
      · exact ih h i hin
      · simpa using hp

theorem lastIdx_eq_none {p : Nat → Bool} {n : Nat} (h : ∀ i, i < n → p i = false) :
    lastIdx p n = none := by
  induction n with
  | zero => rfl
  | succ n ih =>
    unfold lastIdx
    rw [h n (Nat.lt_succ_self n), ih (fun j hj => h j (Nat.lt_succ_of_lt hj))]
    simp

theorem lineAt_append_left {xs ys : List Line} {j : Nat} (h : j < xs.length) :
    lineAt (xs ++ ys) j = lineAt xs j := by
  unfold lineAt; exact List.getD_append _ _ _ _ h

theorem lineAt_snoc (xs : List Line) (x : Line) : lineAt (xs ++ [x]) xs.length = x := by
  unfold lineAt; simp [List.getD_eq_getElem?_getD]

theorem pk_append_left {ps qs : List Packet} {j : Nat} (h : j < ps.length) :
    pk (ps ++ qs) j = pk ps j := by
  unfold pk; exact List.getD_append _ _ _ _ h

theorem pk_snoc (ps : List Packet) (p : Packet) : pk (ps ++ [p]) ps.length = p := by
  unfold pk; simp [List.getD_eq_getElem?_getD]

theorem prevOfKey_append {xs ys : List Line} {k : String} {n : Nat} (h : n ≤ xs.length) :
    prevOfKey (xs ++ ys) k n = prevOfKey xs k n := by
  unfold prevOfKey
  apply lastIdx_congr
  intro j hj
  rw [lineAt_append_left (lt_of_lt_of_le hj h)]

theorem lastFinishOf_append {xs ys : List Line} {ps qs : List Packet} {k : String} {n : Nat}
    (h1 : n ≤ xs.length) (h2 : n ≤ ps.length) :
    lastFinishOf (xs ++ ys) (ps ++ qs) k n = lastFinishOf xs ps k n := by
  unfold lastFinishOf
  rw [prevOfKey_append h1]
  cases hp : prevOfKey xs k n with
  | none => rfl
  | some j =>
    simp only
    rw [pk_append_left (lt_of_lt_of_le (lastIdx_some hp).1 h2)]

theorem weightOf_append {xs ys : List Line} {k : String} {n : Nat} (h : n ≤ xs.length) :
    weightOf (xs ++ ys) k n = weightOf xs k n := by
  unfold weightOf
  have hc : lastIdx (fun j => keybuf (lineAt (xs ++ ys) j) == k
        && decide ((lineAt (xs ++ ys) j).matched = 7)) n
      = lastIdx (fun j => keybuf (lineAt xs j) == k
        && decide ((lineAt xs j).matched = 7)) n := by
    apply lastIdx_congr
    intro j hj
    rw [lineAt_append_left (lt_of_lt_of_le hj h)]
  rw [hc]
  cases hp : lastIdx (fun j => keybuf (lineAt xs j) == k
      && decide ((lineAt xs j).matched = 7)) n with
  | none => rfl
  | some j =>
    simp only
    rw [lineAt_append_left (lt_of_lt_of_le (lastIdx_some hp).1 h)]

theorem lastFinishOf_succ (xs : List Line) (ps : List Packet) (k : String) (n : Nat) :
    lastFinishOf xs ps k (n + 1) =
      if keybuf (lineAt xs n) = k then (pk ps n).finish_tag else lastFinishOf xs ps k n := by
  unfold lastFinishOf prevOfKey
  rw [lastIdx]
  by_cases h : keybuf (lineAt xs n) = k
  · simp [h]
  · simp [h]

theorem weightOf_succ (xs : List Line) (k : String) (n : Nat) :
    weightOf xs k (n + 1) =
      if keybuf (lineAt xs n) = k ∧ (lineAt xs n).matched = 7 then (lineAt xs n).w
      else weightOf xs k n := by
  unfold weightOf
  rw [lastIdx]
  by_cases h : keybuf (lineAt xs n) = k ∧ (lineAt xs n).matched = 7
  · simp [h]
  · have : (keybuf (lineAt xs n) == k && decide ((lineAt xs n).matched = 7)) = false := by
      simpa using h
    simp only [this, if_neg h]
    simp

theorem firstOcc_lt_iff {xs : List Line} {k : String} :
    firstOcc xs k < xs.length ↔ ∃ j, j < xs.length ∧ keybuf (lineAt xs j) = k := by
  unfold firstOcc
  rw [List.findIdx_lt_length]
  constructor
  · rintro ⟨x, hx, hk⟩
    obtain ⟨j, hj, rfl⟩ := List.getElem_of_mem hx
    refine ⟨j, hj, ?_⟩
    unfold lineAt
    simpa [List.getD_eq_getElem?_getD, List.getElem?_eq_getElem hj] using hk
  · rintro ⟨j, hj, hk⟩
    refine ⟨xs[j], List.getElem_mem hj, ?_⟩
    unfold lineAt at hk
    simpa [List.getD_eq_getElem?_getD, List.getElem?_eq_getElem hj] using hk

theorem firstOcc_key {xs : List Line} {k : String} (h : firstOcc xs k < xs.length) :
    keybuf (lineAt xs (firstOcc xs k)) = k := by
  unfold firstOcc at h
  have := @List.findIdx_getElem _ (fun y => keybuf y == k) xs h
  unfold lineAt firstOcc
  rw [List.getD_eq_getElem?_getD, List.getElem?_eq_getElem h]
  simpa using this

theorem firstOcc_le {xs : List Line} {k : String} {j : Nat} (hj : j < xs.length)
    (hk : keybuf (lineAt xs j) = k) : firstOcc xs k ≤ j := by
  by_contra hlt
  have h2 := @List.not_of_lt_findIdx _ (fun y => keybuf y == k) xs j (not_le.mp hlt)
  unfold lineAt at hk
  simp [List.getD_eq_getElem?_getD, List.getElem?_eq_getElem hj] at hk
  simp [hk] at h2

theorem firstOcc_snoc (xs : List Line) (x : Line) (k : String) :
    firstOcc (xs ++ [x]) k =
      if firstOcc xs k < xs.length then firstOcc xs k
      else if keybuf x = k then xs.length else xs.length + 1 := by
  unfold firstOcc
  rw [List.findIdx_append]
  by_cases h : List.findIdx (fun y => keybuf y == k) xs < xs.length
  · simp [h]
  · simp only [h, if_false]
    by_cases hk : keybuf x = k
    · simp [hk, List.findIdx_cons]
    · have hb : (keybuf x == k) = false := by simpa using hk
      simp [hk, hb, List.findIdx_cons, Nat.add_comm]

theorem findFlow_key {flows : List flow_info} {k : String}
    (h : findFlow flows k < flows.length) : (fl flows (findFlow flows k)).key = k := by
  unfold findFlow at h
  have := @List.findIdx_getElem _ (fun f : flow_info => f.key == k) flows h
  unfold fl findFlow
  rw [List.getD_eq_getElem?_getD, List.getElem?_eq_getElem h]
  simpa using this

theorem findFlow_none {flows : List flow_info} {k : String}
    (h : ¬ findFlow flows k < flows.length) :
    ∀ f, f < flows.length → (fl flows f).key ≠ k := by
  intro f hf hk
  apply h
  unfold findFlow
  rw [List.findIdx_lt_length]
  refine ⟨flows[f], List.getElem_mem hf, ?_⟩
  unfold fl at hk
  rw [List.getD_eq_getElem?_getD, List.getElem?_eq_getElem hf] at hk
  simpa using hk

theorem fl_set {flows : List flow_info} {i f : Nat} (a : flow_info) (hi : i < flows.length) :
    fl (flows.set i a) f = if f = i then a else fl flows f := by
  unfold fl
  rw [List.getD_eq_getElem?_getD, List.getD_eq_getElem?_getD, List.getElem?_set]
  by_cases h : i = f
  · subst h; simp [hi]
  · have h2 : ¬ f = i := fun e => h e.symm
    simp [h, h2]

theorem fl_append_left {flows gs : List flow_info} {f : Nat} (h : f < flows.length) :
    fl (flows ++ gs) f = fl flows f := by
  unfold fl; exact List.getD_append _ _ _ _ h

theorem fl_snoc (flows : List flow_info) (a : flow_info) :
    fl (flows ++ [a]) flows.length = a := by
  unfold fl; simp [List.getD_eq_getElem?_getD]

theorem lastFinishOf_unseen {xs : List Line} {ps : List Packet} {k : String} {n : Nat}
    (hn : n ≤ xs.length) (h : ¬ firstOcc xs k < xs.length) : lastFinishOf xs ps k n = 0 := by
  unfold lastFinishOf prevOfKey
  rw [lastIdx_eq_none]
  intro i hi
  have hne : keybuf (lineAt xs i) ≠ k := fun he =>
    h (firstOcc_lt_iff.mpr ⟨i, lt_of_lt_of_le hi hn, he⟩)
  simpa using hne

theorem weightOf_unseen {xs : List Line} {k : String} {n : Nat}
    (hn : n ≤ xs.length) (h : ¬ firstOcc xs k < xs.length) : weightOf xs k n = 1 := by
  unfold weightOf
  rw [lastIdx_eq_none]
  intro i hi
  have hne : keybuf (lineAt xs i) ≠ k := fun he =>
    h (firstOcc_lt_iff.mpr ⟨i, lt_of_lt_of_le hi hn, he⟩)
  simp [hne]

theorem stepShape {xs : List Line} {st : Ingest} {x : Line} (hinv : IngInv xs st)
    (ha : 6 ≤ x.matched) : StepShape xs st (ingestLine st x) x := by
  by_cases hf : findFlow st.flows (keybuf x) < st.flows.length
  · have hkey := findFlow_key hf
    have hfb : flowBefore st x = fl st.flows (findFlow st.flows (keybuf x)) := by
      unfold flowBefore; rw [if_pos hf]
    have hseen : firstOcc xs (keybuf x) < xs.length := by
      have := hinv.key_seen _ hf
      rwa [hkey] at this
    rw [ingestLine_found ha hf]
    refine ⟨by simpa using hf, by simp, ?_, by simpa using hinv.prio_next, ?_, ?_, ?_, ?_, ?_,
      Or.inl ⟨hf, by simp, hseen⟩⟩
    · simp only [hfb, hinv.prio_idx _ hf]
    · simp only [fl_set _ hf, if_true, flowAfter, hfb, hkey, hinv.prio_idx _ hf]
    · intro f hfl hne
      simp only [List.length_set] at hfl
      refine ⟨hfl, by simp only [fl_set _ hf, if_neg hne], ?_⟩
      intro hk
      exact hne (hinv.keys_inj f _ hfl hf (hk.trans hkey.symm))
    · intro f hfl
      simp only [fl_set _ hf]
      by_cases he : f = findFlow st.flows (keybuf x)
      · rw [if_pos he, he]; simp only [flowAfter, hfb]
      · rw [if_neg he]
    · rw [hfb, hinv.last _ hf, hkey]
    · rw [hfb, hinv.wt _ hf, hkey]
  · have he : findFlow st.flows (keybuf x) = st.flows.length :=
      le_antisymm (List.findIdx_le_length _) (not_lt.mp hf)
    have hnone := findFlow_none hf
    have hfb : flowBefore st x =
        { key := keybuf x, last_finish := 0, weight := 1, priority := st.next_prio } := by
      unfold flowBefore; rw [if_neg hf]
    have hunseen : ¬ firstOcc xs (keybuf x) < xs.length := by
      intro hlt
      obtain ⟨j, hj, hk⟩ := firstOcc_lt_iff.mp hlt
      obtain ⟨f, hfl, hfk⟩ := hinv.seen_key j hj
      exact hnone f hfl (hfk.trans hk)
    rw [ingestLine_new ha hf]
    refine ⟨by simp [he], by simp, ?_, by simpa using hinv.prio_next, ?_, ?_, ?_, ?_, ?_,
      Or.inr ⟨he, by simp, hunseen⟩⟩
    · simp only [hfb, hinv.prio_next, he]
    · simp only [he, fl_snoc, flowAfter, hfb, hinv.prio_next]
    · intro f hfl hne
      simp only [List.length_append, List.length_singleton] at hfl
      have hfl2 : f < st.flows.length := by omega
      exact ⟨hfl2, fl_append_left hfl2, hnone f hfl2⟩
    · intro f hfl
      simp only [fl_append_left hfl]
    · rw [hfb]; simp only; exact (lastFinishOf_unseen (le_refl _) hunseen).symm
    · rw [hfb]; simp only; exact (weightOf_unseen (le_refl _) hunseen).symm

theorem ingInv_init : IngInv [] ingestInit := by
  constructor <;> simp [ingestInit]

theorem ingInv_step {xs : List Line} {st : Ingest} {x : Line} (hinv : IngInv xs st)
    (ha : 6 ≤ x.matched) : IngInv (xs ++ [x]) (ingestLine st x) := by
  have sh := stepShape hinv ha
  have hlen : (xs ++ [x]).length = xs.length + 1 := by simp
  have hpl := hinv.pk_len
  have split : ∀ i, i < xs.length + 1 → i < xs.length ∨ i = xs.length := fun i hi => by omega
  -- the ledger and the list of lines below the new position
  have pk_old : ∀ i, i < xs.length → pk (ingestLine st x).pkts i = pk st.pkts i := by
    intro i hi; rw [sh.pkts_eq]; exact pk_append_left (by omega)
  have pk_new : pk (ingestLine st x).pkts xs.length =
      Packet.mk x.t x.L (tagNow st x) (findFlow st.flows (keybuf x)) x.text := by
    rw [sh.pkts_eq, ← hpl]; exact pk_snoc _ _
  have ln_old : ∀ i, i < xs.length → lineAt (xs ++ [x]) i = lineAt xs i :=
    fun i hi => lineAt_append_left hi
  have ln_new : lineAt (xs ++ [x]) xs.length = x := lineAt_snoc xs x
  have lf_old : ∀ key j, j ≤ xs.length →
      lastFinishOf (xs ++ [x]) (ingestLine st x).pkts key j = lastFinishOf xs st.pkts key j := by
    intro key j hj; rw [sh.pkts_eq]; exact lastFinishOf_append hj (by omega)
  have w_old : ∀ key j, j ≤ xs.length → weightOf (xs ++ [x]) key j = weightOf xs key j :=
    fun key j hj => weightOf_append hj
  have lf_new : ∀ key, lastFinishOf (xs ++ [x]) (ingestLine st x).pkts key (xs.length + 1) =
      if keybuf x = key then tagNow st x else lastFinishOf xs st.pkts key xs.length := by
    intro key
    rw [lastFinishOf_succ, ln_new, pk_new, lf_old key _ (le_refl _)]
  have w_new : ∀ key, weightOf (xs ++ [x]) key (xs.length + 1) =
      if keybuf x = key ∧ x.matched = 7 then x.w else weightOf xs key xs.length := by
    intro key
    rw [weightOf_succ, ln_new, w_old key _ (le_refl _)]
  have fo_old : ∀ key, firstOcc xs key < xs.length →
      firstOcc (xs ++ [x]) key = firstOcc xs key := by
    intro key h; rw [firstOcc_snoc, if_pos h]
  have key_at : (fl (ingestLine st x).flows (findFlow st.flows (keybuf x))).key = keybuf x := by
    rw [sh.at_idx]
  constructor
  · rw [sh.pkts_eq]; simp [hpl]
  · exact sh.next
  · intro f hf
    by_cases he : f = findFlow st.flows (keybuf x)
    · rw [he, sh.at_idx]
    · obtain ⟨h1, h2, _⟩ := sh.off_idx f hf he
      rw [h2]; exact hinv.prio_idx f h1
  · intro f g hf hg hk
    by_cases he : f = findFlow st.flows (keybuf x)
    · by_cases he2 : g = findFlow st.flows (keybuf x)
      · rw [he, he2]
      · obtain ⟨_, h2, h3⟩ := sh.off_idx g hg he2
        rw [he, key_at, h2] at hk
        exact absurd hk.symm h3
    · obtain ⟨h1, h2, h3⟩ := sh.off_idx f hf he
      by_cases he2 : g = findFlow st.flows (keybuf x)
      · rw [he2, key_at, h2] at hk
        exact absurd hk h3
      · obtain ⟨g1, g2, _⟩ := sh.off_idx g hg he2
        rw [h2, g2] at hk
        exact hinv.keys_inj f g h1 g1 hk
  · intro f hf
    rw [hlen]
    by_cases he : f = findFlow st.flows (keybuf x)
    · rw [he, key_at]
      have : firstOcc (xs ++ [x]) (keybuf x) ≤ xs.length :=
        firstOcc_le (by rw [hlen]; omega) (by rw [ln_new])
      omega
    · obtain ⟨h1, h2, _⟩ := sh.off_idx f hf he
      rw [h2, fo_old _ (hinv.key_seen f h1)]
      exact Nat.lt_succ_of_lt (hinv.key_seen f h1)
  · intro j hj
    rw [hlen] at hj
    rcases split j hj with hj | rfl
    · obtain ⟨f, hf, hk⟩ := hinv.seen_key j hj
      exact ⟨f, lt_of_lt_of_le hf sh.len_le, by rw [sh.keys_old f hf, hk, ln_old j hj]⟩
    · exact ⟨_, sh.idx_lt, by rw [key_at, ln_new]⟩
  · intro f g hfg hg
    have old_case : g < st.flows.length →
        firstOcc (xs ++ [x]) (fl (ingestLine st x).flows f).key
          < firstOcc (xs ++ [x]) (fl (ingestLine st x).flows g).key := by
      intro hg2
      have hf2 : f < st.flows.length := lt_trans hfg hg2
      rw [sh.keys_old f hf2, sh.keys_old g hg2, fo_old _ (hinv.key_seen f hf2),
        fo_old _ (hinv.key_seen g hg2)]
      exact hinv.order f g hfg hg2
    rcases sh.cases with ⟨_, h2, _⟩ | ⟨h1, h2, h3⟩
    · exact old_case (h2 ▸ hg)
    · rw [h2] at hg
      rcases Nat.lt_succ_iff_lt_or_eq.mp hg with hg | hg
      · exact old_case hg
      · have hf2 : f < st.flows.length := hg ▸ hfg
        have hgk : (fl (ingestLine st x).flows g).key = keybuf x := by
          rw [hg, ← h1]; exact key_at
        rw [hgk, sh.keys_old f hf2, fo_old _ (hinv.key_seen f hf2), firstOcc_snoc,
          if_neg h3, if_pos rfl]
        exact hinv.key_seen f hf2
  · intro f hf
    rw [hlen, lf_new]
    by_cases he : f = findFlow st.flows (keybuf x)
    · rw [he, sh.at_idx, if_pos rfl]
    · obtain ⟨h1, h2, h3⟩ := sh.off_idx f hf he
      rw [h2, if_neg (fun h => h3 h.symm)]
      exact hinv.last f h1
  · intro f hf
    rw [hlen, w_new]
    by_cases he : f = findFlow st.flows (keybuf x)
    · rw [he, sh.at_idx]
      simp only [weightNow, true_and]
      by_cases hw : x.matched = 7
      · rw [if_pos hw, if_pos hw]
      · rw [if_neg hw, if_neg hw]; exact sh.before_wt
    · obtain ⟨h1, h2, h3⟩ := sh.off_idx f hf he
      rw [h2, if_neg (fun h => h3 h.1.symm)]
      exact hinv.wt f h1
  · intro i hi
    rw [hlen] at hi
    rcases split i hi with hi | rfl
    · rw [pk_old i hi, ln_old i hi, lf_old _ i (le_of_lt hi), w_old _ (i + 1) hi]
      exact hinv.ftag i hi
    · rw [pk_new, ln_new, lf_old _ _ (le_refl _), w_new]
      simp only [true_and]
      unfold tagNow weightNow
      rw [sh.before_last, sh.before_wt]
  · intro i hi
    rw [hlen] at hi
    rcases split i hi with hi | rfl
    · obtain ⟨h1, h2⟩ := hinv.pprio i hi
      rw [pk_old i hi, ln_old i hi]
      exact ⟨lt_of_lt_of_le h1 sh.len_le, by rw [sh.keys_old _ h1]; exact h2⟩
    · rw [pk_new, ln_new]
      exact ⟨sh.idx_lt, key_at⟩
  · intro i hi
    rw [hlen] at hi
    rcases split i hi with hi | rfl
    · rw [pk_old i hi, ln_old i hi]; exact hinv.fields i hi
    · rw [pk_new, ln_new]; exact ⟨rfl, rfl, rfl⟩

theorem accepted_snoc (xs : List Line) (x : Line) :
    accepted (xs ++ [x]) = if 6 ≤ x.matched then accepted xs ++ [x] else accepted xs := by
  unfold accepted
  rw [List.filter_append]
  by_cases h : 6 ≤ x.matched
  · simp [h, List.filter_cons]
  · simp [h, List.filter_cons]

/-- The invariant of ingestion holds after every trace, for its accepted
records. -/
theorem ingInv_ingest (tr : List Line) : IngInv (accepted tr) (ingest tr) := by
  induction tr using List.reverseRecOn with
  | nil => exact ingInv_init
  | append_singleton xs x ih =>
    rw [ingest_snoc, accepted_snoc]
    by_cases h : 6 ≤ x.matched
    · rw [if_pos h]; exact ingInv_step ih h
    · rw [if_neg h, ingestLine_skip (not_le.mp h)]; exact ih

theorem ingest_pkts_length (tr : List Line) :
    (ingest tr).pkts.length = (accepted tr).length := (ingInv_ingest tr).pk_len

theorem lineAt_mem {xs : List Line} {i : Nat} (h : i < xs.length) : lineAt xs i ∈ xs := by
  unfold lineAt
  rw [List.getD_eq_getElem?_getD, List.getElem?_eq_getElem h]
  exact List.getElem_mem h

theorem mem_accepted {tr : List Line} {x : Line} :
    x ∈ accepted tr ↔ x ∈ tr ∧ 6 ≤ x.matched := by
  unfold accepted; simp

theorem ledger_in_range {tr : List Line} (hr : InRange tr) :
    ∀ i, i < (ingest tr).pkts.length → (pk (ingest tr).pkts i).arrival ≤ LLONG_MAX := by
  intro i hi
  rw [ingest_pkts_length] at hi
  rw [((ingInv_ingest tr).fields i hi).1]
  obtain ⟨h1, h2⟩ := mem_accepted.mp (lineAt_mem hi)
  exact hr _ h1 h2

theorem ledger_length_nonneg {tr : List Line} (hl : ∀ x ∈ tr, 6 ≤ x.matched → 0 ≤ x.L) :
    ∀ i, i < (ingest tr).pkts.length → 0 ≤ (pk (ingest tr).pkts i).length := by
  intro i hi
  rw [ingest_pkts_length] at hi
  rw [((ingInv_ingest tr).fields i hi).2.1]
  obtain ⟨h1, h2⟩ := mem_accepted.mp (lineAt_mem hi)
  exact hl _ h1 h2

theorem map_lineAt_range (xs : List Line) : (List.range xs.length).map (lineAt xs) = xs := by
  apply List.ext_getElem
  · simp
  · intro i h1 h2
    simp [lineAt, List.getD_eq_getElem?_getD, List.getElem?_eq_getElem h2]

theorem ledger_records (tr : List Line) :
    (List.range (accepted tr).length).map (fun i => (pk (ingest tr).pkts i).record)
      = (accepted tr).map Line.text := by
  have h1 : (List.range (accepted tr).length).map (fun i => (pk (ingest tr).pkts i).record)
      = (List.range (accepted tr).length).map (fun i => (lineAt (accepted tr) i).text) := by
    apply List.map_congr_left
    intro i hi
    exact ((ingInv_ingest tr).fields i (List.mem_range.mp hi)).2.2
  rw [h1]
  conv_rhs => rw [← map_lineAt_range (accepted tr)]
  rw [List.map_map]
  rfl

/-- The program returns the output of the final state when it has fuel for
two iterations per accepted record. -/
theorem wfqMain_eq {tr : List Line} (hr : InRange tr) {fuel : Nat}
    (hf : 2 * (accepted tr).length ≤ fuel) :
    wfqMain fuel tr = some (finalState (ingest tr).pkts).out := by
  unfold wfqMain
  rw [wfqLoop_final _ (ledger_in_range hr) fuel (by rw [ingest_pkts_length]; exact hf)]
  rfl

theorem stateAt_pkts (tr : List Line) (n : Nat) : (stateAt tr n).pkts = (ingest tr).pkts := by
  unfold stateAt; rw [wfqSteps_pkts]; rfl

theorem stateAt_base (tr : List Line) (n : Nat) : SimBase (stateAt tr n) :=
  simBase_steps (simBase_init _) n

theorem stateAt_inv {tr : List Line} (hr : InRange tr) (n : Nat) : SimInv (stateAt tr n) :=
  simInv_steps (simInv_init _ (ledger_in_range hr)) n

theorem stateAt_succ (tr : List Line) (n : Nat) :
    stateAt tr (n + 1) =
      if (stateAt tr n).sent_cnt < (stateAt tr n).pkts.length then wfqIter (stateAt tr n)
      else stateAt tr n := by
  unfold stateAt; rw [wfqSteps_succ_last, wfqSteps_one]

theorem stateAt_succ_of_pending {tr : List Line} {n i : Nat} (h : pending (stateAt tr n) i) :
    stateAt tr (n + 1) = wfqIter (stateAt tr n) := by
  rw [stateAt_succ, if_pos (pending_cnt_lt (stateAt_base tr n) h)]

/-- When some packet is eligible the scan returns one, the least in the
dispatch order. -/
theorem scan_some_of_eligible {st : Sim} {i : Nat} (hi : eligible st i) :
    ∃ b, (scan st.pkts st.sent st.cur_time).1 = some b ∧ eligible st b
      ∧ ∀ j, eligible st j → j ≠ b → before st.pkts b j := by
  have hs := scanInv_scan st.pkts st.sent st.cur_time
  cases hb : (scan st.pkts st.sent st.cur_time).1 with
  | none => exact absurd hi.2.2 (hs.none_elig hb i hi.1 hi.2.1)
  | some b =>
    exact ⟨b, rfl, ⟨hs.best_lt b hb, hs.best_unsent b hb, hs.best_arrived b hb⟩,
      fun j hj hne => hs.best_min b hb j hj.1 hj.2.1 hj.2.2 hne⟩

theorem chain_adjacent {α : Type} {R : α → α → Prop} {l : List α} (h : l.Chain' R)
    {l1 l2 : List α} {a b : α} (he : l = l1 ++ a :: b :: l2) : R a b := by
  subst he
  have h2 := (List.chain'_append.mp h).2.1
  exact (List.chain'_cons.mp h2).1

theorem ingestLine_pkts_prefix (st : Ingest) (x : Line) :
    ∃ qs, (ingestLine st x).pkts = st.pkts ++ qs := by
  by_cases h : x.matched < 6
  · exact ⟨[], by rw [ingestLine_skip h]; simp⟩
  · unfold ingestLine
    rw [if_neg h]
    exact ⟨_, rfl⟩

theorem foldl_ingestLine_pkts_prefix (S : List Line) (st : Ingest) :
    ∃ qs, (S.foldl ingestLine st).pkts = st.pkts ++ qs := by
  induction S generalizing st with
  | nil => exact ⟨[], by simp⟩
  | cons x S ih =>
    obtain ⟨q1, h1⟩ := ingestLine_pkts_prefix st x
    obtain ⟨q2, h2⟩ := ih (ingestLine st x)
    exact ⟨q1 ++ q2, by rw [List.foldl_cons, h2, h1, List.append_assoc]⟩

/-- The ledger of a trace is a prefix of the ledger of every extension. -/
theorem ingest_pkts_prefix (P S : List Line) :
    ∃ qs, (ingest (P ++ S)).pkts = (ingest P).pkts ++ qs := by
  rw [ingest_append]; exact foldl_ingestLine_pkts_prefix S _

theorem lastIdx_ge {p : Nat → Bool} {n i : Nat} (hi : i < n) (hp : p i = true) :
    ∃ m, lastIdx p n = some m ∧ i ≤ m := by
  cases h : lastIdx p n with
  | none =>
    have := lastIdx_none h i hi
    rw [hp] at this
    exact absurd this (by simp)
  | some m =>
    refine ⟨m, rfl, ?_⟩
    by_contra hlt
    have := (lastIdx_some h).2.2 i (not_le.mp hlt) hi
    rw [hp] at this
    exact absurd this (by simp)

theorem weightOf_ge_one {xs : List Line} (hw : ∀ x ∈ xs, x.matched = 7 → 1 ≤ x.w)
    (k : String) {n : Nat} (hn : n ≤ xs.length) : 1 ≤ weightOf xs k n := by
  unfold weightOf
  cases h : lastIdx (fun j => keybuf (lineAt xs j) == k
      && decide ((lineAt xs j).matched = 7)) n with
  | none => exact le_refl _
  | some j =>
    obtain ⟨h1, h2, _⟩ := lastIdx_some h
    simp only [Bool.and_eq_true, decide_eq_true_eq] at h2
    exact hw _ (lineAt_mem (lt_of_lt_of_le h1 hn)) h2.2

/-- Within a flow the finish tag does not decrease from one record to the
next one of the flow, when that next record has a length that is not negative
and the weight in force is at least one. -/
theorem ftag_ge_prev {xs : List Line} {st : Ingest} (hinv : IngInv xs st)
    (hw : ∀ x ∈ xs, x.matched = 7 → 1 ≤ x.w) {j m : Nat} (hj : j < xs.length)
    (hm : prevOfKey xs (keybuf (lineAt xs j)) j = some m) (hl : 0 ≤ (lineAt xs j).L) :
    (pk st.pkts m).finish_tag ≤ (pk st.pkts j).finish_tag := by
  rw [hinv.ftag j hj]
  have h1 : lastFinishOf xs st.pkts (keybuf (lineAt xs j)) j = (pk st.pkts m).finish_tag := by
    unfold lastFinishOf; rw [hm]
  rw [h1]
  have hw1 : (1 : ℚ) ≤ (weightOf xs (keybuf (lineAt xs j)) (j + 1) : ℚ) := by
    exact_mod_cast weightOf_ge_one hw (keybuf (lineAt xs j)) hj
  have hq : (0 : ℚ) ≤ ((lineAt xs j).L : ℚ)
      / (weightOf xs (keybuf (lineAt xs j)) (j + 1) : ℚ) :=
    div_nonneg (by exact_mod_cast hl) (le_trans zero_le_one hw1)
  have := le_max_left (pk st.pkts m).finish_tag ((lineAt xs j).t : ℚ)
  linarith

theorem ftag_mono {xs : List Line} {st : Ingest} (hinv : IngInv xs st)
    (hw : ∀ x ∈ xs, x.matched = 7 → 1 ≤ x.w) (i : Nat) :
    ∀ j, i < j → j < xs.length → keybuf (lineAt xs i) = keybuf (lineAt xs j) →
      (∀ m, i < m → m ≤ j → keybuf (lineAt xs m) = keybuf (lineAt xs j) → 0 ≤ (lineAt xs m).L) →
      (pk st.pkts i).finish_tag ≤ (pk st.pkts j).finish_tag := by
  intro j
  induction j using Nat.strong_induction_on with
  | _ j ih =>
    intro hij hj hk hl
    obtain ⟨m, hm, him⟩ := lastIdx_ge (p := fun a => keybuf (lineAt xs a) == keybuf (lineAt xs j))
      hij (by simpa using hk)
    have hms := lastIdx_some hm
    have hmk : keybuf (lineAt xs m) = keybuf (lineAt xs j) := by simpa using hms.2.1
    have hstep := ftag_ge_prev hinv hw hj hm (hl j hij (le_refl _) rfl)
    rcases Nat.eq_or_lt_of_le him with rfl | hlt
    · exact hstep
    · have := ih m hms.1 hlt (lt_trans hms.1 hj) (hk.trans hmk.symm)
        (fun a ha1 ha2 hak => hl a ha1 (le_trans ha2 (le_of_lt hms.1)) (hak.trans hmk))
      exact le_trans this hstep

/-- With lengths that are not negative the clock never goes back. -/
theorem clock_mono_iter {st : Sim} (h : SimInv st) (hc : st.sent_cnt < st.pkts.length)
    (hl : ∀ i, i < st.pkts.length → 0 ≤ (pk st.pkts i).length) :
    st.cur_time ≤ (wfqIter st).cur_time := by
  cases hb : (scan st.pkts st.sent st.cur_time).1 with
  | none =>
    rw [wfqIter_none hb]
    exact le_of_lt (ff_spec h hc hb).1
  | some b =>
    rw [wfqIter_send hb]
    have := hl b ((scanInv_scan st.pkts st.sent st.cur_time).best_lt b hb)
    simp only
    omega

theorem not_sent_of_not_emitted {st : Sim} (h : SimBase st) {i : Nat}
    (hi : i ∉ emitted st.out) : isSent st.sent i = false := by
  by_contra hs
  exact hi ((h.sent_iff i).mp (by simpa using hs))

theorem orderInv_iter {pkts : List Packet} {c0 : Int} {i j : Nat} {st : Sim}
    (hl : ∀ a, a < pkts.length → 0 ≤ (pk pkts a).length)
    (hi : i < pkts.length) (hai : (pk pkts i).arrival ≤ c0)
    (hij : before pkts i j) (h : OrderInv pkts c0 i j st)
    (hc : st.sent_cnt < st.pkts.length) : OrderInv pkts c0 i j (wfqIter st) := by
  have hpk := h.pkts_eq
  refine ⟨simInv_iter h.inv hc, by rw [wfqIter_pkts, hpk], ?_, ?_⟩
  · exact le_trans h.clock_ge (clock_mono_iter h.inv hc (by rw [hpk]; exact hl))
  · cases hb : (scan st.pkts st.sent st.cur_time).1 with
    | none => rw [wfqIter_none hb]; exact h.ordered
    | some b =>
      rw [wfqIter_send hb]
      simp only
      intro hj
      have hem : emitted (st.out ++ [(b, st.cur_time)]) = emitted st.out ++ [b] := by
        simp [emitted]
      unfold emittedBefore
      rw [hem] at hj ⊢
      by_cases hjo : j ∈ emitted st.out
      · obtain ⟨h1, h2, h3⟩ := h.ordered hjo
        refine ⟨List.mem_append_left _ h1, List.mem_append_left _ h2, ?_⟩
        rw [List.indexOf_append_of_mem h1, List.indexOf_append_of_mem h2]
        exact h3
      · have hjb : j = b := by
          rcases List.mem_append.mp hj with hj | hj
          · exact absurd hj hjo
          · simpa using hj
        subst hjb
        have hio : i ∈ emitted st.out := by
          by_contra hio
          have hs := scanInv_scan st.pkts st.sent st.cur_time
          have hne : i ≠ j := fun e => before_irrefl pkts i (by rw [← e] at hij; exact hij)
          have := hs.best_min j hb i (by rw [hpk]; exact hi)
            (not_sent_of_not_emitted h.inv.toSimBase hio)
            (by rw [hpk]; exact le_trans hai h.clock_ge) hne
          rw [hpk] at this
          exact before_asymm hij this
        refine ⟨List.mem_append_left _ hio, List.mem_append_right _ (by simp), ?_⟩
        rw [List.indexOf_append_of_mem hio, List.indexOf_append_of_not_mem hjo]
        have := List.indexOf_lt_length.mpr hio
        omega

theorem orderInv_steps {pkts : List Packet} {c0 : Int} {i j : Nat} {st : Sim}
    (hl : ∀ a, a < pkts.length → 0 ≤ (pk pkts a).length)
    (hi : i < pkts.length) (hai : (pk pkts i).arrival ≤ c0)
    (hij : before pkts i j) (h : OrderInv pkts c0 i j st) (m : Nat) :
    OrderInv pkts c0 i j (wfqSteps m st) :=
  wfqSteps_induct (OrderInv pkts c0 i j) (fun _ hs hc => orderInv_iter hl hi hai hij hs hc) m st h

/-- If at some step `i` and `j` are both eligible and `i` comes before `j` in
the dispatch order, then `i` is printed before `j` in the output of the run. -/
theorem eligible_pair_order {tr : List Line} (hr : InRange tr)
    (hl : ∀ x ∈ tr, 6 ≤ x.matched → 0 ≤ x.L) {n i j : Nat}
    (hi : eligible (stateAt tr n) i) (hj : eligible (stateAt tr n) j)
    (hij : before (ingest tr).pkts i j) :
    emittedBefore (finalState (ingest tr).pkts).out i j := by
  have hpk := stateAt_pkts tr n
  have hbase := stateAt_base tr n
  have hnj : j ∉ emitted (stateAt tr n).out := by
    intro hm
    have := (hbase.sent_iff j).mpr hm
    rw [hj.2.1] at this
    exact Bool.false_ne_true this
  have h0 : OrderInv (ingest tr).pkts (stateAt tr n).cur_time i j (stateAt tr n) :=
    ⟨stateAt_inv hr n, hpk, le_refl _, fun hm => absurd hm hnj⟩
  have hfin := orderInv_steps (ledger_length_nonneg hl) (hpk ▸ hi.1)
    (by have := hi.2.2; rwa [hpk] at this) hij h0 (2 * (ingest tr).pkts.length)
  have he : wfqSteps (2 * (ingest tr).pkts.length) (stateAt tr n)
      = finalState (ingest tr).pkts := by
    unfold stateAt
    rw [← wfqSteps_add]
    exact wfqSteps_final _ (ledger_in_range hr) _ (by omega)
  rw [he] at hfin
  apply hfin.ordered
  have hperm := finalState_perm (ingest tr).pkts (ledger_in_range hr)
  exact (hperm.mem_iff).mpr (List.mem_range.mpr (hpk ▸ hj.1))

theorem prio_eq_of_key_eq {xs : List Line} {st : Ingest} (hinv : IngInv xs st) {i j : Nat}
    (hi : i < xs.length) (hj : j < xs.length)
    (hk : keybuf (lineAt xs i) = keybuf (lineAt xs j)) :
    (pk st.pkts i).priority = (pk st.pkts j).priority := by
  obtain ⟨h1, h2⟩ := hinv.pprio i hi
  obtain ⟨h3, h4⟩ := hinv.pprio j hj
  exact hinv.keys_inj _ _ h1 h3 (by rw [h2, h4, hk])

/-- Owner priorities follow the order in which the flows are discovered. -/
theorem prio_lt_of_firstOcc_lt {xs : List Line} {st : Ingest} (hinv : IngInv xs st)
    {i j : Nat} (hi : i < xs.length) (hj : j < xs.length)
    (hd : firstOcc xs (keybuf (lineAt xs i)) < firstOcc xs (keybuf (lineAt xs j))) :
    (pk st.pkts i).priority < (pk st.pkts j).priority := by
  obtain ⟨h1, h2⟩ := hinv.pprio i hi
  obtain ⟨h3, h4⟩ := hinv.pprio j hj
  rcases lt_trichotomy (pk st.pkts i).priority (pk st.pkts j).priority with h | h | h
  · exact h
  · rw [← h2, ← h4, h] at hd
    exact absurd hd (lt_irrefl _)
  · have := hinv.order _ _ h h1
    rw [h2, h4] at this
    exact absurd hd (not_lt.mpr (le_of_lt this))

theorem isSent_beyond {sent : List Bool} {i : Nat} (h : sent.length ≤ i) :
    isSent sent i = false := by
  unfold isSent
  rw [List.getD_eq_getElem?_getD, List.getElem?_eq_none h]
  rfl

theorem isSent_append_falses (sent : List Bool) (k i : Nat) :
    isSent (sent ++ List.replicate k false) i = isSent sent i := by
  by_cases h : i < sent.length
  · unfold isSent; exact List.getD_append _ _ _ _ h
  · rw [isSent_beyond (not_lt.mp h)]
    unfold isSent
    rw [List.getD_append_right _ _ _ _ (not_lt.mp h)]
    exact isSent_replicate _ _

theorem startedBy_append (T : Int) (l1 l2 : List (Nat × Int)) :
    startedBy T (l1 ++ l2) = startedBy T l1 ++ startedBy T l2 := by
  unfold startedBy; exact List.filter_append _ _

theorem startedBy_late {T : Int} {b : Nat} {c : Int} (h : T < c) :
    startedBy T [(b, c)] = [] := by
  unfold startedBy
  simp [List.filter_cons, not_le.mpr h]

/-- Once the clock has passed `T`, an iteration prints no line with start at
most `T` and leaves the clock beyond `T`. -/
theorem late_iter {st : Sim} {T : Int} (h : SimInv st) (hc : st.sent_cnt < st.pkts.length)
    (hl : ∀ i, i < st.pkts.length → 0 ≤ (pk st.pkts i).length) (ht : T < st.cur_time) :
    T < (wfqIter st).cur_time ∧ startedBy T (wfqIter st).out = startedBy T st.out := by
  refine ⟨lt_of_lt_of_le ht (clock_mono_iter h hc hl), ?_⟩
  cases hb : (scan st.pkts st.sent st.cur_time).1 with
  | none => rw [wfqIter_none hb]
  | some b =>
    rw [wfqIter_send hb]
    simp only
    rw [startedBy_append, startedBy_late ht, List.append_nil]

theorem late_step {st : Sim} {T : Int} (h : SimInv st)
    (hl : ∀ i, i < st.pkts.length → 0 ≤ (pk st.pkts i).length) (ht : T < st.cur_time) :
    T < (wfqSteps 1 st).cur_time ∧ startedBy T (wfqSteps 1 st).out = startedBy T st.out := by
  rw [wfqSteps_one]
  by_cases hc : st.sent_cnt < st.pkts.length
  · rw [if_pos hc]; exact late_iter h hc hl ht
  · rw [if_neg hc]; exact ⟨ht, rfl⟩

theorem simInv_step {st : Sim} (h : SimInv st) : SimInv (wfqSteps 1 st) := simInv_steps h 1

theorem all_sent_of_done {st : Sim} (h : SimBase st) (hc : ¬ st.sent_cnt < st.pkts.length)
    {i : Nat} (hi : i < st.pkts.length) : isSent st.sent i = true := by
  by_contra hs
  exact hc (pending_cnt_lt h ⟨hi, by simpa using hs⟩)

theorem before_append_left {A B : List Packet} {i j : Nat} (hi : i < A.length)
    (hj : j < A.length) : before (A ++ B) i j ↔ before A i j := by
  unfold before
  rw [pk_append_left hi, pk_append_left hj]

/-- One step of the two runs from states in lockstep. -/
theorem lock_step {A B : List Packet} {T : Int} {s s' : Sim}
    (hB : ∀ i, A.length ≤ i → i < (A ++ B).length → T < (pk (A ++ B) i).arrival)
    (hlen : ∀ i, i < (A ++ B).length → 0 ≤ (pk (A ++ B) i).length)
    (hl : SimInv s) (hr : SimInv s') (hpl : s.pkts = A) (hpr : s'.pkts = A ++ B)
    (hf : startedBy T s'.out = startedBy T s.out) (hk : Lock A B T s s') :
    Rel A B T (wfqSteps 1 s) (wfqSteps 1 s') := by
  have hsent : ∀ i, isSent s'.sent i = isSent s.sent i := by
    intro i; rw [hk.sent_eq]; exact isSent_append_falses _ _ _
  have hpkA : ∀ i, i < A.length → pk s'.pkts i = pk s.pkts i := by
    intro i hi; rw [hpr, hpl]; exact pk_append_left hi
  have hAB : A.length ≤ (A ++ B).length := by simp
  have noB : ∀ i, A.length ≤ i → i < (A ++ B).length →
      ¬ (pk s'.pkts i).arrival ≤ s'.cur_time := by
    intro i h1 h2 h3
    have := hB i h1 h2
    rw [hpr, hk.cur_eq] at h3
    have := hk.early
    omega
  have hsl := scanInv_scan s.pkts s.sent s.cur_time
  have hsr := scanInv_scan s'.pkts s'.sent s'.cur_time
  have hlr : ∀ i, i < s'.pkts.length → 0 ≤ (pk s'.pkts i).length := by
    rw [hpr]; exact hlen
  have base : SimInv (wfqSteps 1 s) ∧ SimInv (wfqSteps 1 s') ∧ (wfqSteps 1 s).pkts = A
      ∧ (wfqSteps 1 s').pkts = A ++ B :=
    ⟨simInv_step hl, simInv_step hr, by rw [wfqSteps_pkts, hpl], by rw [wfqSteps_pkts, hpr]⟩
  obtain ⟨b1, b2, b3, b4⟩ := base
  suffices key : startedBy T (wfqSteps 1 s').out = startedBy T (wfqSteps 1 s).out
      ∧ (Lock A B T (wfqSteps 1 s) (wfqSteps 1 s')
        ∨ ((T < (wfqSteps 1 s).cur_time
            ∨ ¬ (wfqSteps 1 s).sent_cnt < (wfqSteps 1 s).pkts.length)
          ∧ T < (wfqSteps 1 s').cur_time)) from ⟨b1, b2, b3, b4, key.1, key.2⟩
  clear b1 b2 b3 b4
  rw [wfqSteps_one, wfqSteps_one]
  by_cases hc : s.sent_cnt < s.pkts.length
  -- the run over `A` still has packets to send
  · have hc' : s'.sent_cnt < s'.pkts.length := by
      rw [hk.cnt_eq, hpr]; rw [hpl] at hc; omega
    rw [if_pos hc, if_pos hc']
    cases hb : (scan s.pkts s.sent s.cur_time).1 with
    | some b =>
      have hbl : b < A.length := hpl ▸ hsl.best_lt b hb
      have hbu := hsl.best_unsent b hb
      have hba := hsl.best_arrived b hb
      have hb' : (scan s'.pkts s'.sent s'.cur_time).1 = some b := by
        cases hb' : (scan s'.pkts s'.sent s'.cur_time).1 with
        | none =>
          exfalso
          apply hsr.none_elig hb' b (by rw [hpr]; omega) (by rw [hsent]; exact hbu)
          rw [hpkA b hbl, hk.cur_eq]; exact hba
        | some b' =>
          have hb'l : b' < A.length := by
            by_contra hge
            exact noB b' (not_lt.mp hge) (hpr ▸ hsr.best_lt b' hb') (hsr.best_arrived b' hb')
          have hb'u := hsr.best_unsent b' hb'
          have hb'a := hsr.best_arrived b' hb'
          by_contra hne
          have hne2 : b' ≠ b := fun e => hne (by rw [e])
          have h1 := hsl.best_min b hb b' (by rw [hpl]; exact hb'l)
            (by rw [← hsent]; exact hb'u) (by rw [← hpkA b' hb'l, ← hk.cur_eq]; exact hb'a) hne2
          have h2 := hsr.best_min b' hb' b (by rw [hpr]; omega) (by rw [hsent]; exact hbu)
            (by rw [hpkA b hbl, hk.cur_eq]; exact hba) (fun e => hne2 e.symm)
          rw [hpr, before_append_left hb'l hbl] at h2
          rw [hpl] at h1
          exact before_asymm h1 h2
      rw [wfqIter_send hb, wfqIter_send hb']
      simp only
      constructor
      · rw [hk.out_eq, hk.cur_eq]
      · rw [hpkA b hbl, hk.cur_eq]
        by_cases hT : s.cur_time + (pk s.pkts b).length ≤ T
        · left
          refine ⟨?_, rfl, by rw [hk.out_eq], by rw [hk.cnt_eq], hT⟩
          simp only
          rw [hk.sent_eq, List.set_append_left _ _ (by rw [hl.sent_len, hpl]; exact hbl)]
        · right
          exact ⟨Or.inl (not_le.mp hT), not_le.mp hT⟩
    | none =>
      have hb' : (scan s'.pkts s'.sent s'.cur_time).1 = none := by
        cases hb' : (scan s'.pkts s'.sent s'.cur_time).1 with
        | none => rfl
        | some b' =>
          exfalso
          by_cases hb'l : b' < A.length
          · apply hsl.none_elig hb b' (by rw [hpl]; exact hb'l)
              (by rw [← hsent]; exact hsr.best_unsent b' hb')
            rw [← hpkA b' hb'l, ← hk.cur_eq]; exact hsr.best_arrived b' hb'
          · exact noB b' (not_lt.mp hb'l) (hpr ▸ hsr.best_lt b' hb') (hsr.best_arrived b' hb')
      obtain ⟨_, ⟨m, hm, hma⟩, hmin⟩ := ff_spec hl hc hb
      obtain ⟨_, ⟨m', hm', hma'⟩, hmin'⟩ := ff_spec hr hc' hb'
      have hml : m < A.length := hpl ▸ hm.1
      have hm_r : pending s' m := ⟨by rw [hpr]; omega, by rw [hsent]; exact hm.2⟩
      have hle : (scan s'.pkts s'.sent s'.cur_time).2 ≤ (scan s.pkts s.sent s.cur_time).2 := by
        have := hmin' m hm_r
        rwa [hpkA m hml, hma] at this
      have hcase : m' < A.length → (scan s.pkts s.sent s.cur_time).2
          ≤ (scan s'.pkts s'.sent s'.cur_time).2 := by
        intro h
        have := hmin m' ⟨by rw [hpl]; exact h, by rw [← hsent]; exact hm'.2⟩
        rwa [← hpkA m' h, hma'] at this
      have hlate : ¬ m' < A.length → T < (scan s'.pkts s'.sent s'.cur_time).2 := by
        intro h
        have := hB m' (not_lt.mp h) (hpr ▸ hm'.1)
        rwa [← hpr, hma'] at this
      rw [wfqIter_none hb, wfqIter_none hb']
      simp only
      constructor
      · exact hf
      · by_cases hT : (scan s.pkts s.sent s.cur_time).2 ≤ T
        · left
          have hm'l : m' < A.length := by
            by_contra h
            have := hlate h
            omega
          exact ⟨hk.sent_eq, le_antisymm hle (hcase hm'l), hk.out_eq, hk.cnt_eq, hT⟩
        · right
          refine ⟨Or.inl (not_le.mp hT), ?_⟩
          by_cases hm'l : m' < A.length
          · exact lt_of_lt_of_le (not_le.mp hT) (hcase hm'l)
          · exact hlate hm'l
  -- the run over `A` has ended
  · rw [if_neg hc]
    by_cases hc' : s'.sent_cnt < s'.pkts.length
    · rw [if_pos hc']
      have hb' : (scan s'.pkts s'.sent s'.cur_time).1 = none := by
        cases hb' : (scan s'.pkts s'.sent s'.cur_time).1 with
        | none => rfl
        | some b' =>
          exfalso
          by_cases hb'l : b' < A.length
          · have h1 := all_sent_of_done hl.toSimBase hc (hpl ▸ hb'l)
            rw [← hsent, hsr.best_unsent b' hb'] at h1
            exact Bool.false_ne_true h1
          · exact noB b' (not_lt.mp hb'l) (hpr ▸ hsr.best_lt b' hb') (hsr.best_arrived b' hb')
      obtain ⟨_, ⟨m', hm', hma'⟩, _⟩ := ff_spec hr hc' hb'
      have hm'l : ¬ m' < A.length := by
        intro h
        have h1 := all_sent_of_done hl.toSimBase hc (hpl ▸ h)
        rw [← hsent, hm'.2] at h1
        exact Bool.false_ne_true h1
      have hlate : T < (scan s'.pkts s'.sent s'.cur_time).2 := by
        have := hB m' (not_lt.mp hm'l) (hpr ▸ hm'.1)
        rwa [← hpr, hma'] at this
      rw [wfqIter_none hb']
      simp only
      exact ⟨hf, Or.inr ⟨Or.inr hc, hlate⟩⟩
    · rw [if_neg hc']
      exact ⟨hf, Or.inl hk⟩

theorem rel_step {A B : List Packet} {T : Int} {s s' : Sim}
    (hB : ∀ i, A.length ≤ i → i < (A ++ B).length → T < (pk (A ++ B) i).arrival)
    (hlen : ∀ i, i < (A ++ B).length → 0 ≤ (pk (A ++ B) i).length)
    (h : Rel A B T s s') : Rel A B T (wfqSteps 1 s) (wfqSteps 1 s') := by
  rcases h.phase with hk | ⟨hs, hs'⟩
  · exact lock_step hB hlen h.inv_l h.inv_r h.pkts_l h.pkts_r h.filt hk
  · have hlr : ∀ i, i < s'.pkts.length → 0 ≤ (pk s'.pkts i).length := by
      rw [h.pkts_r]; exact hlen
    have hll : ∀ i, i < s.pkts.length → 0 ≤ (pk s.pkts i).length := by
      rw [h.pkts_l]
      intro i hi
      have := hlen i (by simp; omega)
      rwa [pk_append_left hi] at this
    obtain ⟨r1, r2⟩ := late_step h.inv_r hlr hs'
    have hleft : (T < (wfqSteps 1 s).cur_time
          ∨ ¬ (wfqSteps 1 s).sent_cnt < (wfqSteps 1 s).pkts.length)
        ∧ startedBy T (wfqSteps 1 s).out = startedBy T s.out := by
      rcases hs with hs | hs
      · obtain ⟨l1, l2⟩ := late_step h.inv_l hll hs
        exact ⟨Or.inl l1, l2⟩
      · rw [wfqSteps_done hs]
        exact ⟨Or.inr hs, rfl⟩
    exact ⟨simInv_step h.inv_l, simInv_step h.inv_r, by rw [wfqSteps_pkts, h.pkts_l],
      by rw [wfqSteps_pkts, h.pkts_r], by rw [r2, hleft.2, h.filt], Or.inr ⟨hleft.1, r1⟩⟩

theorem rel_steps {A B : List Packet} {T : Int} {s s' : Sim}
    (hB : ∀ i, A.length ≤ i → i < (A ++ B).length → T < (pk (A ++ B) i).arrival)
    (hlen : ∀ i, i < (A ++ B).length → 0 ≤ (pk (A ++ B) i).length)
    (h : Rel A B T s s') (n : Nat) : Rel A B T (wfqSteps n s) (wfqSteps n s') := by
  induction n with
  | zero => exact h
  | succ n ih =>
    rw [wfqSteps_succ_last n s, wfqSteps_succ_last n s']
    exact rel_step hB hlen ih

theorem rel_init {A B : List Packet} (T : Int)
    (hr : ∀ i, i < (A ++ B).length → (pk (A ++ B) i).arrival ≤ LLONG_MAX) :
    Rel A B T (simInit A) (simInit (A ++ B)) := by
  have hrA : ∀ i, i < A.length → (pk A i).arrival ≤ LLONG_MAX := by
    intro i hi
    have := hr i (by simp; omega)
    rwa [pk_append_left hi] at this
  refine ⟨simInv_init A hrA, simInv_init _ hr, rfl, rfl, rfl, ?_⟩
  by_cases hT : (0 : Int) ≤ T
  · left
    refine ⟨?_, rfl, rfl, rfl, hT⟩
    show List.replicate (A ++ B).length false
      = List.replicate A.length false ++ List.replicate B.length false
    rw [List.length_append, List.replicate_add]
  · right
    exact ⟨Or.inl (not_le.mp hT), not_le.mp hT⟩

/-- Packets appended to the ledger that arrive after `T` do not change the
lines printed with start at most `T`. -/
theorem startedBy_extension {A B : List Packet} {T : Int}
    (hr : ∀ i, i < (A ++ B).length → (pk (A ++ B) i).arrival ≤ LLONG_MAX)
    (hB : ∀ i, A.length ≤ i → i < (A ++ B).length → T < (pk (A ++ B) i).arrival)
    (hlen : ∀ i, i < (A ++ B).length → 0 ≤ (pk (A ++ B) i).length) :
    startedBy T (finalState (A ++ B)).out = startedBy T (finalState A).out := by
  have hrA : ∀ i, i < A.length → (pk A i).arrival ≤ LLONG_MAX := by
    intro i hi
    have := hr i (by simp; omega)
    rwa [pk_append_left hi] at this
  have h := rel_steps hB hlen (rel_init T hr) (2 * (A ++ B).length)
  rw [wfqSteps_final A hrA _ (by simp)] at h
  exact h.filt

theorem accepted_append (P S : List Line) : accepted (P ++ S) = accepted P ++ accepted S := by
  unfold accepted; exact List.filter_append _ _

theorem lineAt_append_right {xs ys : List Line} {i : Nat} (h : xs.length ≤ i) :
    lineAt (xs ++ ys) i = lineAt ys (i - xs.length) := by
  unfold lineAt; exact List.getD_append_right _ _ _ _ h

theorem lineOf_append_left {A B : List Packet} {e : Nat × Int} (h : e.1 < A.length) :
    lineOf (A ++ B) e = lineOf A e := by
  unfold lineOf
  rw [List.getD_append _ _ _ _ h]

theorem filter_map_lineOf (T : Int) (pkts : List Packet) (out : List (Nat × Int)) :
    (out.map (lineOf pkts)).filter (fun l => decide (l.1 ≤ T))
      = (startedBy T out).map (lineOf pkts) := by
  unfold startedBy
  rw [List.filter_map]
  rfl

theorem mem_keys_take {xs : List Line} {n : Nat} {k : String} :
    k ∈ (xs.take n).map keybuf ↔ ∃ j, j < n ∧ j < xs.length ∧ keybuf (lineAt xs j) = k := by
  constructor
  · intro h
    obtain ⟨x, hx, rfl⟩ := List.mem_map.mp h
    obtain ⟨j, hj, rfl⟩ := List.mem_take_iff_getElem.mp hx
    have h1 : j < n := lt_of_lt_of_le hj (min_le_left _ _)
    have h2 : j < xs.length := lt_of_lt_of_le hj (min_le_right _ _)
    refine ⟨j, h1, h2, ?_⟩
    unfold lineAt
    rw [List.getD_eq_getElem?_getD, List.getElem?_eq_getElem h2]
    rfl
  · rintro ⟨j, h1, h2, rfl⟩
    apply List.mem_map.mpr
    refine ⟨xs[j], List.mem_take_iff_getElem.mpr ⟨j, lt_min h1 h2, rfl⟩, ?_⟩
    unfold lineAt
    rw [List.getD_eq_getElem?_getD, List.getElem?_eq_getElem h2]
    rfl

/-- The index of a flow entry is the number of distinct keys seen before the
first record of its key. -/
theorem flow_index_eq_card {xs : List Line} {st : Ingest} (hinv : IngInv xs st) {f : Nat}
    (hf : f < st.flows.length) :
    (((xs.take (firstOcc xs (fl st.flows f).key)).map keybuf).dedup).length = f := by
  have hnd : ((List.range f).map (fun g => (fl st.flows g).key)).Nodup := by
    apply List.Nodup.map_on _ (List.nodup_range f)
    intro a ha b hb hab
    exact hinv.keys_inj a b (lt_trans (List.mem_range.mp ha) hf)
      (lt_trans (List.mem_range.mp hb) hf) hab
  have hperm : (((xs.take (firstOcc xs (fl st.flows f).key)).map keybuf).dedup).Perm
      ((List.range f).map (fun g => (fl st.flows g).key)) := by
    rw [List.perm_ext_iff_of_nodup (List.nodup_dedup _) hnd]
    intro k
    rw [List.mem_dedup, mem_keys_take]
    constructor
    · rintro ⟨j, h1, h2, hk⟩
      obtain ⟨g, hg, hgk⟩ := hinv.seen_key j h2
      have hfo : firstOcc xs (fl st.flows g).key < firstOcc xs (fl st.flows f).key := by
        rw [hgk]
        exact lt_of_le_of_lt (firstOcc_le h2 rfl) h1
      have hgf : g < f := by
        rcases lt_trichotomy g f with h | h | h
        · exact h
        · rw [h] at hfo; exact absurd hfo (lt_irrefl _)
        · exact absurd hfo (not_lt.mpr (le_of_lt (hinv.order f g h hg)))
      exact List.mem_map.mpr ⟨g, List.mem_range.mpr hgf, by rw [hgk, hk]⟩
    · intro h
      obtain ⟨g, hg, rfl⟩ := List.mem_map.mp h
      have hgf : g < f := List.mem_range.mp hg
      have hgl : g < st.flows.length := lt_trans hgf hf
      exact ⟨firstOcc xs (fl st.flows g).key, hinv.order g f hgf hf, hinv.key_seen g hgl,
        firstOcc_key (hinv.key_seen g hgl)⟩
  rw [hperm.length_eq, List.length_map, List.length_range]

theorem key_eq_of_prio_eq {xs : List Line} {st : Ingest} (hinv : IngInv xs st) {i j : Nat}
    (hi : i < xs.length) (hj : j < xs.length)
    (hp : (pk st.pkts i).priority = (pk st.pkts j).priority) :
    keybuf (lineAt xs i) = keybuf (lineAt xs j) := by
  rw [← (hinv.pprio i hi).2, ← (hinv.pprio j hj).2, hp]

theorem prio_eq_card {xs : List Line} {st : Ingest} (hinv : IngInv xs st) {i : Nat}
    (hi : i < xs.length) : (pk st.pkts i).priority = (keysBefore xs i).length := by
  obtain ⟨h1, h2⟩ := hinv.pprio i hi
  have := flow_index_eq_card hinv h1
  rw [h2] at this
  exact this.symm

/-- Ingestion is the ingestion of the accepted records. -/
theorem ingest_accepted (tr : List Line) : ingest tr = ingest (accepted tr) := by
  induction tr using List.reverseRecOn with
  | nil => rfl
  | append_singleton xs x ih =>
    rw [ingest_snoc, accepted_snoc]
    by_cases h : 6 ≤ x.matched
    · rw [if_pos h, ingest_snoc, ih]
    · rw [if_neg h, ingestLine_skip (not_le.mp h), ih]

theorem accepted_cons_skip {x : Line} (hx : x.matched < 6) (P S : List Line) :
    accepted (P ++ x :: S) = accepted (P ++ S) := by
  unfold accepted
  rw [List.filter_append, List.filter_append, List.filter_cons]
  simp [not_le.mpr hx]

/-- The ledger after two accepted records of different flows. -/
theorem ingest_two_flows (a b : Line) (ha : 6 ≤ a.matched) (hb : 6 ≤ b.matched)
    (hk : keybuf a ≠ keybuf b) :
    (ingest [a, b]).pkts =
      [Packet.mk a.t a.L
          (max 0 (a.t : ℚ) + (a.L : ℚ) / ((if a.matched = 7 then a.w else 1 : Int) : ℚ)) 0 a.text,
       Packet.mk b.t b.L
          (max 0 (b.t : ℚ) + (b.L : ℚ) / ((if b.matched = 7 then b.w else 1 : Int) : ℚ)) 1
          b.text] := by
  have hk2 : (keybuf a == keybuf b) = false := by simpa using hk
  simp only [ingest, List.foldl_cons, List.foldl_nil]
  have h1 : ingestLine ingestInit a =
      { flows := [flow_info.mk (keybuf a)
          (max 0 (a.t : ℚ) + (a.L : ℚ) / ((if a.matched = 7 then a.w else 1 : Int) : ℚ))
          (if a.matched = 7 then a.w else 1) 0],
        pkts := [Packet.mk a.t a.L
          (max 0 (a.t : ℚ) + (a.L : ℚ) / ((if a.matched = 7 then a.w else 1 : Int) : ℚ)) 0
          a.text],
        next_prio := 1 } := by
    rw [ingestLine_new ha (by simp [ingestInit, findFlow])]
    simp [ingestInit, flowAfter, tagNow, weightNow, flowBefore, findFlow]
  rw [h1, ingestLine_new hb (by simp [findFlow, List.findIdx_cons, hk2])]
  simp [flowAfter, tagNow, weightNow, flowBefore, findFlow, List.findIdx_cons, hk2]

/-- The ledger after two accepted records of one flow, neither of which
specifies a weight. -/
theorem ingest_one_flow (a b : Line) (ha : a.matched = 6) (hb : b.matched = 6)
    (hk : keybuf a = keybuf b) :
    (ingest [a, b]).pkts =
      [Packet.mk a.t a.L (max 0 (a.t : ℚ) + (a.L : ℚ) / ((1 : Int) : ℚ)) 0 a.text,
       Packet.mk b.t b.L
          (max (max 0 (a.t : ℚ) + (a.L : ℚ) / ((1 : Int) : ℚ)) (b.t : ℚ)
            + (b.L : ℚ) / ((1 : Int) : ℚ)) 0 b.text] := by
  have ha6 : (6 : Int) ≤ a.matched := by rw [ha]
  have hb6 : (6 : Int) ≤ b.matched := by rw [hb]
  have ha7 : ¬ a.matched = 7 := by rw [ha]; decide
  have hb7 : ¬ b.matched = 7 := by rw [hb]; decide
  simp only [ingest, List.foldl_cons, List.foldl_nil]
  have h1 : ingestLine ingestInit a =
      { flows := [flow_info.mk (keybuf a) (max 0 (a.t : ℚ) + (a.L : ℚ) / ((1 : Int) : ℚ)) 1 0],
        pkts := [Packet.mk a.t a.L (max 0 (a.t : ℚ) + (a.L : ℚ) / ((1 : Int) : ℚ)) 0 a.text],
        next_prio := 1 } := by
    rw [ingestLine_new ha6 (by simp [ingestInit, findFlow])]
    simp [ingestInit, flowAfter, tagNow, weightNow, flowBefore, findFlow, ha7]
  rw [h1, ingestLine_found hb6 (by simp [findFlow, List.findIdx_cons, hk])]
  simp [flowAfter, tagNow, weightNow, flowBefore, findFlow, List.findIdx_cons, hk, hb7, fl]

theorem pk_mem {pkts : List Packet} {i : Nat} (h : i < pkts.length) : pk pkts i ∈ pkts := by
  unfold pk
  rw [List.getD_eq_getElem?_getD, List.getElem?_eq_getElem h]
  exact List.getElem_mem h

theorem runAt_pkts (pkts : List Packet) (n : Nat) : (runAt pkts n).pkts = pkts := by
  unfold runAt; rw [wfqSteps_pkts]; rfl

theorem runAt_succ (pkts : List Packet) (n : Nat) :
    runAt pkts (n + 1) =
      if (runAt pkts n).sent_cnt < (runAt pkts n).pkts.length then wfqIter (runAt pkts n)
      else runAt pkts n := by
  unfold runAt; rw [wfqSteps_succ_last, wfqSteps_one]

/-- Within a flow a later record's finish tag exceeds an earlier one's by at
least its own length over its weight. -/
theorem ftag_gap {xs : List Line} {st : Ingest} (hinv : IngInv xs st)
    (hw : ∀ x ∈ xs, x.matched = 7 → 1 ≤ x.w) {i j : Nat} (hij : i < j) (hj : j < xs.length)
    (hk : keybuf (lineAt xs i) = keybuf (lineAt xs j))
    (hl : ∀ m, i < m → m < j → keybuf (lineAt xs m) = keybuf (lineAt xs j) →
      0 ≤ (lineAt xs m).L) :
    (pk st.pkts i).finish_tag
        + ((lineAt xs j).L : ℚ) / (weightOf xs (keybuf (lineAt xs j)) (j + 1) : ℚ)
      ≤ (pk st.pkts j).finish_tag := by
  obtain ⟨m, hm, him⟩ := lastIdx_ge (p := fun a => keybuf (lineAt xs a) == keybuf (lineAt xs j))
    hij (by simpa using hk)
  have hms := lastIdx_some hm
  have hmk : keybuf (lineAt xs m) = keybuf (lineAt xs j) := by simpa using hms.2.1
  have h1 : lastFinishOf xs st.pkts (keybuf (lineAt xs j)) j = (pk st.pkts m).finish_tag := by
    unfold lastFinishOf prevOfKey; rw [hm]
  have him2 : (pk st.pkts i).finish_tag ≤ (pk st.pkts m).finish_tag := by
    rcases Nat.eq_or_lt_of_le him with rfl | hlt
    · exact le_refl _
    · exact ftag_mono hinv hw i m hlt (lt_trans hms.1 hj) (hk.trans hmk.symm)
        (fun a ha1 ha2 hak => hl a ha1 (lt_of_le_of_lt ha2 hms.1) (hak.trans hmk))
  rw [hinv.ftag j hj, h1]
  have := le_max_left (pk st.pkts m).finish_tag ((lineAt xs j).t : ℚ)
  linarith

/-- Equal finish tags within a flow force the later record to have length
zero. -/
theorem length_zero_of_ftag_eq {xs : List Line} {st : Ingest} (hinv : IngInv xs st)
    (hw : ∀ x ∈ xs, x.matched = 7 → 1 ≤ x.w) (hl : ∀ x ∈ xs, 0 ≤ x.L) {i j : Nat}
    (hij : i < j) (hj : j < xs.length)
    (hk : keybuf (lineAt xs i) = keybuf (lineAt xs j))
    (hF : (pk st.pkts i).finish_tag = (pk st.pkts j).finish_tag) : (lineAt xs j).L = 0 := by
  have hgap := ftag_gap hinv hw hij hj hk
    (fun m _ hm2 _ => hl _ (lineAt_mem (lt_trans hm2 hj)))
  have hw1 : (1 : ℚ) ≤ (weightOf xs (keybuf (lineAt xs j)) (j + 1) : ℚ) := by
    exact_mod_cast weightOf_ge_one hw (keybuf (lineAt xs j)) hj
  have h0 := hl _ (lineAt_mem hj)
  by_contra hne
  have hpos : (0 : ℚ) < ((lineAt xs j).L : ℚ) := by
    exact_mod_cast lt_of_le_of_ne h0 (fun h => hne h.symm)
  have := div_pos hpos (lt_of_lt_of_le zero_lt_one hw1)
  rw [hF] at hgap
  linarith

theorem flows_map_key_getElem? (flows : List flow_info) {f : Nat} (hf : f < flows.length) :
    (flows.map flow_info.key)[f]? = some (fl flows f).key := by
  unfold fl
  rw [List.getElem?_map, List.getD_eq_getElem?_getD, List.getElem?_eq_getElem hf]
  rfl

theorem keys_nodup {xs : List Line} {st : Ingest} (hinv : IngInv xs st) :
    (st.flows.map flow_info.key).Nodup := by
  rw [List.nodup_iff_getElem?_ne_getElem?]
  intro i j hij hj he
  rw [List.length_map] at hj
  rw [flows_map_key_getElem? _ (lt_trans hij hj), flows_map_key_getElem? _ hj] at he
  have := hinv.keys_inj i j (lt_trans hij hj) hj (Option.some.inj he)
  omega

theorem priorities_eq_range {xs : List Line} {st : Ingest} (hinv : IngInv xs st) :
    st.flows.map flow_info.priority = List.range st.flows.length := by
  apply List.ext_getElem
  · simp
  · intro i h1 h2
    have hi : i < st.flows.length := by simpa using h1
    have := hinv.prio_idx i hi
    unfold fl at this
    rw [List.getD_eq_getElem?_getD, List.getElem?_eq_getElem hi] at this
    simpa using this

/-- Reading one line keeps the registered keys, in order, and may add one at
the end. -/
theorem keys_prefix_step {xs : List Line} {st : Ingest} (hinv : IngInv xs st) (x : Line) :
    st.flows.map flow_info.key <+: (ingestLine st x).flows.map flow_info.key := by
  by_cases ha : 6 ≤ x.matched
  · have sh := stepShape hinv ha
    rw [List.prefix_iff_eq_take]
    apply List.ext_getElem?
    intro f
    by_cases hf : f < st.flows.length
    · rw [List.getElem?_take_of_lt (by simpa using hf), flows_map_key_getElem? _ hf,
        flows_map_key_getElem? _ (lt_of_lt_of_le hf sh.len_le), sh.keys_old f hf]
    · rw [List.getElem?_eq_none (by simpa using hf), List.getElem?_eq_none]
      rw [List.length_take, List.length_map, List.length_map]
      exact le_trans (min_le_left _ _) (not_lt.mp hf)
  · rw [ingestLine_skip (not_le.mp ha)]

theorem keys_prefix (P S : List Line) :
    (ingest P).flows.map flow_info.key <+: (ingest (P ++ S)).flows.map flow_info.key := by
  induction S using List.reverseRecOn with
  | nil => rw [List.append_nil]
  | append_singleton S x ih =>
    rw [← List.append_assoc, ingest_snoc]
    exact ih.trans (keys_prefix_step (ingInv_ingest (P ++ S)) x)

theorem fifoInv_iter {pkts : List Packet} {i j : Nat} {st : Sim}
    (hi : i < pkts.length) (hai : (pk pkts i).arrival ≤ (pk pkts j).arrival)
    (hij : before pkts i j) (h : FifoInv pkts i j st) : FifoInv pkts i j (wfqIter st) := by
  have hpk := h.pkts_eq
  refine ⟨simBase_iter h.base, by rw [wfqIter_pkts, hpk], ?_⟩
  cases hb : (scan st.pkts st.sent st.cur_time).1 with
  | none => rw [wfqIter_none hb]; exact h.ordered
  | some b =>
    rw [wfqIter_send hb]
    simp only
    intro hj
    have hem : emitted (st.out ++ [(b, st.cur_time)]) = emitted st.out ++ [b] := by
      simp [emitted]
    unfold emittedBefore
    rw [hem] at hj ⊢
    by_cases hjo : j ∈ emitted st.out
    · obtain ⟨h1, h2, h3⟩ := h.ordered hjo
      refine ⟨List.mem_append_left _ h1, List.mem_append_left _ h2, ?_⟩
      rw [List.indexOf_append_of_mem h1, List.indexOf_append_of_mem h2]
      exact h3
    · have hjb : j = b := by
        rcases List.mem_append.mp hj with hj | hj
        · exact absurd hj hjo
        · simpa using hj
      subst hjb
      have hio : i ∈ emitted st.out := by
        by_contra hio
        have hs := scanInv_scan st.pkts st.sent st.cur_time
        have hne : i ≠ j := fun e => before_irrefl pkts i (by rw [← e] at hij; exact hij)
        have hja := hs.best_arrived j hb
        rw [hpk] at hja
        have := hs.best_min j hb i (by rw [hpk]; exact hi)
          (not_sent_of_not_emitted h.base hio) (by rw [hpk]; exact le_trans hai hja) hne
        rw [hpk] at this
        exact before_asymm hij this
      refine ⟨List.mem_append_left _ hio, List.mem_append_right _ (by simp), ?_⟩
      rw [List.indexOf_append_of_mem hio, List.indexOf_append_of_not_mem hjo]
      have := List.indexOf_lt_length.mpr hio
      omega

/-- A packet that arrives no later than another and comes before it in the
dispatch order is printed before it. -/
theorem fifo_order {pkts : List Packet}
    (hr : ∀ a, a < pkts.length → (pk pkts a).arrival ≤ LLONG_MAX) {i j : Nat}
    (hi : i < pkts.length) (hj : j < pkts.length)
    (hai : (pk pkts i).arrival ≤ (pk pkts j).arrival) (hij : before pkts i j) :
    emittedBefore (finalState pkts).out i j := by
  have h0 : FifoInv pkts i j (simInit pkts) :=
    ⟨simBase_init pkts, rfl, fun hm => by simp [simInit, emitted] at hm⟩
  have hfin : FifoInv pkts i j (finalState pkts) :=
    wfqSteps_induct (FifoInv pkts i j) (fun _ hs _ => fifoInv_iter hi hai hij hs) _ _ h0
  apply hfin.ordered
  exact ((finalState_perm pkts hr).mem_iff).mpr (List.mem_range.mpr hj)

theorem wrap64_of_fits {x : Int} (h1 : LLONG_MIN ≤ x) (h2 : x ≤ LLONG_MAX) : wrap64 x = x := by
  unfold wrap64
  unfold LLONG_MIN at h1
  unfold LLONG_MAX at h2
  rw [Int.emod_eq_of_lt (by omega) (by omega)]
  omega

theorem wfqIter64_none {st : Sim} (h : (scan st.pkts st.sent st.cur_time).1 = none) :
    wfqIter64 st = { st with cur_time := (scan st.pkts st.sent st.cur_time).2 } := by
  unfold wfqIter64
  rcases hs : scan st.pkts st.sent st.cur_time with ⟨b, nx⟩
  rw [hs] at h
  simp only at h
  subst h
  rfl

theorem wfqIter64_some {st : Sim} {b : Nat} (h : (scan st.pkts st.sent st.cur_time).1 = some b) :
    wfqIter64 st =
      { st with
        out := st.out ++ [(b, if st.cur_time > (pk st.pkts b).arrival then st.cur_time
                              else (pk st.pkts b).arrival)]
        cur_time := wrap64 ((if st.cur_time > (pk st.pkts b).arrival then st.cur_time
                      else (pk st.pkts b).arrival) + (pk st.pkts b).length)
        sent := st.sent.set b true
        sent_cnt := st.sent_cnt + 1 } := by
  unfold wfqIter64
  rcases hs : scan st.pkts st.sent st.cur_time with ⟨b0, nx⟩
  rw [hs] at h
  simp only at h
  subst h
  rfl

theorem wfqIter64_send {st : Sim} {b : Nat}
    (hb : (scan st.pkts st.sent st.cur_time).1 = some b) :
    wfqIter64 st =
      { st with
        out := st.out ++ [(b, st.cur_time)]
        cur_time := wrap64 (st.cur_time + (pk st.pkts b).length)
        sent := st.sent.set b true
        sent_cnt := st.sent_cnt + 1 } := by
  rw [wfqIter64_some hb, start_eq_clock hb]

/-- The two iterations differ in the clock only. -/
theorem wfqIter64_fields (st : Sim) :
    (wfqIter64 st).pkts = (wfqIter st).pkts ∧ (wfqIter64 st).sent = (wfqIter st).sent
      ∧ (wfqIter64 st).sent_cnt = (wfqIter st).sent_cnt
      ∧ (wfqIter64 st).out = (wfqIter st).out := by
  cases hb : (scan st.pkts st.sent st.cur_time).1 with
  | none => rw [wfqIter64_none hb, wfqIter_none hb]; exact ⟨rfl, rfl, rfl, rfl⟩
  | some b => rw [wfqIter64_some hb, wfqIter_some hb]; exact ⟨rfl, rfl, rfl, rfl⟩

theorem wfqIter64_eq_of_fits {st : Sim} (h : clockFits st) : wfqIter64 st = wfqIter st := by
  unfold clockFits at h
  cases hb : (scan st.pkts st.sent st.cur_time).1 with
  | none => rw [wfqIter64_none hb, wfqIter_none hb]
  | some b =>
    rw [hb] at h
    simp only at h
    rw [wfqIter64_some hb, wfqIter_some hb, wrap64_of_fits h.1 h.2]

theorem wfqIter64_pkts (st : Sim) : (wfqIter64 st).pkts = st.pkts := by
  rw [(wfqIter64_fields st).1, wfqIter_pkts]

theorem simBase_iter64 {st : Sim} (h : SimBase st) : SimBase (wfqIter64 st) := by
  have h2 := simBase_iter h
  obtain ⟨e1, e2, e3, e4⟩ := wfqIter64_fields st
  exact ⟨by rw [e1, e2]; exact h2.sent_len, by rw [e1, e4]; exact h2.idx_lt,
    by rw [e4]; exact h2.nodup, by rw [e2, e4]; exact h2.sent_iff,
    by rw [e3, e4]; exact h2.cnt, by rw [e1, e4]; exact h2.start_ge⟩

theorem wfqSteps64_succ (n : Nat) (st : Sim) :
    wfqSteps64 (n + 1) st =
      if st.sent_cnt < st.pkts.length then wfqSteps64 n (wfqIter64 st) else st := rfl

theorem wfqSteps64_done {st : Sim} (h : ¬ st.sent_cnt < st.pkts.length) (n : Nat) :
    wfqSteps64 n st = st := by
  cases n with
  | zero => rfl
  | succ n => rw [wfqSteps64_succ, if_neg h]

theorem wfqSteps64_add (n m : Nat) (st : Sim) :
    wfqSteps64 (n + m) st = wfqSteps64 m (wfqSteps64 n st) := by
  induction n generalizing st with
  | zero => simp [wfqSteps64]
  | succ n ih =>
    rw [Nat.add_right_comm, wfqSteps64_succ, wfqSteps64_succ]
    by_cases h : st.sent_cnt < st.pkts.length
    · simp only [h, if_true]
      exact ih _
    · simp only [h, if_false]
      exact (wfqSteps64_done h m).symm

theorem wfqSteps64_one (st : Sim) :
    wfqSteps64 1 st = if st.sent_cnt < st.pkts.length then wfqIter64 st else st := rfl

theorem wfqSteps64_induct (P : Sim → Prop)
    (step : ∀ st, P st → st.sent_cnt < st.pkts.length → P (wfqIter64 st))
    (n : Nat) (st : Sim) (h0 : P st) : P (wfqSteps64 n st) := by
  induction n generalizing st with
  | zero => exact h0
  | succ n ih =>
    rw [wfqSteps64_succ]
    by_cases h : st.sent_cnt < st.pkts.length
    · simp only [h, if_true]; exact ih _ (step st h0 h)
    · simp only [h, if_false]; exact h0

theorem wfqLoop64_eq (fuel : Nat) (st : Sim) :
    wfqLoop64 fuel st =
      if (wfqSteps64 fuel st).sent_cnt < (wfqSteps64 fuel st).pkts.length then none
      else some (wfqSteps64 fuel st) := by
  induction fuel generalizing st with
  | zero => rfl
  | succ n ih =>
    unfold wfqLoop64
    rw [wfqSteps64_succ]
    by_cases h : st.sent_cnt < st.pkts.length
    · simp only [h, if_true]; exact ih _
    · simp only [h, if_false]

theorem runAt64_pkts (pkts : List Packet) (n : Nat) : (runAt64 pkts n).pkts = pkts := by
  unfold runAt64
  exact wfqSteps64_induct (fun s => s.pkts = pkts)
    (fun s hs _ => (wfqIter64_pkts s).trans hs) n _ rfl

theorem runAt64_base (pkts : List Packet) (n : Nat) : SimBase (runAt64 pkts n) :=
  wfqSteps64_induct SimBase (fun _ hs _ => simBase_iter64 hs) n _ (simBase_init pkts)

theorem runAt64_succ (pkts : List Packet) (n : Nat) :
    runAt64 pkts (n + 1) =
      if (runAt64 pkts n).sent_cnt < (runAt64 pkts n).pkts.length then wfqIter64 (runAt64 pkts n)
      else runAt64 pkts n := by
  unfold runAt64; rw [wfqSteps64_add, wfqSteps64_one]

theorem runAt64_succ_of_pending {pkts : List Packet} {n i : Nat}
    (h : pending (runAt64 pkts n) i) : runAt64 pkts (n + 1) = wfqIter64 (runAt64 pkts n) := by
  rw [runAt64_succ, if_pos (pending_cnt_lt (runAt64_base pkts n) h)]

/-- While no addition overflows, the run with the 64-bit clock is the run with
the unbounded clock. -/
theorem runAt64_eq_of_le {pkts : List Packet} {fuel : Nat} (h : NoOverflow pkts fuel) :
    ∀ n, n ≤ fuel → runAt64 pkts n = runAt pkts n := by
  intro n
  induction n with
  | zero => intro _; rfl
  | succ n ih =>
    intro hn
    have e := ih (by omega)
    rw [runAt64_succ, runAt_succ, ← e]
    by_cases hc : (runAt64 pkts n).sent_cnt < (runAt64 pkts n).pkts.length
    · rw [if_pos hc, if_pos hc, wfqIter64_eq_of_fits (h n (by omega))]
    · rw [if_neg hc, if_neg hc]

theorem wfqLoop64_eq_wfqLoop {pkts : List Packet} {fuel : Nat} (h : NoOverflow pkts fuel) :
    wfqLoop64 fuel (simInit pkts) = wfqLoop fuel (simInit pkts) := by
  have e : wfqSteps64 fuel (simInit pkts) = wfqSteps fuel (simInit pkts) :=
    runAt64_eq_of_le h fuel (le_refl _)
  rw [wfqLoop64_eq, wfqLoop_eq, e]

theorem runAt_final (pkts : List Packet)
    (hr : ∀ i, i < pkts.length → (pk pkts i).arrival ≤ LLONG_MAX) {n : Nat}
    (hn : 2 * pkts.length ≤ n) : runAt pkts n = finalState pkts :=
  wfqSteps_final pkts hr n hn

theorem runAt64_eq {pkts : List Packet} {fuel : Nat} (h : NoOverflow pkts fuel)
    (hr : ∀ i, i < pkts.length → (pk pkts i).arrival ≤ LLONG_MAX)
    (hf : 2 * pkts.length ≤ fuel) (n : Nat) : runAt64 pkts n = runAt pkts n := by
  by_cases hn : n ≤ fuel
  · exact runAt64_eq_of_le h n hn
  · obtain ⟨m, rfl⟩ := Nat.exists_eq_add_of_le (le_of_lt (not_le.mp hn))
    have e := runAt64_eq_of_le h fuel (le_refl _)
    have hdone := finalState_done pkts hr
    have e2 : runAt pkts fuel = finalState pkts := runAt_final pkts hr hf
    rw [runAt_final pkts hr (by omega)]
    rw [e2] at e
    unfold runAt64 at e ⊢
    rw [wfqSteps64_add, e]
    exact wfqSteps64_done hdone m

theorem wfqMain64_eq {tr : List Line} (hr : InRange tr) {fuel : Nat}
    (hf : 2 * (accepted tr).length ≤ fuel) (h : NoOverflow (ingest tr).pkts fuel) :
    wfqMain64 fuel tr = some (finalState (ingest tr).pkts).out := by
  unfold wfqMain64
  rw [wfqLoop64_eq_wfqLoop h]
  exact wfqMain_eq hr hf

theorem sameButTags_length {pkts qs : List Packet} (h : SameButTags pkts qs) :
    pkts.length = qs.length := by
  have := congrArg List.length h
  simpa using this

theorem sameButTags_pk {pkts qs : List Packet} (h : SameButTags pkts qs) (i : Nat) :
    (pk pkts i).arrival = (pk qs i).arrival ∧ (pk pkts i).length = (pk qs i).length
      ∧ (pk pkts i).priority = (pk qs i).priority ∧ (pk pkts i).record = (pk qs i).record := by
  have hlen := sameButTags_length h
  by_cases hi : i < pkts.length
  · have hi2 : i < qs.length := hlen ▸ hi
    have e : (pkts.map (fun p => (p.arrival, p.length, p.priority, p.record)))[i]?
        = (qs.map (fun p => (p.arrival, p.length, p.priority, p.record)))[i]? := by
      rw [h]
    rw [List.getElem?_map, List.getElem?_map, List.getElem?_eq_getElem hi,
      List.getElem?_eq_getElem hi2] at e
    simp only [Option.map_some', Option.some.injEq, Prod.mk.injEq] at e
    unfold pk
    rw [List.getD_eq_getElem?_getD, List.getD_eq_getElem?_getD, List.getElem?_eq_getElem hi,
      List.getElem?_eq_getElem hi2]
    exact e
  · have hi2 : ¬ i < qs.length := hlen ▸ hi
    unfold pk
    rw [List.getD_eq_getElem?_getD, List.getD_eq_getElem?_getD,
      List.getElem?_eq_none (not_lt.mp hi), List.getElem?_eq_none (not_lt.mp hi2)]
    exact ⟨rfl, rfl, rfl, rfl⟩

/-- Over any ledger: if at some step `i` and `j` are both eligible and `i`
comes before `j` in the dispatch order, then with the unbounded clock and
lengths that are not negative `i` is printed before `j`. -/
theorem eligible_pair_order_ledger {pkts : List Packet}
    (hr : ∀ a, a < pkts.length → (pk pkts a).arrival ≤ LLONG_MAX)
    (hl : ∀ a, a < pkts.length → 0 ≤ (pk pkts a).length) {n i j : Nat}
    (hi : eligible (runAt pkts n) i) (hj : eligible (runAt pkts n) j)
    (hij : before pkts i j) : emittedBefore (finalState pkts).out i j := by
  have hpk := runAt_pkts pkts n
  have hinv : SimInv (runAt pkts n) := simInv_steps (simInv_init pkts hr) n
  have hnj : j ∉ emitted (runAt pkts n).out := by
    intro hm
    have := (hinv.sent_iff j).mpr hm
    rw [hj.2.1] at this
    exact Bool.false_ne_true this
  have h0 : OrderInv pkts (runAt pkts n).cur_time i j (runAt pkts n) :=
    ⟨hinv, hpk, le_refl _, fun hm => absurd hm hnj⟩
  have hfin := orderInv_steps hl (hpk ▸ hi.1)
    (by have := hi.2.2; rwa [hpk] at this) hij h0 (2 * pkts.length)
  have he : wfqSteps (2 * pkts.length) (runAt pkts n) = finalState pkts := by
    unfold runAt
    rw [← wfqSteps_add]
    exact wfqSteps_final _ hr _ (by omega)
  rw [he] at hfin
  apply hfin.ordered
  exact ((finalState_perm pkts hr).mem_iff).mpr (List.mem_range.mpr (hpk ▸ hj.1))

/-! ## The claims -/

/-- C1: for every finite trace the dispatch loop returns, and the ledger
indices of the lines it printed, in the order printed, are a permutation of
`0..N-1` for `N` the number of accepted records: every accepted record is
printed exactly once and nothing else is; the record texts printed are a
permutation of the texts of the accepted records, and a trace with no accepted
record prints nothing. -/
theorem C1_output_is_permutation_of_accepted (tr : List Line) (hr : InRange tr) (fuel : Nat)
    (hf : 2 * (accepted tr).length ≤ fuel) :
    ∃ out, wfqMain fuel tr = some out
      ∧ (out.map Prod.fst).Perm (List.range (accepted tr).length)
      ∧ (out.map (fun e => (lineOf (ingest tr).pkts e).2)).Perm ((accepted tr).map Line.text)
      ∧ (accepted tr = [] → out = []) := by
  refine ⟨_, wfqMain_eq hr hf, ?_, ?_, ?_⟩
  · have := finalState_perm (ingest tr).pkts (ledger_in_range hr)
    rwa [ingest_pkts_length] at this
  · have hp := finalState_perm (ingest tr).pkts (ledger_in_range hr)
    rw [ingest_pkts_length] at hp
    have hm := hp.map (fun i => (pk (ingest tr).pkts i).record)
    rw [ledger_records, List.map_map] at hm
    exact hm
  · intro he
    have hp := finalState_perm (ingest tr).pkts (ledger_in_range hr)
    rw [ingest_pkts_length, he] at hp
    simpa using hp

/-- Witness of C1: two records of one flow, at `t = 0` and `t = 100`. -/
theorem C1_output_is_permutation_of_accepted_witness :
    InRange [rec6 0 "a" 10, rec6 100 "a" 10]
      ∧ 2 * (accepted [rec6 0 "a" 10, rec6 100 "a" 10]).length ≤ 4
      ∧ ∃ out, wfqMain 4 [rec6 0 "a" 10, rec6 100 "a" 10] = some out
          ∧ (out.map Prod.fst).Perm
              (List.range (accepted [rec6 0 "a" 10, rec6 100 "a" 10]).length)
          ∧ (out.map (fun e => (lineOf (ingest [rec6 0 "a" 10, rec6 100 "a" 10]).pkts e).2)).Perm
              ((accepted [rec6 0 "a" 10, rec6 100 "a" 10]).map Line.text)
          ∧ (accepted [rec6 0 "a" 10, rec6 100 "a" 10] = [] → out = []) :=
  ⟨by decide, by decide,
    C1_output_is_permutation_of_accepted [rec6 0 "a" 10, rec6 100 "a" 10] (by decide) 4
      (by decide)⟩

/-- C2: over every ledger, whatever numbers it holds as finish tags (the scan
compares the stored tags, however the arithmetic of ingestion rounded them),
and with the 64-bit clock of the program: at every dispatch step at which some unsent
packet has arrival at most the current time, the step prints a packet `b` that
is unsent and has arrived, and no other unsent packet that has arrived comes
before `b` in the order of (stored finish tag, owner priority, ingestion
index): none has a smaller finish tag, or an equal finish tag and a smaller
owner priority, or both equal and a lower index; `b` comes before each of
them. -/
theorem C2_emitted_packet_is_lex_min (pkts : List Packet) (n i : Nat)
    (hi : eligible (runAt64 pkts n) i) :
    ∃ b, eligible (runAt64 pkts n) b
      ∧ (runAt64 pkts (n + 1)).out = (runAt64 pkts n).out ++ [(b, (runAt64 pkts n).cur_time)]
      ∧ ∀ j, eligible (runAt64 pkts n) j → j ≠ b → ¬ before pkts j b ∧ before pkts b j := by
  obtain ⟨b, hb, hbe, hmin⟩ := scan_some_of_eligible hi
  refine ⟨b, hbe, ?_, ?_⟩
  · rw [runAt64_succ_of_pending ⟨hi.1, hi.2.1⟩, wfqIter64_send hb]
  · intro j hj hne
    have h := hmin j hj hne
    rw [runAt64_pkts] at h
    exact ⟨before_asymm h, h⟩

/-- Witness of C2: a ledger of two packets at `t = 0` with stored finish tags
20 and 10; at the first step packet 0 is eligible. -/
theorem C2_emitted_packet_is_lex_min_witness :
    eligible (runAt64 [Packet.mk 0 20 20 0 "A", Packet.mk 0 20 10 1 "B"] 0) 0
      ∧ (runAt64 [Packet.mk 0 20 20 0 "A", Packet.mk 0 20 10 1 "B"] 1).out = [(1, 0)]
      ∧ ∃ b, eligible (runAt64 [Packet.mk 0 20 20 0 "A", Packet.mk 0 20 10 1 "B"] 0) b
        ∧ (runAt64 [Packet.mk 0 20 20 0 "A", Packet.mk 0 20 10 1 "B"] (0 + 1)).out
            = (runAt64 [Packet.mk 0 20 20 0 "A", Packet.mk 0 20 10 1 "B"] 0).out
                ++ [(b, (runAt64 [Packet.mk 0 20 20 0 "A", Packet.mk 0 20 10 1 "B"] 0).cur_time)]
        ∧ ∀ j, eligible (runAt64 [Packet.mk 0 20 20 0 "A", Packet.mk 0 20 10 1 "B"] 0) j →
            j ≠ b →
            ¬ before [Packet.mk 0 20 20 0 "A", Packet.mk 0 20 10 1 "B"] j b
              ∧ before [Packet.mk 0 20 20 0 "A", Packet.mk 0 20 10 1 "B"] b j :=
  ⟨by decide!, by decide!,
    C2_emitted_packet_is_lex_min [Packet.mk 0 20 20 0 "A", Packet.mk 0 20 10 1 "B"] 0 0
      (by decide!)⟩

/-- C3: for every trace and every accepted record `i`, the ledger holds one
packet per accepted record and the finish tag stored for record `i` is
`max prev arrival + length / w` in exact rational arithmetic, where `prev` is
the finish tag of the most recent earlier accepted record with the same flow
key (`0` if there is none) and `w` is the weight given by the most recent
record of that flow, up to and including `i`, that specifies one (`1` if none
does): a later weight replaces the earlier one. -/
theorem C3_finish_tag_formula (tr : List Line) (i : Nat) (hi : i < (accepted tr).length) :
    (ingest tr).pkts.length = (accepted tr).length
      ∧ (pk (ingest tr).pkts i).finish_tag =
          max (lastFinishOf (accepted tr) (ingest tr).pkts (keybuf (lineAt (accepted tr) i)) i)
              ((lineAt (accepted tr) i).t : ℚ)
            + ((lineAt (accepted tr) i).L : ℚ)
                / (weightOf (accepted tr) (keybuf (lineAt (accepted tr) i)) (i + 1) : ℚ) :=
  ⟨ingest_pkts_length tr, (ingInv_ingest tr).ftag i hi⟩

/-- Witness of C3: the second record of a flow whose first record set weight 2
and whose second record sets weight 4. -/
theorem C3_finish_tag_formula_witness :
    1 < (accepted [rec7 0 "a" 20 2, rec7 5 "a" 20 4]).length
      ∧ (ingest [rec7 0 "a" 20 2, rec7 5 "a" 20 4]).pkts.length
          = (accepted [rec7 0 "a" 20 2, rec7 5 "a" 20 4]).length
      ∧ (pk (ingest [rec7 0 "a" 20 2, rec7 5 "a" 20 4]).pkts 1).finish_tag =
          max (lastFinishOf (accepted [rec7 0 "a" 20 2, rec7 5 "a" 20 4])
                (ingest [rec7 0 "a" 20 2, rec7 5 "a" 20 4]).pkts
                (keybuf (lineAt (accepted [rec7 0 "a" 20 2, rec7 5 "a" 20 4]) 1)) 1)
              ((lineAt (accepted [rec7 0 "a" 20 2, rec7 5 "a" 20 4]) 1).t : ℚ)
            + ((lineAt (accepted [rec7 0 "a" 20 2, rec7 5 "a" 20 4]) 1).L : ℚ)
                / (weightOf (accepted [rec7 0 "a" 20 2, rec7 5 "a" 20 4])
                    (keybuf (lineAt (accepted [rec7 0 "a" 20 2, rec7 5 "a" 20 4]) 1))
                    (1 + 1) : ℚ) :=
  ⟨by decide, C3_finish_tag_formula [rec7 0 "a" 20 2, rec7 5 "a" 20 4] 1 (by decide)⟩

/-- C4: for every trace (unbounded integers) the program returns, every line
printed has a start time at least the arrival time of its packet, and every
line printed directly after another has a start time at least the start time
of that other line plus the length of its packet. -/
theorem C4_no_time_travel_no_overlap (tr : List Line) (hr : InRange tr) (fuel : Nat)
    (hf : 2 * (accepted tr).length ≤ fuel) :
    ∃ out, wfqMain fuel tr = some out
      ∧ (∀ e ∈ out, (pk (ingest tr).pkts e.1).arrival ≤ e.2)
      ∧ ∀ l1 l2 a b, out = l1 ++ a :: b :: l2 →
          a.2 + (pk (ingest tr).pkts a.1).length ≤ b.2 := by
  have hinv := finalState_inv (ingest tr).pkts (ledger_in_range hr)
  refine ⟨_, wfqMain_eq hr hf, ?_, ?_⟩
  · intro e he
    have := hinv.start_ge e he
    rwa [finalState_pkts] at this
  · intro l1 l2 a b he
    have := chain_adjacent hinv.chain he
    rwa [finalState_pkts] at this

/-- Witness of C4: two records of one flow, at `t = 0` and `t = 5`. -/
theorem C4_no_time_travel_no_overlap_witness :
    InRange [rec6 0 "a" 10, rec6 5 "a" 10]
      ∧ 2 * (accepted [rec6 0 "a" 10, rec6 5 "a" 10]).length ≤ 4
      ∧ ∃ out, wfqMain 4 [rec6 0 "a" 10, rec6 5 "a" 10] = some out
          ∧ (∀ e ∈ out, (pk (ingest [rec6 0 "a" 10, rec6 5 "a" 10]).pkts e.1).arrival ≤ e.2)
          ∧ ∀ l1 l2 a b, out = l1 ++ a :: b :: l2 →
              a.2 + (pk (ingest [rec6 0 "a" 10, rec6 5 "a" 10]).pkts a.1).length ≤ b.2 :=
  ⟨by decide, by decide,
    C4_no_time_travel_no_overlap [rec6 0 "a" 10, rec6 5 "a" 10] (by decide) 4 (by decide)⟩

/-- C6, the claim refuted: a record that specifies weight `-2` leaves the
weight of its flow at `-2`, not `1`, and its finish tag is `-5`, not
`max 0 0 + 10 / 1`. -/
theorem C6_weight_below_one_counterexample :
    (rec7 0 "a" 10 (-2)).matched = 7 ∧ (rec7 0 "a" 10 (-2)).w < 1
      ∧ (fl (ingest [rec7 0 "a" 10 (-2)]).flows 0).key = keybuf (rec7 0 "a" 10 (-2))
      ∧ (fl (ingest [rec7 0 "a" 10 (-2)]).flows 0).weight = -2
      ∧ (fl (ingest [rec7 0 "a" 10 (-2)]).flows 0).weight ≠ 1
      ∧ (pk (ingest [rec7 0 "a" 10 (-2)]).pkts 0).finish_tag = -5
      ∧ (pk (ingest [rec7 0 "a" 10 (-2)]).pkts 0).finish_tag ≠ max (0 : ℚ) 0 + 10 / 1 := by
  decide!

/-- C6 as amended: an accepted record `x` that specifies a weight sets the
weight of its flow to that weight as given, also when it is below one: after
the record a flow entry with the key of `x` exists, every flow entry with that
key has weight `x.w`, and for `x.w ≠ 0` the finish tag of the record is
`max lastFinish arrival + length / x.w`. -/
theorem C6_weight_stored_as_given (tr : List Line) (x : Line) (hw : x.matched = 7) :
    (∃ f, f < (ingest (tr ++ [x])).flows.length
        ∧ (fl (ingest (tr ++ [x])).flows f).key = keybuf x)
      ∧ (∀ f, f < (ingest (tr ++ [x])).flows.length →
          (fl (ingest (tr ++ [x])).flows f).key = keybuf x →
          (fl (ingest (tr ++ [x])).flows f).weight = x.w)
      ∧ (x.w ≠ 0 →
          (pk (ingest (tr ++ [x])).pkts (accepted tr).length).finish_tag =
            max (lastFinishOf (accepted tr) (ingest tr).pkts (keybuf x) (accepted tr).length)
                (x.t : ℚ)
              + (x.L : ℚ) / (x.w : ℚ)) := by
  have ha : (6 : Int) ≤ x.matched := by rw [hw]; decide
  have hinv := ingInv_ingest (tr ++ [x])
  have hacc : accepted (tr ++ [x]) = accepted tr ++ [x] := by
    rw [accepted_snoc, if_pos ha]
  rw [hacc] at hinv
  have hlen : (accepted tr ++ [x]).length = (accepted tr).length + 1 := by simp
  have hln : lineAt (accepted tr ++ [x]) (accepted tr).length = x := lineAt_snoc _ _
  refine ⟨?_, ?_, ?_⟩
  · obtain ⟨f, hf, hk⟩ := hinv.seen_key (accepted tr).length (by rw [hlen]; omega)
    rw [hln] at hk
    exact ⟨f, hf, hk⟩
  · intro f hf hk
    rw [hinv.wt f hf, hlen, weightOf_succ, hln, hk, if_pos ⟨rfl, hw⟩]
  · intro _
    have h := hinv.ftag (accepted tr).length (by rw [hlen]; omega)
    rw [hln, weightOf_succ, hln, if_pos ⟨rfl, hw⟩] at h
    rw [h]
    obtain ⟨qs, hq⟩ := ingest_pkts_prefix tr [x]
    rw [hq, lastFinishOf_append (le_refl _) (by rw [ingest_pkts_length])]

/-- Witness of C6 as amended: a second record of flow `a` that sets weight
`-2`. -/
theorem C6_weight_stored_as_given_witness :
    (rec7 0 "a" 10 (-2)).matched = 7
      ∧ (∃ f, f < (ingest ([rec6 0 "a" 4] ++ [rec7 0 "a" 10 (-2)])).flows.length
          ∧ (fl (ingest ([rec6 0 "a" 4] ++ [rec7 0 "a" 10 (-2)])).flows f).key
              = keybuf (rec7 0 "a" 10 (-2)))
      ∧ (∀ f, f < (ingest ([rec6 0 "a" 4] ++ [rec7 0 "a" 10 (-2)])).flows.length →
          (fl (ingest ([rec6 0 "a" 4] ++ [rec7 0 "a" 10 (-2)])).flows f).key
              = keybuf (rec7 0 "a" 10 (-2)) →
          (fl (ingest ([rec6 0 "a" 4] ++ [rec7 0 "a" 10 (-2)])).flows f).weight
              = (rec7 0 "a" 10 (-2)).w)
      ∧ ((rec7 0 "a" 10 (-2)).w ≠ 0 →
          (pk (ingest ([rec6 0 "a" 4] ++ [rec7 0 "a" 10 (-2)])).pkts
              (accepted [rec6 0 "a" 4]).length).finish_tag =
            max (lastFinishOf (accepted [rec6 0 "a" 4]) (ingest [rec6 0 "a" 4]).pkts
                  (keybuf (rec7 0 "a" 10 (-2))) (accepted [rec6 0 "a" 4]).length)
                ((rec7 0 "a" 10 (-2)).t : ℚ)
              + ((rec7 0 "a" 10 (-2)).L : ℚ) / ((rec7 0 "a" 10 (-2)).w : ℚ)) :=
  ⟨by decide, C6_weight_stored_as_given [rec6 0 "a" 4] (rec7 0 "a" 10 (-2)) (by decide)⟩

/-- C8, the claim refuted: three records of one flow with lengths `10`, `-100`
and `1` and no weight; the first and the third have positive lengths, and the
finish tag of the first, `10`, is greater than that of the third, `1`. -/
theorem C8_finish_tag_order_counterexample :
    (∀ x ∈ [rec6 0 "a" 10, rec6 0 "a" (-100), rec6 0 "a" 1], x.matched = 7 → 1 ≤ x.w)
      ∧ accepted [rec6 0 "a" 10, rec6 0 "a" (-100), rec6 0 "a" 1]
          = [rec6 0 "a" 10, rec6 0 "a" (-100), rec6 0 "a" 1]
      ∧ keybuf (rec6 0 "a" 10) = keybuf (rec6 0 "a" 1)
      ∧ 0 < (rec6 0 "a" 10).L ∧ 0 < (rec6 0 "a" 1).L
      ∧ (pk (ingest [rec6 0 "a" 10, rec6 0 "a" (-100), rec6 0 "a" 1]).pkts 0).finish_tag = 10
      ∧ (pk (ingest [rec6 0 "a" 10, rec6 0 "a" (-100), rec6 0 "a" 1]).pkts 2).finish_tag = 1
      ∧ ¬ ((pk (ingest [rec6 0 "a" 10, rec6 0 "a" (-100), rec6 0 "a" 1]).pkts 0).finish_tag
            ≤ (pk (ingest [rec6 0 "a" 10, rec6 0 "a" (-100), rec6 0 "a" 1]).pkts 2).finish_tag) := by
  decide!

/-- C8 as amended: in a trace in which every specified weight is at least one,
for accepted records `i` before `j` of the same flow such that `j` and every
record of that flow between them have a length that is not negative, the
finish tag of `i` is at most the finish tag of `j`. -/
theorem C8_finish_tag_order_within_flow (tr : List Line)
    (hw : ∀ x ∈ tr, x.matched = 7 → 1 ≤ x.w) (i j : Nat) (hij : i < j)
    (hj : j < (accepted tr).length)
    (hk : keybuf (lineAt (accepted tr) i) = keybuf (lineAt (accepted tr) j))
    (hl : ∀ m, i < m → m ≤ j →
      keybuf (lineAt (accepted tr) m) = keybuf (lineAt (accepted tr) j) →
      0 ≤ (lineAt (accepted tr) m).L) :
    (pk (ingest tr).pkts i).finish_tag ≤ (pk (ingest tr).pkts j).finish_tag :=
  ftag_mono (ingInv_ingest tr) (fun x hx => hw x (mem_accepted.mp hx).1) i j hij hj hk hl

/-- Witness of C8 as amended: records 0 and 2 of flow `a`, with a record of
flow `b` of negative length between them. -/
theorem C8_finish_tag_order_within_flow_witness :
    (pk (ingest [rec7 0 "a" 10 2, rec6 0 "b" (-7), rec6 3 "a" 1]).pkts 0).finish_tag
      ≤ (pk (ingest [rec7 0 "a" 10 2, rec6 0 "b" (-7), rec6 3 "a" 1]).pkts 2).finish_tag :=
  C8_finish_tag_order_within_flow [rec7 0 "a" 10 2, rec6 0 "b" (-7), rec6 3 "a" 1]
    (by decide) 0 2 (by decide) (by decide) (by decide)
    (fun m h1 h2 => by interval_cases m <;> decide)

/-- C10: finish tags are fixed at ingestion. The ledger after a trace `P`
followed by further records `S` starts with the ledger after `P` alone,
entry for entry (arrival, length, finish tag, owner priority, record), and no
iteration of the dispatch loop changes the ledger. -/
theorem C10_ledger_fixed_after_ingestion (P S : List Line) :
    (ingest (P ++ S)).pkts.take (ingest P).pkts.length = (ingest P).pkts
      ∧ (∀ st : Sim, (wfqIter st).pkts = st.pkts)
      ∧ (∀ n, (stateAt (P ++ S) n).pkts = (ingest (P ++ S)).pkts)
      ∧ (∀ fuel, (wfqLoop fuel (simInit (ingest (P ++ S)).pkts)).map Sim.pkts = none
          ∨ (wfqLoop fuel (simInit (ingest (P ++ S)).pkts)).map Sim.pkts
              = some (ingest (P ++ S)).pkts) := by
  refine ⟨?_, wfqIter_pkts, stateAt_pkts (P ++ S), ?_⟩
  · obtain ⟨qs, hq⟩ := ingest_pkts_prefix P S
    rw [hq, List.take_left']
    rfl
  · intro fuel
    rw [wfqLoop_eq]
    split
    · exact Or.inl rfl
    · right
      simp only [Option.map_some']
      rw [wfqSteps_pkts]
      rfl

/-- C9: fast-forward. At a dispatch step at which a packet is still unsent and
no unsent packet has arrival at most the current time, the step prints nothing
and sets the clock to the least arrival among the unsent packets; the next
step prints an unsent packet with exactly that arrival, with start time equal
to its own arrival. -/
theorem C9_fast_forward_to_next_arrival (tr : List Line) (hr : InRange tr) (n i : Nat)
    (hp : pending (stateAt tr n) i) (hne : ∀ j, ¬ eligible (stateAt tr n) j) :
    (stateAt tr (n + 1)).out = (stateAt tr n).out
      ∧ (∃ m, pending (stateAt tr n) m
          ∧ (pk (ingest tr).pkts m).arrival = (stateAt tr (n + 1)).cur_time)
      ∧ (∀ j, pending (stateAt tr n) j →
          (stateAt tr (n + 1)).cur_time ≤ (pk (ingest tr).pkts j).arrival)
      ∧ ∃ b, pending (stateAt tr n) b
          ∧ (pk (ingest tr).pkts b).arrival = (stateAt tr (n + 1)).cur_time
          ∧ (stateAt tr (n + 1 + 1)).out
              = (stateAt tr n).out ++ [(b, (pk (ingest tr).pkts b).arrival)] := by
  have hinv := stateAt_inv hr n
  have hc := pending_cnt_lt hinv.toSimBase hp
  have hs := scanInv_scan (stateAt tr n).pkts (stateAt tr n).sent (stateAt tr n).cur_time
  have hnone : (scan (stateAt tr n).pkts (stateAt tr n).sent (stateAt tr n).cur_time).1 = none := by
    cases hb : (scan (stateAt tr n).pkts (stateAt tr n).sent (stateAt tr n).cur_time).1 with
    | none => rfl
    | some b =>
      exact absurd ⟨hs.best_lt b hb, hs.best_unsent b hb, hs.best_arrived b hb⟩ (hne b)
  obtain ⟨_, ⟨m, hm, hma⟩, hle⟩ := ff_spec hinv hc hnone
  have h1 : stateAt tr (n + 1) = wfqIter (stateAt tr n) := stateAt_succ_of_pending hp
  have hcur : (stateAt tr (n + 1)).cur_time
      = (scan (stateAt tr n).pkts (stateAt tr n).sent (stateAt tr n).cur_time).2 := by
    rw [h1, wfqIter_none hnone]
  have hsent : (stateAt tr (n + 1)).sent = (stateAt tr n).sent := by
    rw [h1, wfqIter_none hnone]
  have hout : (stateAt tr (n + 1)).out = (stateAt tr n).out := by
    rw [h1, wfqIter_none hnone]
  have hpk := stateAt_pkts tr n
  have hpk1 := stateAt_pkts tr (n + 1)
  have hp1 : pending (stateAt tr (n + 1)) i := by
    unfold pending at hp ⊢
    rw [hsent, hpk1, ← hpk]; exact hp
  refine ⟨hout, ⟨m, hm, by rw [hcur, ← hma, hpk]⟩, ?_, ?_⟩
  · intro j hj
    rw [hcur, ← hpk]; exact hle j hj
  · obtain ⟨b, hb⟩ := scan_after_ff hinv hc hnone
    rw [← h1] at hb
    have hs1 := scanInv_scan (stateAt tr (n + 1)).pkts (stateAt tr (n + 1)).sent
      (stateAt tr (n + 1)).cur_time
    have hbp : pending (stateAt tr n) b := by
      unfold pending
      rw [hpk, ← hpk1, ← hsent]
      exact ⟨hs1.best_lt b hb, hs1.best_unsent b hb⟩
    have hba : (pk (ingest tr).pkts b).arrival = (stateAt tr (n + 1)).cur_time := by
      apply le_antisymm
      · have := hs1.best_arrived b hb
        rwa [hpk1] at this
      · have := hle b hbp
        rw [hcur, ← hpk]; exact this
    refine ⟨b, hbp, hba, ?_⟩
    rw [stateAt_succ_of_pending hp1, wfqIter_send hb, hout, hba]

/-- Witness of C9: records at `t = 0` and `t = 100`, both of length 10; after
the first step the clock is 10, the second packet is unsent and nothing is
eligible; the output of the run gives the second packet start 100. -/
theorem C9_fast_forward_to_next_arrival_witness :
    wfqMain 4 [rec6 0 "a" 10, rec6 100 "a" 10] = some [(0, 0), (1, 100)]
      ∧ (stateAt [rec6 0 "a" 10, rec6 100 "a" 10] (1 + 1)).out
          = (stateAt [rec6 0 "a" 10, rec6 100 "a" 10] 1).out
      ∧ (∃ m, pending (stateAt [rec6 0 "a" 10, rec6 100 "a" 10] 1) m
          ∧ (pk (ingest [rec6 0 "a" 10, rec6 100 "a" 10]).pkts m).arrival
              = (stateAt [rec6 0 "a" 10, rec6 100 "a" 10] (1 + 1)).cur_time)
      ∧ (∀ j, pending (stateAt [rec6 0 "a" 10, rec6 100 "a" 10] 1) j →
          (stateAt [rec6 0 "a" 10, rec6 100 "a" 10] (1 + 1)).cur_time
            ≤ (pk (ingest [rec6 0 "a" 10, rec6 100 "a" 10]).pkts j).arrival)
      ∧ ∃ b, pending (stateAt [rec6 0 "a" 10, rec6 100 "a" 10] 1) b
          ∧ (pk (ingest [rec6 0 "a" 10, rec6 100 "a" 10]).pkts b).arrival
              = (stateAt [rec6 0 "a" 10, rec6 100 "a" 10] (1 + 1)).cur_time
          ∧ (stateAt [rec6 0 "a" 10, rec6 100 "a" 10] (1 + 1 + 1)).out
              = (stateAt [rec6 0 "a" 10, rec6 100 "a" 10] 1).out
                  ++ [(b, (pk (ingest [rec6 0 "a" 10, rec6 100 "a" 10]).pkts b).arrival)] :=
  ⟨by decide!,
    C9_fast_forward_to_next_arrival [rec6 0 "a" 10, rec6 100 "a" 10] (by decide) 1 1
      (by decide!)
      (fun j hj => by
        have h2 : j < 2 := hj.1
        interval_cases j
        · exact absurd hj (by decide!)
        · exact absurd hj (by decide!))⟩

/-- C7, the claim refuted: in `tieWrapTrace` all lengths are positive, the
packets 2 (flow `p`) and 3 (flow `q`) have equal finish tags and are both
unsent and arrived at the second dispatch step (clock 5), and flow `p` is
discovered before flow `q`; but sending the packet of length `LLONG_MAX` at
start 5 makes the 64-bit clock overflow to a negative value, the loop
fast-forwards to `t = 0`, where only packet 3 has arrived, and packet 3 is
printed before packet 2. -/
theorem C7_clock_overflow_counterexample :
    InRange tieWrapTrace ∧ (∀ x ∈ tieWrapTrace, 6 ≤ x.matched → 0 ≤ x.L)
      ∧ accepted tieWrapTrace = tieWrapTrace
      ∧ eligible (runAt64 (ingest tieWrapTrace).pkts 1) 2
      ∧ eligible (runAt64 (ingest tieWrapTrace).pkts 1) 3
      ∧ keybuf (lineAt tieWrapTrace 2) ≠ keybuf (lineAt tieWrapTrace 3)
      ∧ (pk (ingest tieWrapTrace).pkts 2).finish_tag = (pk (ingest tieWrapTrace).pkts 3).finish_tag
      ∧ firstOcc tieWrapTrace (keybuf (lineAt tieWrapTrace 2))
          < firstOcc tieWrapTrace (keybuf (lineAt tieWrapTrace 3))
      ∧ (pk (ingest tieWrapTrace).pkts 2).priority < (pk (ingest tieWrapTrace).pkts 3).priority
      ∧ wfqMain64 8 tieWrapTrace = some [(0, 0), (1, 5), (3, 0), (2, 10000000005)]
      ∧ ¬ emittedBefore [(0, 0), (1, 5), (3, 0), (2, 10000000005)] 2 3
      ∧ emittedBefore [(0, 0), (1, 5), (3, 0), (2, 10000000005)] 3 2 := by
  decide!

/-- C7 as amended: provided no addition to the clock overflows. Let `pkts` be
the ledger of a trace whose lengths are not negative, with whatever numbers
were stored as finish tags. For packets `i` and `j` with equal stored finish
tags that are, at some dispatch step, both unsent with arrival at most the
current time: if the flow of `i` was discovered before the flow of `j` (so the
two flows are different), then `i` has the smaller owner priority, the dispatch
loop returns, and `i` is printed before `j`. -/
theorem C7_equal_tags_break_by_discovery_order (tr : List Line) (pkts : List Packet)
    (hs : SameButTags pkts (ingest tr).pkts) (hr : InRange tr)
    (hl : ∀ x ∈ tr, 6 ≤ x.matched → 0 ≤ x.L) (fuel : Nat)
    (hf : 2 * (accepted tr).length ≤ fuel) (hno : NoOverflow pkts fuel) (n i j : Nat)
    (hi : eligible (runAt64 pkts n) i) (hj : eligible (runAt64 pkts n) j)
    (hF : (pk pkts i).finish_tag = (pk pkts j).finish_tag)
    (hd : firstOcc (accepted tr) (keybuf (lineAt (accepted tr) i))
            < firstOcc (accepted tr) (keybuf (lineAt (accepted tr) j))) :
    keybuf (lineAt (accepted tr) i) ≠ keybuf (lineAt (accepted tr) j)
      ∧ (pk pkts i).priority < (pk pkts j).priority
      ∧ ∃ fin, wfqLoop64 fuel (simInit pkts) = some fin ∧ emittedBefore fin.out i j := by
  have hlen : pkts.length = (accepted tr).length := by
    rw [sameButTags_length hs, ingest_pkts_length]
  have hr2 : ∀ a, a < pkts.length → (pk pkts a).arrival ≤ LLONG_MAX := by
    intro a ha
    rw [(sameButTags_pk hs a).1]
    exact ledger_in_range hr a (by rw [← sameButTags_length hs]; exact ha)
  have hl2 : ∀ a, a < pkts.length → 0 ≤ (pk pkts a).length := by
    intro a ha
    rw [(sameButTags_pk hs a).2.1]
    exact ledger_length_nonneg hl a (by rw [← sameButTags_length hs]; exact ha)
  have hf2 : 2 * pkts.length ≤ fuel := by rw [hlen]; exact hf
  have hrun := runAt64_eq hno hr2 hf2 n
  rw [hrun] at hi hj
  have hpk := runAt_pkts pkts n
  have hprio : (pk pkts i).priority < (pk pkts j).priority := by
    rw [(sameButTags_pk hs i).2.2.1, (sameButTags_pk hs j).2.2.1]
    exact prio_lt_of_firstOcc_lt (ingInv_ingest tr)
      (by rw [← hlen, ← hpk]; exact hi.1) (by rw [← hlen, ← hpk]; exact hj.1) hd
  refine ⟨?_, hprio, finalState pkts, ?_,
    eligible_pair_order_ledger hr2 hl2 hi hj (Or.inr ⟨hF, Or.inl hprio⟩)⟩
  · intro hk
    rw [hk] at hd
    exact lt_irrefl _ hd
  · rw [wfqLoop64_eq_wfqLoop hno]
    exact wfqLoop_final pkts hr2 fuel hf2

/-- Witness of C7 as amended: flow `a` is discovered first; its second packet
(index 2) and the packet of flow `b` (index 1, weight 2) both have finish tag
10 and are both eligible at the first step; no addition overflows, and packet
2 is printed before packet 1 although it was ingested later. -/
theorem C7_equal_tags_break_by_discovery_order_witness :
    wfqMain64 6 [rec6 0 "a" 5, rec7 0 "b" 20 2, rec6 0 "a" 5] = some [(0, 0), (2, 5), (1, 10)]
      ∧ NoOverflow (ingest [rec6 0 "a" 5, rec7 0 "b" 20 2, rec6 0 "a" 5]).pkts 6
      ∧ keybuf (lineAt (accepted [rec6 0 "a" 5, rec7 0 "b" 20 2, rec6 0 "a" 5]) 2)
          ≠ keybuf (lineAt (accepted [rec6 0 "a" 5, rec7 0 "b" 20 2, rec6 0 "a" 5]) 1)
      ∧ (pk (ingest [rec6 0 "a" 5, rec7 0 "b" 20 2, rec6 0 "a" 5]).pkts 2).priority
          < (pk (ingest [rec6 0 "a" 5, rec7 0 "b" 20 2, rec6 0 "a" 5]).pkts 1).priority
      ∧ ∃ fin, wfqLoop64 6 (simInit (ingest [rec6 0 "a" 5, rec7 0 "b" 20 2, rec6 0 "a" 5]).pkts)
            = some fin
          ∧ emittedBefore fin.out 2 1 :=
  ⟨by decide!, by decide!,
    C7_equal_tags_break_by_discovery_order [rec6 0 "a" 5, rec7 0 "b" 20 2, rec6 0 "a" 5]
      (ingest [rec6 0 "a" 5, rec7 0 "b" 20 2, rec6 0 "a" 5]).pkts (by decide) (by decide)
      (by decide) 6 (by decide) (by decide!) 0 2 1 (by decide!) (by decide!) (by decide!)
      (by decide)⟩

/-- C5, the claim refuted: `longTrace` and `lateRecord` have lengths that are
not negative and the record of `lateRecord` arrives at 6, after `T = 5`. Run
alone, `longTrace` prints one line with start at most 5. Followed by
`lateRecord`, the late packet is sent at start `LLONG_MAX - 10` and ends at
`LLONG_MAX`, the next packet makes the 64-bit clock overflow, and packet 2 is
then printed at start 0: a second line with start at most 5. -/
theorem C5_clock_overflow_counterexample :
    InRange (longTrace ++ lateRecord) ∧ (∀ x ∈ longTrace, 6 ≤ x.matched → 0 ≤ x.L)
      ∧ (∀ x ∈ lateRecord, 6 ≤ x.matched → 0 ≤ x.L ∧ 5 < x.t)
      ∧ wfqMain64 8 longTrace
          = some [(0, 0), (1, 9223372036854775797), (2, 9223372036854775802)]
      ∧ wfqMain64 8 (longTrace ++ lateRecord)
          = some [(0, 0), (3, 9223372036854775797), (1, 9223372036854775807), (2, 0)]
      ∧ startedBy 5 [(0, 0), (1, 9223372036854775797), (2, 9223372036854775802)] = [(0, 0)]
      ∧ startedBy 5 [(0, 0), (3, 9223372036854775797), (1, 9223372036854775807), (2, 0)]
          = [(0, 0), (2, 0)]
      ∧ NoOverflow (ingest longTrace).pkts 8
      ∧ ¬ NoOverflow (ingest (longTrace ++ lateRecord)).pkts 8 := by
  decide!

/-- C5 as amended: provided no addition to the clock overflows in either run,
dispatch decisions do not depend on packets that have not arrived. For a trace
`P` whose lengths are not negative, a time `T` and further records `S` whose
accepted records have lengths that are not negative and arrivals after `T`,
both runs return, and the lines (start time and record) with start at most `T`
printed for `P` followed by `S` are, in order, the lines with start at most `T`
printed for `P` alone. -/
theorem C5_unarrived_records_do_not_matter (P S : List Line) (T : Int)
    (hr : InRange (P ++ S)) (hlP : ∀ x ∈ P, 6 ≤ x.matched → 0 ≤ x.L)
    (hS : ∀ x ∈ S, 6 ≤ x.matched → 0 ≤ x.L ∧ T < x.t) (fuel : Nat)
    (hf : 2 * (accepted (P ++ S)).length ≤ fuel)
    (hnoP : NoOverflow (ingest P).pkts fuel)
    (hnoPS : NoOverflow (ingest (P ++ S)).pkts fuel) :
    ∃ outP outPS, wfqMain64 fuel P = some outP ∧ wfqMain64 fuel (P ++ S) = some outPS
      ∧ startedBy T outPS = startedBy T outP
      ∧ (outPS.map (lineOf (ingest (P ++ S)).pkts)).filter (fun l => decide (l.1 ≤ T))
          = (outP.map (lineOf (ingest P).pkts)).filter (fun l => decide (l.1 ≤ T)) := by
  have hrP : InRange P := fun x hx => hr x (List.mem_append_left _ hx)
  have hfP : 2 * (accepted P).length ≤ fuel := by
    rw [accepted_append, List.length_append] at hf; omega
  obtain ⟨B, hB⟩ := ingest_pkts_prefix P S
  have hlenPS := ingest_pkts_length (P ++ S)
  have hlenP := ingest_pkts_length P
  have hinv := ingInv_ingest (P ++ S)
  have hlen : ∀ x ∈ P ++ S, 6 ≤ x.matched → 0 ≤ x.L := by
    intro x hx ha
    rcases List.mem_append.mp hx with hx | hx
    · exact hlP x hx ha
    · exact (hS x hx ha).1
  have h1 : ∀ i, i < ((ingest P).pkts ++ B).length →
      (pk ((ingest P).pkts ++ B) i).arrival ≤ LLONG_MAX := by
    rw [← hB]; exact ledger_in_range hr
  have h2 : ∀ i, i < ((ingest P).pkts ++ B).length → 0 ≤ (pk ((ingest P).pkts ++ B) i).length := by
    rw [← hB]; exact ledger_length_nonneg hlen
  have h3 : ∀ i, (ingest P).pkts.length ≤ i → i < ((ingest P).pkts ++ B).length →
      T < (pk ((ingest P).pkts ++ B) i).arrival := by
    rw [← hB, hlenPS, hlenP]
    intro i hi1 hi2
    rw [(hinv.fields i hi2).1, accepted_append, lineAt_append_right hi1]
    rw [accepted_append, List.length_append] at hi2
    obtain ⟨m1, m2⟩ := mem_accepted.mp
      (@lineAt_mem (accepted S) (i - (accepted P).length) (by omega))
    exact (hS _ m1 m2).2
  have hmain := startedBy_extension h1 h3 h2
  rw [← hB] at hmain
  refine ⟨_, _, wfqMain64_eq hrP hfP hnoP, wfqMain64_eq hr hf hnoPS, hmain, ?_⟩
  rw [filter_map_lineOf, filter_map_lineOf, hmain]
  apply List.map_congr_left
  intro e he
  have hmem : e ∈ (finalState (ingest P).pkts).out := by
    unfold startedBy at he
    exact (List.mem_filter.mp he).1
  have hidx := (finalState_inv (ingest P).pkts (ledger_in_range hrP)).idx_lt e hmem
  rw [finalState_pkts] at hidx
  rw [hB]
  exact lineOf_append_left hidx

/-- Witness of C5 as amended: the trace of flow `a` at `t = 0` and `t = 5`,
extended by a record of flow `b` with weight 9 that arrives at `t = 12`, with
`T = 11`; no addition overflows. -/
theorem C5_unarrived_records_do_not_matter_witness :
    wfqMain64 6 [rec6 0 "a" 10, rec6 5 "a" 10] = some [(0, 0), (1, 10)]
      ∧ wfqMain64 6 ([rec6 0 "a" 10, rec6 5 "a" 10] ++ [rec7 12 "b" 1 9])
          = some [(0, 0), (1, 10), (2, 20)]
      ∧ NoOverflow (ingest [rec6 0 "a" 10, rec6 5 "a" 10]).pkts 6
      ∧ NoOverflow (ingest ([rec6 0 "a" 10, rec6 5 "a" 10] ++ [rec7 12 "b" 1 9])).pkts 6
      ∧ ∃ outP outPS, wfqMain64 6 [rec6 0 "a" 10, rec6 5 "a" 10] = some outP
          ∧ wfqMain64 6 ([rec6 0 "a" 10, rec6 5 "a" 10] ++ [rec7 12 "b" 1 9]) = some outPS
          ∧ startedBy 11 outPS = startedBy 11 outP
          ∧ (outPS.map (lineOf (ingest ([rec6 0 "a" 10, rec6 5 "a" 10]
                ++ [rec7 12 "b" 1 9])).pkts)).filter (fun l => decide (l.1 ≤ 11))
              = (outP.map (lineOf (ingest [rec6 0 "a" 10, rec6 5 "a" 10]).pkts)).filter
                  (fun l => decide (l.1 ≤ 11)) :=
  ⟨by decide!, by decide!, by decide!, by decide!,
    C5_unarrived_records_do_not_matter [rec6 0 "a" 10, rec6 5 "a" 10] [rec7 12 "b" 1 9] 11
      (by decide) (by decide) (by decide) 6 (by decide) (by decide!) (by decide!)⟩

/-- C11: for every trace, two accepted records have the same owner priority
if and only if they have equal flow keys, and the owner priority of a record
is the number of distinct flow keys that occur among the accepted records
before the first occurrence of the record's own key. -/
theorem C11_priority_is_discovery_rank (tr : List Line) (i j : Nat)
    (hi : i < (accepted tr).length) (hj : j < (accepted tr).length) :
    ((pk (ingest tr).pkts i).priority = (pk (ingest tr).pkts j).priority
        ↔ keybuf (lineAt (accepted tr) i) = keybuf (lineAt (accepted tr) j))
      ∧ (pk (ingest tr).pkts i).priority = (keysBefore (accepted tr) i).length :=
  ⟨⟨key_eq_of_prio_eq (ingInv_ingest tr) hi hj, prio_eq_of_key_eq (ingInv_ingest tr) hi hj⟩,
    prio_eq_card (ingInv_ingest tr) hi⟩

/-- Witness of C11: flows `a`, `b`, `a`, `c`, `b`; records 1 and 4 are of flow
`b`, the second flow discovered. -/
theorem C11_priority_is_discovery_rank_witness :
    (pk (ingest [rec6 0 "a" 1, rec6 0 "b" 1, rec6 0 "a" 1, rec6 0 "c" 1, rec6 0 "b" 1]).pkts
        4).priority = 1
      ∧ ((pk (ingest [rec6 0 "a" 1, rec6 0 "b" 1, rec6 0 "a" 1, rec6 0 "c" 1,
              rec6 0 "b" 1]).pkts 4).priority
            = (pk (ingest [rec6 0 "a" 1, rec6 0 "b" 1, rec6 0 "a" 1, rec6 0 "c" 1,
                rec6 0 "b" 1]).pkts 1).priority
          ↔ keybuf (lineAt (accepted [rec6 0 "a" 1, rec6 0 "b" 1, rec6 0 "a" 1, rec6 0 "c" 1,
                rec6 0 "b" 1]) 4)
              = keybuf (lineAt (accepted [rec6 0 "a" 1, rec6 0 "b" 1, rec6 0 "a" 1,
                  rec6 0 "c" 1, rec6 0 "b" 1]) 1))
      ∧ (pk (ingest [rec6 0 "a" 1, rec6 0 "b" 1, rec6 0 "a" 1, rec6 0 "c" 1,
            rec6 0 "b" 1]).pkts 4).priority
          = (keysBefore (accepted [rec6 0 "a" 1, rec6 0 "b" 1, rec6 0 "a" 1, rec6 0 "c" 1,
              rec6 0 "b" 1]) 4).length :=
  ⟨by decide,
    C11_priority_is_discovery_rank
      [rec6 0 "a" 1, rec6 0 "b" 1, rec6 0 "a" 1, rec6 0 "c" 1, rec6 0 "b" 1] 4 1
      (by decide) (by decide)⟩

/-- C12: a line for which fewer than six fields are parsed is skipped with no
effect. The ingestion state after the line is the state before it (no flow is
created, no weight or last finish tag changes, no packet is appended), the
ledger and the output of a trace are those of the trace with the line removed,
and the output of any trace is the output of its accepted records alone. -/
theorem C12_short_line_is_skipped (x : Line) (hx : x.matched < 6) (st : Ingest)
    (P S tr : List Line) (fuel : Nat) :
    ingestLine st x = st
      ∧ ingest (P ++ x :: S) = ingest (P ++ S)
      ∧ wfqMain fuel (P ++ x :: S) = wfqMain fuel (P ++ S)
      ∧ ingest tr = ingest (accepted tr)
      ∧ wfqMain fuel tr = wfqMain fuel (accepted tr) := by
  have h1 : ingest (P ++ x :: S) = ingest (P ++ S) := by
    rw [ingest_accepted (P ++ x :: S), ingest_accepted (P ++ S), accepted_cons_skip hx]
  refine ⟨ingestLine_skip hx, h1, ?_, ingest_accepted tr, ?_⟩
  · unfold wfqMain; rw [h1]
  · unfold wfqMain; rw [← ingest_accepted]

/-- Witness of C12: a line with only three fields parsed, between two records
of one flow. -/
theorem C12_short_line_is_skipped_witness :
    (Line.mk "0 a 1" 3 0 "a" "1" "" "" 0 0).matched < 6
      ∧ wfqMain 4 ([rec6 0 "a" 10] ++ Line.mk "0 a 1" 3 0 "a" "1" "" "" 0 0 :: [rec6 5 "a" 10])
          = some [(0, 0), (1, 10)]
      ∧ ingestLine (ingest [rec6 0 "a" 10]) (Line.mk "0 a 1" 3 0 "a" "1" "" "" 0 0)
          = ingest [rec6 0 "a" 10]
      ∧ ingest ([rec6 0 "a" 10] ++ Line.mk "0 a 1" 3 0 "a" "1" "" "" 0 0 :: [rec6 5 "a" 10])
          = ingest ([rec6 0 "a" 10] ++ [rec6 5 "a" 10])
      ∧ wfqMain 4 ([rec6 0 "a" 10] ++ Line.mk "0 a 1" 3 0 "a" "1" "" "" 0 0 :: [rec6 5 "a" 10])
          = wfqMain 4 ([rec6 0 "a" 10] ++ [rec6 5 "a" 10])
      ∧ ingest [rec6 0 "a" 10, Line.mk "0 a 1" 3 0 "a" "1" "" "" 0 0]
          = ingest (accepted [rec6 0 "a" 10, Line.mk "0 a 1" 3 0 "a" "1" "" "" 0 0])
      ∧ wfqMain 4 [rec6 0 "a" 10, Line.mk "0 a 1" 3 0 "a" "1" "" "" 0 0]
          = wfqMain 4 (accepted [rec6 0 "a" 10, Line.mk "0 a 1" 3 0 "a" "1" "" "" 0 0]) :=
  ⟨by decide, by decide!,
    C12_short_line_is_skipped (Line.mk "0 a 1" 3 0 "a" "1" "" "" 0 0) (by decide)
      (ingest [rec6 0 "a" 10]) [rec6 0 "a" 10] [rec6 5 "a" 10]
      [rec6 0 "a" 10, Line.mk "0 a 1" 3 0 "a" "1" "" "" 0 0] 4⟩

/-- C13, the claim refuted: in scenario B (flow `A` weight 1, flow `B` weight
2, one packet of length 20 each at `t = 0`) the finish tags are 20 and 10 and
the packet of `B` is printed first, at start 0; the packet of `A` is printed at
start 20, the start of `B` plus its length, not at 10. -/
theorem C13_scenario_B_counterexample :
    (pk (ingest [rec7 0 "A" 20 1, rec7 0 "B" 20 2]).pkts 0).finish_tag = 20
      ∧ (pk (ingest [rec7 0 "A" 20 1, rec7 0 "B" 20 2]).pkts 1).finish_tag = 10
      ∧ wfqMain 4 [rec7 0 "A" 20 1, rec7 0 "B" 20 2] = some [(1, 0), (0, 20)]
      ∧ ¬ ∃ out, wfqMain 4 [rec7 0 "A" 20 1, rec7 0 "B" 20 2] = some out ∧ (0, 10) ∈ out := by
  refine ⟨by decide!, by decide!, by decide!, ?_⟩
  rintro ⟨out, h1, h2⟩
  have h3 : wfqMain 4 [rec7 0 "A" 20 1, rec7 0 "B" 20 2] = some [(1, 0), (0, 20)] := by decide!
  rw [h3] at h1
  cases h1
  exact absurd h2 (by decide)

/-- C13 as amended: for two accepted records of different flows, the first of
weight 1 (given or by default) and the second of weight 2, both with arrival 0
and length 20, the finish tags are 20 and 10, the second record is printed
first, at start 0, and the first record is printed at start 20. -/
theorem C13_scenario_B (a b : Line) (ha : 6 ≤ a.matched) (haw : a.matched = 7 → a.w = 1)
    (hat : a.t = 0) (haL : a.L = 20) (hb : b.matched = 7) (hbw : b.w = 2) (hbt : b.t = 0)
    (hbL : b.L = 20) (hk : keybuf a ≠ keybuf b) :
    (pk (ingest [a, b]).pkts 0).finish_tag = 20
      ∧ (pk (ingest [a, b]).pkts 1).finish_tag = 10
      ∧ wfqMain 4 [a, b] = some [(1, 0), (0, 20)] := by
  have hp := ingest_two_flows a b ha (by rw [hb]; decide) hk
  have wa : (if a.matched = 7 then a.w else 1 : Int) = 1 := by
    split
    · rename_i h; exact haw h
    · rfl
  have ea : max 0 (a.t : ℚ) + (a.L : ℚ) / ((if a.matched = 7 then a.w else 1 : Int) : ℚ)
      = 20 := by
    rw [wa, hat, haL]; norm_num
  have eb : max 0 (b.t : ℚ) + (b.L : ℚ) / ((if b.matched = 7 then b.w else 1 : Int) : ℚ)
      = 10 := by
    rw [if_pos hb, hbw, hbt, hbL]; norm_num
  rw [ea, eb, hat, haL, hbt, hbL] at hp
  refine ⟨by rw [hp]; rfl, by rw [hp]; rfl, ?_⟩
  unfold wfqMain
  rw [hp]
  rfl

/-- Witness of C13 as amended: the two records of scenario B. -/
theorem C13_scenario_B_witness :
    (pk (ingest [rec7 0 "A" 20 1, rec7 0 "B" 20 2]).pkts 0).finish_tag = 20
      ∧ (pk (ingest [rec7 0 "A" 20 1, rec7 0 "B" 20 2]).pkts 1).finish_tag = 10
      ∧ wfqMain 4 [rec7 0 "A" 20 1, rec7 0 "B" 20 2] = some [(1, 0), (0, 20)] :=
  C13_scenario_B (rec7 0 "A" 20 1) (rec7 0 "B" 20 2) (by decide) (by decide) (by decide)
    (by decide) (by decide) (by decide) (by decide) (by decide) (by decide)

/-- C14, the claim refuted: in scenario A (one flow, no weight, records at
`t = 0` and `t = 5`, both of length 10) the finish tag of the second record is
`max 10 5 + 10 = 20`, not 15; the first tag is 10 and the second start is 10. -/
theorem C14_scenario_A_counterexample :
    (pk (ingest [rec6 0 "a" 10, rec6 5 "a" 10]).pkts 0).finish_tag = 10
      ∧ (pk (ingest [rec6 0 "a" 10, rec6 5 "a" 10]).pkts 1).finish_tag = 20
      ∧ (pk (ingest [rec6 0 "a" 10, rec6 5 "a" 10]).pkts 1).finish_tag ≠ 15
      ∧ wfqMain 4 [rec6 0 "a" 10, rec6 5 "a" 10] = some [(0, 0), (1, 10)] := by
  decide!

/-- C14 as amended: for two accepted records of one flow with no weight
specified, the first with arrival 0 and length 10 and the second with arrival
5 and length 10, the finish tags are 10 and 20, the records are printed in
order, and the second is printed at start 10. -/
theorem C14_scenario_A (a b : Line) (ha : a.matched = 6) (hat : a.t = 0) (haL : a.L = 10)
    (hb : b.matched = 6) (hbt : b.t = 5) (hbL : b.L = 10) (hk : keybuf a = keybuf b) :
    (pk (ingest [a, b]).pkts 0).finish_tag = 10
      ∧ (pk (ingest [a, b]).pkts 1).finish_tag = 20
      ∧ wfqMain 4 [a, b] = some [(0, 0), (1, 10)] := by
  have hp := ingest_one_flow a b ha hb hk
  have ea : max 0 (a.t : ℚ) + (a.L : ℚ) / ((1 : Int) : ℚ) = 10 := by
    rw [hat, haL]; norm_num
  have eb : max (10 : ℚ) (b.t : ℚ) + (b.L : ℚ) / ((1 : Int) : ℚ) = 20 := by
    rw [hbt, hbL]; norm_num
  rw [ea, eb, hat, haL, hbt, hbL] at hp
  refine ⟨by rw [hp]; rfl, by rw [hp]; rfl, ?_⟩
  unfold wfqMain
  rw [hp]
  rfl

/-- Witness of C14 as amended: the two records of scenario A. -/
theorem C14_scenario_A_witness :
    (pk (ingest [rec6 0 "a" 10, rec6 5 "a" 10]).pkts 0).finish_tag = 10
      ∧ (pk (ingest [rec6 0 "a" 10, rec6 5 "a" 10]).pkts 1).finish_tag = 20
      ∧ wfqMain 4 [rec6 0 "a" 10, rec6 5 "a" 10] = some [(0, 0), (1, 10)] :=
  C14_scenario_A (rec6 0 "a" 10) (rec6 5 "a" 10) (by decide) (by decide) (by decide)
    (by decide) (by decide) (by decide) (by decide)

/-- C15: for every finite ledger whose arrival times are values of `long long`,
an iteration of the dispatch loop either marks exactly one packet, unsent
before, as sent, or, when no unsent packet has arrived by the current time,
changes no flag and sets the clock to the arrival time of an unsent packet,
strictly later than the clock before; the iteration after such a fast-forward
sends a packet; and the loop returns with every packet sent once it has fuel
for two iterations per packet. -/
theorem C15_each_iteration_makes_progress (pkts : List Packet)
    (hr : ∀ p ∈ pkts, p.arrival ≤ LLONG_MAX) (n : Nat)
    (hc : (runAt pkts n).sent_cnt < pkts.length) :
    ((∃ b, pending (runAt pkts n) b
          ∧ (runAt pkts (n + 1)).sent = (runAt pkts n).sent.set b true
          ∧ (∀ i, isSent (runAt pkts (n + 1)).sent i = true
                ↔ i = b ∨ isSent (runAt pkts n).sent i = true)
          ∧ (runAt pkts (n + 1)).sent_cnt = (runAt pkts n).sent_cnt + 1)
        ∨ ((∀ j, ¬ eligible (runAt pkts n) j)
          ∧ (runAt pkts (n + 1)).sent = (runAt pkts n).sent
          ∧ (runAt pkts (n + 1)).sent_cnt = (runAt pkts n).sent_cnt
          ∧ (∃ m, pending (runAt pkts n) m
              ∧ (runAt pkts (n + 1)).cur_time = (pk pkts m).arrival)
          ∧ (runAt pkts n).cur_time < (runAt pkts (n + 1)).cur_time
          ∧ ∃ b, pending (runAt pkts (n + 1)) b
              ∧ (runAt pkts (n + 1 + 1)).sent = (runAt pkts (n + 1)).sent.set b true
              ∧ (runAt pkts (n + 1 + 1)).sent_cnt = (runAt pkts n).sent_cnt + 1))
      ∧ ∀ fuel, 2 * pkts.length ≤ fuel →
          ∃ fin, wfqLoop fuel (simInit pkts) = some fin ∧ fin.sent_cnt = pkts.length
            ∧ ∀ i, i < pkts.length → isSent fin.sent i = true := by
  have hr2 : ∀ i, i < pkts.length → (pk pkts i).arrival ≤ LLONG_MAX :=
    fun i hi => hr _ (pk_mem hi)
  have hinv : SimInv (runAt pkts n) := simInv_steps (simInv_init pkts hr2) n
  have hpk := runAt_pkts pkts n
  have hc1 : (runAt pkts n).sent_cnt < (runAt pkts n).pkts.length := by rw [hpk]; exact hc
  have h1 : runAt pkts (n + 1) = wfqIter (runAt pkts n) := by rw [runAt_succ, if_pos hc1]
  have hs := scanInv_scan (runAt pkts n).pkts (runAt pkts n).sent (runAt pkts n).cur_time
  constructor
  · cases hb : (scan (runAt pkts n).pkts (runAt pkts n).sent (runAt pkts n).cur_time).1 with
    | some b =>
      left
      have hbl := hs.best_lt b hb
      refine ⟨b, ⟨hbl, hs.best_unsent b hb⟩, by rw [h1, wfqIter_send hb], ?_,
        by rw [h1, wfqIter_send hb]⟩
      intro i
      rw [h1, wfqIter_send hb]
      simp only [isSent_set, hinv.sent_len, hbl, and_true]
      by_cases hib : i = b
      · simp [hib]
      · simp [hib]
    | none =>
      right
      obtain ⟨hlt, ⟨m, hm, hma⟩, _⟩ := ff_spec hinv hc1 hb
      have hcur : (runAt pkts (n + 1)).cur_time
          = (scan (runAt pkts n).pkts (runAt pkts n).sent (runAt pkts n).cur_time).2 := by
        rw [h1, wfqIter_none hb]
      obtain ⟨b, hb2⟩ := scan_after_ff hinv hc1 hb
      rw [← h1] at hb2
      have hs1 := scanInv_scan (runAt pkts (n + 1)).pkts (runAt pkts (n + 1)).sent
        (runAt pkts (n + 1)).cur_time
      have hcnt1 : (runAt pkts (n + 1)).sent_cnt = (runAt pkts n).sent_cnt := by
        rw [h1, wfqIter_none hb]
      have hc2 : (runAt pkts (n + 1)).sent_cnt < (runAt pkts (n + 1)).pkts.length := by
        rw [hcnt1, runAt_pkts]; exact hc
      have h2 : runAt pkts (n + 1 + 1) = wfqIter (runAt pkts (n + 1)) := by
        rw [runAt_succ pkts (n + 1), if_pos hc2]
      refine ⟨?_, by rw [h1, wfqIter_none hb], hcnt1, ⟨m, hm, by rw [hcur, ← hma, hpk]⟩,
        by rw [hcur]; exact hlt, b, ⟨hs1.best_lt b hb2, hs1.best_unsent b hb2⟩,
        by rw [h2, wfqIter_send hb2], by rw [h2, wfqIter_send hb2, hcnt1]⟩
      intro j hj
      exact hs.none_elig hb j hj.1 hj.2.1 hj.2.2
  · intro fuel hf
    have hdone := finalState_done pkts hr2
    have hfin := finalState_inv pkts hr2
    rw [finalState_pkts] at hdone
    refine ⟨_, wfqLoop_final pkts hr2 fuel hf, ?_, ?_⟩
    · have hle : (finalState pkts).sent_cnt ≤ pkts.length := by
        have hsub : (finalState pkts).out.map Prod.fst ⊆ List.range pkts.length := by
          intro i hi
          obtain ⟨e, he, rfl⟩ := List.mem_map.mp hi
          have := hfin.idx_lt e he
          rw [finalState_pkts] at this
          exact List.mem_range.mpr this
        have := (List.subperm_of_subset hfin.nodup hsub).length_le
        rw [List.length_range, List.length_map, ← hfin.cnt] at this
        exact this
      omega
    · intro i hi
      exact all_sent_of_done hfin.toSimBase (by rw [finalState_pkts]; exact hdone)
        (by rw [finalState_pkts]; exact hi)

/-- Witness of C15: the ledger with a gap after one iteration, when the first
packet is sent and the second has not arrived; the iteration is a fast-forward
to `t = 100` and the next one sends the second packet. -/
theorem C15_each_iteration_makes_progress_witness :
    (runAt gapLedger 1).sent_cnt < gapLedger.length
      ∧ (runAt gapLedger 1).cur_time = 10 ∧ (runAt gapLedger (1 + 1)).cur_time = 100
      ∧ ((∃ b, pending (runAt gapLedger 1) b
            ∧ (runAt gapLedger (1 + 1)).sent = (runAt gapLedger 1).sent.set b true
            ∧ (∀ i, isSent (runAt gapLedger (1 + 1)).sent i = true
                  ↔ i = b ∨ isSent (runAt gapLedger 1).sent i = true)
            ∧ (runAt gapLedger (1 + 1)).sent_cnt = (runAt gapLedger 1).sent_cnt + 1)
          ∨ ((∀ j, ¬ eligible (runAt gapLedger 1) j)
            ∧ (runAt gapLedger (1 + 1)).sent = (runAt gapLedger 1).sent
            ∧ (runAt gapLedger (1 + 1)).sent_cnt = (runAt gapLedger 1).sent_cnt
            ∧ (∃ m, pending (runAt gapLedger 1) m
                ∧ (runAt gapLedger (1 + 1)).cur_time = (pk gapLedger m).arrival)
            ∧ (runAt gapLedger 1).cur_time < (runAt gapLedger (1 + 1)).cur_time
            ∧ ∃ b, pending (runAt gapLedger (1 + 1)) b
                ∧ (runAt gapLedger (1 + 1 + 1)).sent = (runAt gapLedger (1 + 1)).sent.set b true
                ∧ (runAt gapLedger (1 + 1 + 1)).sent_cnt = (runAt gapLedger 1).sent_cnt + 1))
      ∧ ∀ fuel, 2 * gapLedger.length ≤ fuel →
          ∃ fin, wfqLoop fuel (simInit gapLedger) = some fin ∧ fin.sent_cnt = gapLedger.length
            ∧ ∀ i, i < gapLedger.length → isSent fin.sent i = true :=
  ⟨by decide!, by decide!, by decide!,
    C15_each_iteration_makes_progress gapLedger (by decide) 1 (by decide!)⟩

/-- C17: in a trace in which every specified weight is at least one and every
length is not negative, two distinct packets with equal finish tag and equal
owner priority belong to the same flow and the later-ingested has length zero;
hence, when all lengths are positive, distinct packets have distinct pairs
(finish tag, owner priority) and exactly one of the two comes before the other
in the order by finish tag, then owner priority. -/
theorem C17_exact_ties_need_zero_length (tr : List Line)
    (hw : ∀ x ∈ tr, x.matched = 7 → 1 ≤ x.w) (hl : ∀ x ∈ tr, 6 ≤ x.matched → 0 ≤ x.L) :
    (∀ i j, i < j → j < (accepted tr).length →
        (pk (ingest tr).pkts i).finish_tag = (pk (ingest tr).pkts j).finish_tag →
        (pk (ingest tr).pkts i).priority = (pk (ingest tr).pkts j).priority →
        keybuf (lineAt (accepted tr) i) = keybuf (lineAt (accepted tr) j)
          ∧ (lineAt (accepted tr) j).L = 0 ∧ (pk (ingest tr).pkts j).length = 0)
      ∧ ((∀ x ∈ tr, 6 ≤ x.matched → 0 < x.L) →
          ∀ i j, i < (accepted tr).length → j < (accepted tr).length → i ≠ j →
            ¬ ((pk (ingest tr).pkts i).finish_tag = (pk (ingest tr).pkts j).finish_tag
                ∧ (pk (ingest tr).pkts i).priority = (pk (ingest tr).pkts j).priority)
            ∧ (((pk (ingest tr).pkts i).finish_tag < (pk (ingest tr).pkts j).finish_tag
                  ∨ ((pk (ingest tr).pkts i).finish_tag = (pk (ingest tr).pkts j).finish_tag
                    ∧ (pk (ingest tr).pkts i).priority < (pk (ingest tr).pkts j).priority))
                ∨ ((pk (ingest tr).pkts j).finish_tag < (pk (ingest tr).pkts i).finish_tag
                  ∨ ((pk (ingest tr).pkts j).finish_tag = (pk (ingest tr).pkts i).finish_tag
                    ∧ (pk (ingest tr).pkts j).priority
                        < (pk (ingest tr).pkts i).priority)))) := by
  have hinv := ingInv_ingest tr
  have hw2 : ∀ x ∈ accepted tr, x.matched = 7 → 1 ≤ x.w :=
    fun x hx => hw x (mem_accepted.mp hx).1
  have hl2 : ∀ x ∈ accepted tr, 0 ≤ x.L :=
    fun x hx => hl x (mem_accepted.mp hx).1 (mem_accepted.mp hx).2
  have part1 : ∀ i j, i < j → j < (accepted tr).length →
      (pk (ingest tr).pkts i).finish_tag = (pk (ingest tr).pkts j).finish_tag →
      (pk (ingest tr).pkts i).priority = (pk (ingest tr).pkts j).priority →
      keybuf (lineAt (accepted tr) i) = keybuf (lineAt (accepted tr) j)
        ∧ (lineAt (accepted tr) j).L = 0 ∧ (pk (ingest tr).pkts j).length = 0 := by
    intro i j hij hj hF hp
    have hk := key_eq_of_prio_eq hinv (lt_trans hij hj) hj hp
    have h0 := length_zero_of_ftag_eq hinv hw2 hl2 hij hj hk hF
    exact ⟨hk, h0, by rw [(hinv.fields j hj).2.1, h0]⟩
  refine ⟨part1, ?_⟩
  intro hpos i j hi hj hne
  have hposat : ∀ a, a < (accepted tr).length → 0 < (lineAt (accepted tr) a).L := by
    intro a ha
    obtain ⟨m1, m2⟩ := mem_accepted.mp (lineAt_mem ha)
    exact hpos _ m1 m2
  have hdist : ¬ ((pk (ingest tr).pkts i).finish_tag = (pk (ingest tr).pkts j).finish_tag
      ∧ (pk (ingest tr).pkts i).priority = (pk (ingest tr).pkts j).priority) := by
    rintro ⟨hF, hp⟩
    rcases lt_or_gt_of_ne hne with h | h
    · have := (part1 i j h hj hF hp).2.1
      have := hposat j hj
      omega
    · have := (part1 j i h hi hF.symm hp.symm).2.1
      have := hposat i hi
      omega
  refine ⟨hdist, ?_⟩
  rcases lt_trichotomy (pk (ingest tr).pkts i).finish_tag (pk (ingest tr).pkts j).finish_tag
    with h | h | h
  · exact Or.inl (Or.inl h)
  · rcases lt_trichotomy (pk (ingest tr).pkts i).priority (pk (ingest tr).pkts j).priority
      with h2 | h2 | h2
    · exact Or.inl (Or.inr ⟨h, h2⟩)
    · exact absurd ⟨h, h2⟩ hdist
    · exact Or.inr (Or.inr ⟨h.symm, h2⟩)
  · exact Or.inr (Or.inl h)

/-- Witness of C17: flow `a` with records of lengths 10 and 0 at `t = 0`, which
tie, and a record of flow `b`. -/
theorem C17_exact_ties_need_zero_length_witness :
    (pk (ingest [rec6 0 "a" 10, rec6 0 "b" 10, rec6 0 "a" 0]).pkts 0).finish_tag
        = (pk (ingest [rec6 0 "a" 10, rec6 0 "b" 10, rec6 0 "a" 0]).pkts 2).finish_tag
      ∧ (pk (ingest [rec6 0 "a" 10, rec6 0 "b" 10, rec6 0 "a" 0]).pkts 0).priority
        = (pk (ingest [rec6 0 "a" 10, rec6 0 "b" 10, rec6 0 "a" 0]).pkts 2).priority
      ∧ keybuf (lineAt (accepted [rec6 0 "a" 10, rec6 0 "b" 10, rec6 0 "a" 0]) 0)
        = keybuf (lineAt (accepted [rec6 0 "a" 10, rec6 0 "b" 10, rec6 0 "a" 0]) 2)
      ∧ (lineAt (accepted [rec6 0 "a" 10, rec6 0 "b" 10, rec6 0 "a" 0]) 2).L = 0
      ∧ (pk (ingest [rec6 0 "a" 10, rec6 0 "b" 10, rec6 0 "a" 0]).pkts 2).length = 0 :=
  ⟨by decide!, by decide!,
    (C17_exact_ties_need_zero_length [rec6 0 "a" 10, rec6 0 "b" 10, rec6 0 "a" 0]
      (by decide) (by decide)).1 0 2 (by decide) (by decide) (by decide!) (by decide!)⟩

/-- C18: after ingesting any prefix `P` of any trace `P ++ S`, the keys of the
registered flows are pairwise distinct, the priorities of the flow entries
are `0, 1, ..` in the order of the entries, and the next priority to assign is
the number of entries; the entries are in creation order, as the keys
registered after `P` stay, in order, at the front of those registered after
`P ++ S`. -/
theorem C18_registry_invariant (P S : List Line) :
    ((ingest P).flows.map flow_info.key).Nodup
      ∧ (ingest P).flows.map flow_info.priority = List.range (ingest P).flows.length
      ∧ (ingest P).next_prio = (ingest P).flows.length
      ∧ ((ingest P).flows.map flow_info.priority).Nodup
      ∧ (ingest P).flows.map flow_info.key <+: (ingest (P ++ S)).flows.map flow_info.key
      ∧ (ingest P).flows.map flow_info.priority
          <+: (ingest (P ++ S)).flows.map flow_info.priority := by
  have hinv := ingInv_ingest P
  have hk := keys_prefix P S
  refine ⟨keys_nodup hinv, priorities_eq_range hinv, hinv.prio_next, ?_, hk, ?_⟩
  · rw [priorities_eq_range hinv]; exact List.nodup_range _
  · rw [priorities_eq_range hinv, priorities_eq_range (ingInv_ingest (P ++ S))]
    have hle := hk.length_le
    rw [List.length_map, List.length_map] at hle
    rw [List.prefix_iff_eq_take, List.length_range, List.take_range,
      min_eq_left hle]

/-- C19: per-flow FIFO. In a trace in which every specified weight is at least
one and every length is not negative, for accepted records `i` before `j` of
the same flow with the arrival of `i` at most the arrival of `j`, the program
returns and prints `i` before `j`. -/
theorem C19_per_flow_fifo (tr : List Line) (hr : InRange tr)
    (hw : ∀ x ∈ tr, x.matched = 7 → 1 ≤ x.w) (hl : ∀ x ∈ tr, 6 ≤ x.matched → 0 ≤ x.L)
    (fuel : Nat) (hf : 2 * (accepted tr).length ≤ fuel) (i j : Nat) (hij : i < j)
    (hj : j < (accepted tr).length)
    (hk : keybuf (lineAt (accepted tr) i) = keybuf (lineAt (accepted tr) j))
    (ha : (lineAt (accepted tr) i).t ≤ (lineAt (accepted tr) j).t) :
    ∃ out, wfqMain fuel tr = some out ∧ emittedBefore out i j := by
  have hinv := ingInv_ingest tr
  have hlen := ingest_pkts_length tr
  have hi : i < (accepted tr).length := lt_trans hij hj
  have hF : (pk (ingest tr).pkts i).finish_tag ≤ (pk (ingest tr).pkts j).finish_tag :=
    ftag_mono hinv (fun x hx => hw x (mem_accepted.mp hx).1) i j hij hj hk
      (fun m _ hm2 _ => by
        obtain ⟨m1, m2⟩ := mem_accepted.mp (lineAt_mem (lt_of_le_of_lt hm2 hj))
        exact hl _ m1 m2)
  have hp := prio_eq_of_key_eq hinv hi hj hk
  have hbef : before (ingest tr).pkts i j := by
    unfold before
    rcases lt_or_eq_of_le hF with h | h
    · exact Or.inl h
    · exact Or.inr ⟨h, Or.inr ⟨hp, hij⟩⟩
  refine ⟨_, wfqMain_eq hr hf, ?_⟩
  apply fifo_order (ledger_in_range hr) (by rw [hlen]; exact hi) (by rw [hlen]; exact hj) _ hbef
  rw [(hinv.fields i hi).1, (hinv.fields j hj).1]
  exact ha

/-- Witness of C19: flow `a` has records 0 and 2, flow `b` of weight 4 has
record 1 between them; record 0 is printed before record 2. -/
theorem C19_per_flow_fifo_witness :
    wfqMain 6 [rec6 0 "a" 10, rec7 0 "b" 8 4, rec6 3 "a" 1] = some [(1, 0), (0, 8), (2, 18)]
      ∧ ∃ out, wfqMain 6 [rec6 0 "a" 10, rec7 0 "b" 8 4, rec6 3 "a" 1] = some out
        ∧ emittedBefore out 0 2 :=
  ⟨by decide!,
    C19_per_flow_fifo [rec6 0 "a" 10, rec7 0 "b" 8 4, rec6 3 "a" 1] (by decide) (by decide)
      (by decide) 6 (by decide) 0 2 (by decide) (by decide) (by decide) (by decide)⟩

end WFQ
